import Mathlib

/-!
# rain: the `cfn` template tree, path addressing and the dependency graph

A shallow embedding of `cfn/cfn.go`:

* `Node` stands for `yaml.Node`; only the fields that `getNode` and `setNode`
  read or write are kept (`Kind`, `Tag`, `Value`, `Content`).  `Content` is the
  flat slice of the YAML library: in a Mapping node keys sit at even positions and
  their values right after them.
* `getNode`, `setNode`, `Template.Get`, `Template.Set`, `NewTemplate`,
  `Template.Map` and `Template.Graph` follow the Go functions of the same name.
* A Go call can return normally, return an error, or panic (a slice index out of
  range, a failed type assertion, an explicit `panic`); the three are kept apart.
* `setNode` calls itself on the same path after it has initialised a node that had
  no kind, so it is defined with a fuel argument; `Template.Set` supplies the fuel.
* `value.Map` and its methods follow `cfn/value/map.go`; the order in which Go's
  `range` visits the keys of a map is a parameter of `Map.Keys` and `Map.Nodes`.
-/

namespace Cfn

/-! ## The YAML node -/

/-- Kind constants of the YAML library (`yaml.Kind`); zero is the kind of a fresh `yaml.Node{}`. -/
def DocumentNode : Nat := 1

/-- Kind of a sequence node. -/
def SequenceNode : Nat := 2

/-- Kind of a mapping node. -/
def MappingNode : Nat := 4

/-- Kind of a scalar node. -/
def ScalarNode : Nat := 8

/-- Kind of an alias node. -/
def AliasNode : Nat := 16

/-- The `yaml.Node` tree: kind, tag, value and the flat list of children. -/
inductive Node where
  | mk (kind : Nat) (tag : String) (value : String) (content : List Node)
deriving Repr, Inhabited

namespace Node

/-- Field `Kind`. -/
def kind : Node → Nat
  | mk k _ _ _ => k

/-- Field `Tag`. -/
def tag : Node → String
  | mk _ t _ _ => t

/-- Field `Value`. -/
def value : Node → String
  | mk _ _ v _ => v

/-- Field `Content`. -/
def content : Node → List Node
  | mk _ _ _ c => c

/-- Assignment `node.Content = c`. -/
def withContent : Node → List Node → Node
  | mk k t v _, c => mk k t v c

/-- The zero value `yaml.Node{}`. -/
def zero : Node := mk 0 "" "" []

end Node

mutual
/-- Equality of two nodes can be decided field by field. -/
def Node.decEq : (a b : Node) → Decidable (a = b)
  | .mk k t v c, .mk k' t' v' c' =>
    if hk : k = k' then
      if ht : t = t' then
        if hv : v = v' then
          match Node.decEqList c c' with
          | isTrue hc => isTrue (by rw [hk, ht, hv, hc])
          | isFalse hc => isFalse (fun h => hc (by cases h; rfl))
        else isFalse (fun h => hv (by cases h; rfl))
      else isFalse (fun h => ht (by cases h; rfl))
    else isFalse (fun h => hk (by cases h; rfl))
/-- Equality of two lists of nodes. -/
def Node.decEqList : (a b : List Node) → Decidable (a = b)
  | [], [] => isTrue rfl
  | [], _ :: _ => isFalse (fun h => by cases h)
  | _ :: _, [] => isFalse (fun h => by cases h)
  | a :: as, b :: bs =>
    match Node.decEq a b with
    | isTrue h =>
      match Node.decEqList as bs with
      | isTrue hs => isTrue (by rw [h, hs])
      | isFalse hs => isFalse (fun h' => hs (by cases h'; rfl))
    | isFalse h => isFalse (fun h' => h (by cases h'; rfl))
end

instance : DecidableEq Node := Node.decEq

/-! ## Paths, errors and outcomes -/

/-- One element of a `[]interface{}` path: a Go `string`, a Go `int`, or a value of
any other dynamic type (named by its type). -/
inductive Seg where
  | str (s : String)
  | int (i : Int)
  | other (ty : String)
deriving Repr, DecidableEq, Inhabited

/-- What `%T` prints for a path element. -/
def Seg.typeName : Seg → String
  | .str _ => "string"
  | .int _ => "int"
  | .other ty => ty

/-- The errors built by `getNode`, `setNode` and `node.Encode`. -/
inductive Err where
  /-- Message `Attempted to index a map with a %T` -/
  | mapIndexType (ty : String)
  /-- Message `Unable to find map key '%s'` -/
  | unknownKey (s : String)
  /-- Message `Attmpted to index a sequence with a %T` -/
  | seqIndexType (ty : String)
  /-- Message `Sequence index out of range: %d` -/
  | indexOutOfRange (i : Int)
  /-- Message `Attempted to index a scalar` -/
  | notIndexable
  /-- Message `Alias nodes are not supported` -/
  | aliasUnsupported
  /-- Message `Unexpected node Kind: %d` -/
  | unexpectedKind (k : Nat)
  /-- Message `Unexpected index element: %#v` -/
  | unexpectedIndex (ty : String)
  /-- an error returned by `node.Encode` -/
  | encoding (ty : String)
deriving Repr, DecidableEq, Inhabited

/-- Result of a Go call that returns `(value, error)`. -/
inductive Outcome (α : Type) where
  | ok (a : α)
  | error (e : Err)
  | panic
deriving Repr, DecidableEq

/-- Result of a Go call that returns only `error`. -/
inductive Status where
  | ok
  | error (e : Err)
  | panic
deriving Repr, DecidableEq, Inhabited

/-! ## Host values and the encoder of the YAML library -/

/-- A Go value handed to `node.Encode` or produced by `node.Decode`.  A
`map[string]interface{}` is the list of its entries; `generalMap` is a
`map[interface{}]interface{}`, the type the decoder gives a mapping that has a key
which is not a string; `unsupported` is a value the encoder rejects (a channel, a
function). -/
inductive Value where
  | null
  | bool (b : Bool)
  | int (i : Int)
  | str (s : String)
  | list (xs : List Value)
  | map (entries : List (String × Value))
  | generalMap (entries : List (Value × Value))
  | unsupported (ty : String)
deriving Repr, Inhabited

/-- The node `keyNode.SetString(s)` leaves behind: a `!!str` scalar holding `s`. -/
def setString (s : String) : Node := Node.mk ScalarNode "!!str" s []

/-- The node of an empty `map[string]interface{}{}`. -/
def emptyMapping : Node := Node.mk MappingNode "!!map" "" []

/-- The node of an empty `[]interface{}{}`. -/
def emptySequence : Node := Node.mk SequenceNode "!!seq" "" []

mutual
/-- The node `node.Encode(v)` writes: a scalar for a primitive, a Sequence for a
slice, a Mapping (key node, value node, ...) for a map. -/
def encode : Value → Except Err Node
  | .null => .ok (Node.mk ScalarNode "!!null" "null" [])
  | .bool b => .ok (Node.mk ScalarNode "!!bool" (if b then "true" else "false") [])
  | .int i => .ok (Node.mk ScalarNode "!!int" (toString i) [])
  | .str s => .ok (setString s)
  | .list xs =>
    match encodeList xs with
    | .ok c => .ok (Node.mk SequenceNode "!!seq" "" c)
    | .error e => .error e
  | .map es =>
    match encodeEntries es with
    | .ok c => .ok (Node.mk MappingNode "!!map" "" c)
    | .error e => .error e
  | .generalMap es =>
    match encodePairs es with
    | .ok c => .ok (Node.mk MappingNode "!!map" "" c)
    | .error e => .error e
  | .unsupported ty => .error (.encoding ty)
/-- Children of an encoded slice. -/
def encodeList : List Value → Except Err (List Node)
  | [] => .ok []
  | x :: xs =>
    match encode x with
    | .error e => .error e
    | .ok n =>
      match encodeList xs with
      | .error e => .error e
      | .ok ns => .ok (n :: ns)
/-- Children of an encoded map: key node, value node, key node, value node, ... -/
def encodeEntries : List (String × Value) → Except Err (List Node)
  | [] => .ok []
  | (k, v) :: es =>
    match encode v with
    | .error e => .error e
    | .ok n =>
      match encodeEntries es with
      | .error e => .error e
      | .ok ns => .ok (setString k :: n :: ns)
/-- Children of an encoded `map[interface{}]interface{}`: the key is encoded like any
other value. -/
def encodePairs : List (Value × Value) → Except Err (List Node)
  | [] => .ok []
  | (k, v) :: es =>
    match encode k with
    | .error e => .error e
    | .ok nk =>
      match encode v with
      | .error e => .error e
      | .ok n =>
        match encodePairs es with
        | .error e => .error e
        | .ok ns => .ok (nk :: n :: ns)
end

/-! ## The decoder of the YAML library

`node.Decode` is not part of the repository; what follows is the part of it that
`Template.Map` runs through, for the fields a `Node` keeps.  Out of its reach are the
scalars whose Go value `Value` does not hold (a `!!float`, a `!!timestamp`, a
`!!binary`, taken as their text), merge keys, and the target of an alias node (an
alias node is taken as a failure). -/

/-- What decoding one node does to its target: it sets a value, it leaves the target
as it was without an error, or the call to `Decode` fails (an error or a panic). -/
inductive Decoded (α : Type) where
  | value (a : α)
  | skipped
  | failed
deriving Repr

/-- The `shortTag` of the library: `tag:yaml.org,2002:str` is `!!str`. -/
def shortTag (tag : String) : String :=
  if "tag:yaml.org,2002:".data.isPrefixOf tag.data then "!!" ++ String.mk (tag.data.drop 18)
  else tag

/-- The value of a digit or letter in `strconv.ParseUint`. -/
def digitValue (c : Char) : Option Nat :=
  if '0' ≤ c ∧ c ≤ '9' then some (c.toNat - '0'.toNat)
  else if 'a' ≤ c ∧ c ≤ 'z' then some (c.toNat - 'a'.toNat + 10)
  else if 'A' ≤ c ∧ c ≤ 'Z' then some (c.toNat - 'A'.toNat + 10)
  else none

/-- The digit loop of `strconv.ParseUint`: every character is a digit of the base. -/
def parseDigits (base : Nat) : Nat → List Char → Option Nat
  | n, [] => some n
  | n, c :: cs =>
    match digitValue c with
    | some d => if d < base then parseDigits base (n * base + d) cs else none
    | none => none

/-- Go's `strconv.ParseUint(s, base, 64)` on a text without underscores, for the
bases 0, 2 and 8 that `resolve` passes: with base 0 the prefix picks the base
(`0b`, `0o`, `0x`, a leading `0` for octal). -/
def ParseUint (s : List Char) (base : Nat) : Option Nat :=
  match s with
  | [] => none
  | _ =>
    let split : Nat × List Char :=
      if base ≠ 0 then (base, s)
      else
        match s with
        | '0' :: c :: d :: rest =>
          if c = 'b' ∨ c = 'B' then (2, d :: rest)
          else if c = 'o' ∨ c = 'O' then (8, d :: rest)
          else if c = 'x' ∨ c = 'X' then (16, d :: rest)
          else (8, c :: d :: rest)
        | '0' :: rest => (8, rest)
        | _ => (10, s)
    match parseDigits split.1 0 split.2 with
    | some n => if n < 2 ^ 64 then some n else none
    | none => none

/-- Go's `strconv.ParseInt(s, base, 64)`: an optional sign, then `ParseUint`. -/
def ParseInt (s : List Char) (base : Nat) : Option Int :=
  match s with
  | [] => none
  | '+' :: rest =>
    match ParseUint rest base with
    | some n => if n < 2 ^ 63 then some (n : Int) else none
    | none => none
  | '-' :: rest =>
    match ParseUint rest base with
    | some n => if n ≤ 2 ^ 63 then some (-(n : Int)) else none
    | none => none
  | _ =>
    match ParseUint s base with
    | some n => if n < 2 ^ 63 then some (n : Int) else none
    | none => none

/-- The two retries of `resolve` on a text that begins with `0b` or `-0b` (base 2)
or with `0o` or `-0o` (base 8). -/
def prefixedInt (letter : Char) (base : Nat) (plain : List Char) : Option Int :=
  match plain with
  | '0' :: c :: rest =>
    if c = letter then
      match ParseInt rest base with
      | some i => some i
      | none => (ParseUint rest base).map Int.ofNat
    else none
  | '-' :: '0' :: c :: rest => if c = letter then ParseInt ('-' :: rest) base else none
  | _ => none

/-- The integer `resolve` reads from a plain scalar: the text begins with a digit or a
sign, underscores are dropped, and `ParseInt`, `ParseUint` and the retries with the
prefixes `0b` and `0o` are tried in this order. -/
def resolveInt (text : String) : Option Int :=
  match text.data with
  | [] => none
  | c :: _ =>
    if ('0' ≤ c ∧ c ≤ '9') ∨ c = '+' ∨ c = '-' then
      let plain := text.data.filter (fun x => x != '_')
      match ParseInt plain 0 with
      | some i => some i
      | none =>
        match ParseUint plain 0 with
        | some n => some (n : Int)
        | none =>
          match prefixedInt 'b' 2 plain with
          | some i => some i
          | none => prefixedInt 'o' 8 plain
    else none

/-- The plain resolution of a scalar text among null, boolean and integer: the table
`resolveMap` of the library, then the integer forms. -/
def resolvePlain (text : String) : Option Value :=
  if text ∈ ["", "~", "null", "Null", "NULL"] then some .null
  else if text ∈ ["true", "True", "TRUE"] then some (.bool true)
  else if text ∈ ["false", "False", "FALSE"] then some (.bool false)
  else (resolveInt text).map .int

/-- The short tag of a resolved value. -/
def Value.tag : Value → String
  | .null => "!!null"
  | .bool _ => "!!bool"
  | .int _ => "!!int"
  | .str _ => "!!str"
  | .list _ => "!!seq"
  | _ => "!!map"

/-- The `resolve` of the library, as `d.scalar` uses it for an `interface{}` target:
a `!!str` scalar is its text, an untagged scalar is what its text resolves to, a
scalar tagged `!!null`, `!!bool` or `!!int` must resolve to that tag (`none` is the
failure `cannot decode ... as ...`), and a scalar with any other tag is its text. -/
def resolveScalar (tag text : String) : Option Value :=
  if shortTag tag = "!!str" then some (.str text)
  else if shortTag tag = "" then
    match resolvePlain text with
    | some x => some x
    | none => some (.str text)
  else if shortTag tag = "!!null" ∨ shortTag tag = "!!bool" ∨ shortTag tag = "!!int" then
    match resolvePlain text with
    | some x => if x.tag = shortTag tag then some x else none
    | none => none
  else some (.str text)

/-- The method `ShortTag` of a node: the tag it has, or for an untagged node the tag
its kind and text give it. -/
def Node.ShortTag (n : Node) : String :=
  if n.kind = ScalarNode ∧ shortTag n.tag = "!!str" then "!!str"
  else if n.tag = "" ∨ n.tag = "!" then
    if n.kind = MappingNode then "!!map"
    else if n.kind = SequenceNode then "!!seq"
    else if n.kind = ScalarNode then
      match resolveScalar "" n.value with
      | some x => x.tag
      | none => "!!str"
    else if n.kind = 0 ∧ n.tag = "" ∧ n.value = "" ∧ n.content = [] then "!!null"
    else ""
  else shortTag n.tag

/-- Two key nodes that the check of unique keys takes for the same key: same kind,
same text. -/
def sameKey (a b : Node) : Bool := a.kind == b.kind && a.value == b.value

/-- One of the keys (the nodes at even positions) is the same key as `k`. -/
def keyAmong (k : Node) : List Node → Bool
  | [] => false
  | [k2] => sameKey k k2
  | k2 :: _ :: rest => sameKey k k2 || keyAmong k rest

/-- The check of unique keys in `d.mapping`: two keys of the Mapping are the same. -/
def repeatedKey : List Node → Bool
  | [] => false
  | [_] => false
  | k :: _ :: rest => keyAmong k rest || repeatedKey rest

/-- The `isStringMap` of the library: every key of the Mapping has the tag `!!str`. -/
def isStringMap : List Node → Bool
  | [] => true
  | [k] => k.ShortTag == "!!str"
  | k :: _ :: rest => k.ShortTag == "!!str" && isStringMap rest

/-- A map or a slice, which `d.mapping` rejects as a key (`invalid map key`). -/
def Value.isContainer : Value → Bool
  | .list _ => true
  | .map _ => true
  | .generalMap _ => true
  | _ => false

/-- A key node decoded into a Go `string`, the key type of `map[string]interface{}`:
a scalar gives its text, whatever it resolves to, except that a null key leaves the
target alone; a Mapping or a Sequence is a type error. -/
def decodeKey (k : Node) : Decoded String :=
  if k.kind = ScalarNode then
    match resolveScalar k.tag k.value with
    | none => .failed
    | some .null => .skipped
    | some _ => .value k.value
  else if k.kind = 0 ∧ k.tag = "" ∧ k.value = "" ∧ k.content = [] then .skipped
  else .failed

mutual
/-- The `d.unmarshal` of the library for an `interface{}` target. -/
def decode : Node → Decoded Value
  | .mk k tag v c =>
    if k = DocumentNode then decodeOnly c
    else if k = ScalarNode then
      match resolveScalar tag v with
      | some x => .value x
      | none => .failed
    else if k = SequenceNode then
      match decodeList c with
      | some xs => .value (.list xs)
      | none => .failed
    else if k = MappingNode then
      if repeatedKey c then .failed
      else if isStringMap c then
        match decodeEntries c with
        | some es => .value (.map es)
        | none => .failed
      else
        match decodePairs c with
        | some es => .value (.generalMap es)
        | none => .failed
    else if k = 0 ∧ tag = "" ∧ v = "" ∧ c = [] then .value .null
    else .failed
/-- The `d.document` of the library: a Document with exactly one child decodes the
child; any other Document leaves the target alone. -/
def decodeOnly : List Node → Decoded Value
  | [child] =>
    match decode child with
    | .skipped => .value .null
    | r => r
  | _ => .skipped
/-- The loop of `d.sequence`: the elements that were set, in order. -/
def decodeList : List Node → Option (List Value)
  | [] => some []
  | n :: ns =>
    match decode n with
    | .failed => none
    | .skipped => decodeList ns
    | .value x =>
      match decodeList ns with
      | some xs => some (x :: xs)
      | none => none
/-- The loop of `d.mapping` into a `map[string]interface{}`: the value of an entry is
read once its key is set, so a key without a value is a read past the end. -/
def decodeEntries : List Node → Option (List (String × Value))
  | [] => some []
  | [k] =>
    match decodeKey k with
    | .skipped => some []
    | _ => none
  | k :: n :: rest =>
    match decodeKey k with
    | .failed => none
    | .skipped => decodeEntries rest
    | .value s =>
      match decode n with
      | .failed => none
      | .skipped => decodeEntries rest
      | .value x =>
        match decodeEntries rest with
        | some es => some ((s, x) :: es)
        | none => none
/-- The loop of `d.mapping` into a `map[interface{}]interface{}`. -/
def decodePairs : List Node → Option (List (Value × Value))
  | [] => some []
  | [k] =>
    match decode k with
    | .skipped => some []
    | _ => none
  | k :: n :: rest =>
    match decode k with
    | .failed => none
    | .skipped => decodePairs rest
    | .value kv =>
      if kv.isContainer then none
      else
        match decode n with
        | .failed => none
        | .skipped => decodePairs rest
        | .value x =>
          match decodePairs rest with
          | some es => some ((kv, x) :: es)
          | none => none
end

mutual
/-- The `d.unmarshal` of the library for a `map[string]interface{}` target, which is
what `Template.Map` decodes into: a Mapping gives its entries, a null gives the nil
map, anything else is a type error. -/
def decodeMap : Node → Option (List (String × Value))
  | .mk k tag v c =>
    if k = DocumentNode then decodeMapOnly c
    else if k = MappingNode then (if repeatedKey c then none else decodeEntries c)
    else if k = ScalarNode then
      match resolveScalar tag v with
      | some .null => some []
      | _ => none
    else if k = 0 ∧ tag = "" ∧ v = "" ∧ c = [] then some []
    else none
/-- The `d.document` of the library for the same target. -/
def decodeMapOnly : List Node → Option (List (String × Value))
  | [child] => decodeMap child
  | _ => some []
end

/-! ## getNode and setNode -/

/-- The loop `for i := 0; i < len(node.Content); i += 2` of `getNode` and `setNode`:
the first even index whose node has `Value == s`. -/
def findKey (s : String) : List Node → Option Nat
  | [] => none
  | [k] => if k.value = s then some 0 else none
  | k :: _ :: rest => if k.value = s then some 0 else (findKey s rest).map (· + 2)

/-- Go's `getNode(node, path)`. -/
def getNode : Node → List Seg → Outcome Node
  | node, [] => .ok node
  | node, index :: path =>
    if node.kind = DocumentNode ∨ node.kind = MappingNode then
      match index with
      | .str s =>
        match findKey s node.content with
        | some i =>
          match node.content[i + 1]? with
          | some child => getNode child path
          | none => .panic
        | none => .error (.unknownKey s)
      | _ => .error (.mapIndexType index.typeName)
    else if node.kind = SequenceNode then
      match index with
      | .int i =>
        if i < 0 ∨ i ≥ node.content.length then .error (.indexOutOfRange i)
        else
          match node.content[i.toNat]? with
          | some child => getNode child path
          | none => .panic
      | _ => .error (.seqIndexType index.typeName)
    else if node.kind = ScalarNode then .error .notIndexable
    else if node.kind = AliasNode then .error .aliasUnsupported
    else .error (.unexpectedKind node.kind)

/-- Go's `setNode(node, path, value)`: the node after the call and what the call
returned.  `none` means the fuel ran out. -/
def setNode : Nat → Node → List Seg → Value → Option (Node × Status)
  | 0, _, _, _ => none
  | _ + 1, node, [], value =>
    match encode value with
    | .ok n => some (n, .ok)
    | .error e => some (node, .error e)
  | fuel + 1, node, index :: nextPath, value =>
    if node.kind = DocumentNode ∨ node.kind = MappingNode then
      match index with
      | .str s =>
        match findKey s node.content with
        | some i =>
          match node.content[i + 1]? with
          | some child =>
            match setNode fuel child nextPath value with
            | some (child', st) => some (node.withContent (node.content.set (i + 1) child'), st)
            | none => none
          | none => some (node, .panic)
        | none =>
          match setNode fuel Node.zero nextPath value with
          | some (valueNode, .ok) =>
            some (node.withContent (node.content ++ [setString s, valueNode]), .ok)
          | some (_, st) => some (node, st)
          | none => none
      | _ => some (node, .error (.mapIndexType index.typeName))
    else if node.kind = SequenceNode then
      match index with
      | .int i =>
        if i < 0 ∨ i > node.content.length then some (node, .error (.indexOutOfRange i))
        else if i < node.content.length then
          match node.content[i.toNat]? with
          | some child =>
            match setNode fuel child nextPath value with
            | some (child', st) => some (node.withContent (node.content.set i.toNat child'), st)
            | none => none
          | none => some (node, .panic)
        else
          match setNode fuel Node.zero nextPath value with
          | some (valueNode, .ok) => some (node.withContent (node.content ++ [valueNode]), .ok)
          | some (_, st) => some (node, st)
          | none => none
      | _ => some (node, .error (.seqIndexType index.typeName))
    else if node.kind = ScalarNode then some (node, .error .notIndexable)
    else if node.kind = AliasNode then some (node, .error .aliasUnsupported)
    else
      match index with
      | .str _ =>
        match encode (.map []) with
        | .error e => some (node, .error e)
        | .ok n => setNode fuel n (index :: nextPath) value
      | .int _ =>
        match encode (.list []) with
        | .error e => some (node, .error e)
        | .ok n => setNode fuel n (index :: nextPath) value
      | .other ty => some (node, .error (.unexpectedIndex ty))

/-- Go's `Template.Get`. -/
def Template.Get (t : Node) (path : List Seg) : Outcome Node := getNode t path

/-- Go's `Template.Set`; every path element is dispatched at most twice, and the
last call encodes the value. -/
def Template.Set (t : Node) (path : List Seg) (value : Value) : Option (Node × Status) :=
  setNode (2 * path.length + 1) t path value

/-- Go's `NewTemplate`: the encoding of the map; a failed encoding panics. -/
def NewTemplate (m : List (String × Value)) : Option Node :=
  match encode (.map m) with
  | .ok n => some n
  | .error _ => none

/-- Go's `Template.Map`: the template decoded into a `map[string]interface{}`;
`none` is the panic on a decoding error. -/
def Template.Map (t : Node) : Option (List (String × Value)) := decodeMap t

/-! ## The dependency graph -/

/-- Go's constant `pseudoParameterType`. -/
def pseudoParameterType : String := "Parameter"

/-- Go's `Element`: a top-level entry of the template, its name and the name of
the section (`Type` in Go) that holds it. -/
structure Element where
  Name : String
  TypeName : String
deriving Repr, DecidableEq, Inhabited

/-- Modelled from the spec: the `graph` package (`graph.Graph`, `graph.New`, `Add`)
is not among the sources.  A graph is a set of elements and a set of directed
edges, kept here as duplicate-free lists in the order of first insertion. -/
structure Graph where
  nodes : List Element
  edges : List (Element × Element)
deriving Repr, DecidableEq, Inhabited

/-- Modelled from the spec: `graph.New()`, the empty graph. -/
def Graph.New : Graph := ⟨[], []⟩

/-- Insertion into a duplicate-free list: adding what is already there is a no-op. -/
def insertOnce {α : Type} [DecidableEq α] (a : α) (l : List α) : List α :=
  if a ∈ l then l else l ++ [a]

/-- Modelled from the spec: `g.Add(item, links...)` registers `item`, registers every
link and adds the edge from `item` to it; each insertion is idempotent. -/
def Graph.Add (g : Graph) (item : Element) (links : List Element) : Graph :=
  links.foldl
    (fun acc link => ⟨insertOnce link acc.nodes, insertOnce (item, link) acc.edges⟩)
    ⟨insertOnce item g.nodes, g.edges⟩

/-- Result of `strings.Split(toName, ".")[0]`: what stands before the first dot. -/
def beforeDot (s : String) : String := String.mk (s.data.takeWhile (fun c => c != '.'))

/-- Go's `strings.HasPrefix(s, p)`. -/
def hasPrefix (s p : String) : Bool := p.data.isPrefixOf s.data

/-- How `Graph` can end: it returns the graph, or it panics: with the message
`Template has unresolved dependency '%s' at %s: %s`, on the type assertion
`res.(map[string]interface{})`, or inside `t.Map()`. -/
inductive GraphOutcome where
  | ok (g : Graph)
  | unresolved (toName typeName fromName : String)
  | notAMap (typeName fromName : String)
  | mapFailed
deriving Repr, DecidableEq, Inhabited

/-- The first loop of `Graph`: the names declared under `Parameters` and `Resources`.
A Go map assignment `entities[name] = typeName` puts the binding in front, so the
binding `List.lookup` finds is the one written last.  The list of sections is
walked in the order in which Go iterates the map. -/
def entitiesOf (m : List (String × Value)) : List (String × String) :=
  m.foldl
    (fun entities sec =>
      if sec.1 ≠ "Parameters" ∧ sec.1 ≠ "Resources" then entities
      else
        match sec.2 with
        | .map entityTree =>
          entityTree.foldl (fun acc entry => (entry.1, sec.1) :: acc) entities
        | _ => entities)
    []

/-- The loop `for _, toName := range getRefs(resource)` of `Graph`. -/
def addRefs (entities : List (String × String)) (typeName fromName : String) :
    List String → Graph → GraphOutcome
  | [], g => .ok g
  | raw :: rest, g =>
    let toName := beforeDot raw
    match entities.lookup toName with
    | some toType =>
      addRefs entities typeName fromName rest (g.Add ⟨fromName, typeName⟩ [⟨toName, toType⟩])
    | none =>
      if hasPrefix toName "AWS::" then
        addRefs entities typeName fromName rest
          (g.Add ⟨fromName, typeName⟩ [⟨toName, "Parameters"⟩])
      else .unresolved toName typeName fromName

/-- The loop `for fromName, res := range entityTree` of `Graph`; `refs` is `getRefs`. -/
def addEntries (refs : List (String × Value) → List String)
    (entities : List (String × String)) (typeName : String) :
    List (String × Value) → Graph → GraphOutcome
  | [], g => .ok g
  | (fromName, res) :: rest, g =>
    match res with
    | .map resource =>
      match addRefs entities typeName fromName (refs resource) (g.Add ⟨fromName, typeName⟩ []) with
      | .ok g' => addEntries refs entities typeName rest g'
      | failure => failure
    | _ => .notAMap typeName fromName

/-- The second loop of `Graph`, over the sections. -/
def addSections (refs : List (String × Value) → List String)
    (entities : List (String × String)) :
    List (String × Value) → Graph → GraphOutcome
  | [], g => .ok g
  | (typeName, entity) :: rest, g =>
    if typeName ≠ "Resources" ∧ typeName ≠ "Outputs" then addSections refs entities rest g
    else
      match entity with
      | .map entityTree =>
        match addEntries refs entities typeName entityTree g with
        | .ok g' => addSections refs entities rest g'
        | failure => failure
      | _ => addSections refs entities rest g

/-- Both loops of `Graph` on the decoded template `m`, whose entries are listed in
the order of iteration. -/
def graphOf (refs : List (String × Value) → List String) (m : List (String × Value)) :
    GraphOutcome :=
  addSections refs (entitiesOf m) m Graph.New

/-- Go's `Template.Graph`; `refs` stands for `getRefs`. -/
def Template.Graph (refs : List (String × Value) → List String) (t : Node) : GraphOutcome :=
  match Template.Map t with
  | some m => graphOf refs m
  | none => .mapFailed

/-- The two reference forms of the spec at a mapping with a single key: `Ref` with a
scalar name, `Fn::GetAtt` with a two-element sequence or a scalar `Name.Attribute`. -/
def refForm : List (String × Value) → Option String
  | [(k, .str name)] => if k = "Ref" ∨ k = "Fn::GetAtt" then some name else none
  | [(k, .list [.str name, _])] => if k = "Fn::GetAtt" then some name else none
  | _ => none

mutual
/-- Modelled from the spec: the reference scan behind `getRefs`, which is not among
the sources: a reference form yields its name, any other Mapping or Sequence is
searched through all its children. -/
def refsOf : Value → List String
  | .map es =>
    match refForm es with
    | some name => [name]
    | none => refsOfEntries es
  | .list xs => refsOfList xs
  | .generalMap es => refsOfPairs es
  | _ => []
/-- References in the elements of a Sequence. -/
def refsOfList : List Value → List String
  | [] => []
  | x :: xs => refsOf x ++ refsOfList xs
/-- References in the values of a Mapping. -/
def refsOfEntries : List (String × Value) → List String
  | [] => []
  | (_, v) :: es => refsOf v ++ refsOfEntries es
/-- References in the values of a Mapping that has a key which is not a string. -/
def refsOfPairs : List (Value × Value) → List String
  | [] => []
  | (_, v) :: es => refsOf v ++ refsOfPairs es
end

/-- Modelled from the spec: `getRefs(resource)`, not among the sources. -/
def getRefs (resource : List (String × Value)) : List String := refsOf (.map resource)

/-! ## Specification vocabulary -/

/-- The sub-value of a host value that a path addresses: a string segment names a key
of the map reached so far, an integer segment a position of the list reached so far. -/
def Value.sub : Value → List Seg → Option Value
  | v, [] => some v
  | .map es, .str s :: rest =>
    match es.lookup s with
    | some v => Value.sub v rest
    | none => none
  | .list xs, .int i :: rest =>
    if 0 ≤ i ∧ i < xs.length then
      match xs[i.toNat]? with
      | some v => Value.sub v rest
      | none => none
    else none
  | _, _ :: _ => none

/-- A run of `Template.Set` calls, as in the tests `TestSet` and `TestSetCreate`: the
template after all of them, when every call returned no error. -/
def setAll : Node → List (List Seg × Value) → Option Node
  | t, [] => some t
  | t, (path, value) :: rest =>
    match Template.Set t path value with
    | some (t', .ok) => setAll t' rest
    | _ => none

/-- The Document node the YAML library builds for the text `{}`: one child, an
empty Mapping. -/
def documentOfEmptyMap : Node := Node.mk DocumentNode "" "" [emptyMapping]

/-- Position `i` is even and holds the first key equal to `s`. -/
def FirstKeyAt (cs : List Node) (s : String) (i : Nat) : Prop :=
  i % 2 = 0 ∧ (∃ k, cs[i]? = some k ∧ k.value = s) ∧
    ∀ j k, j < i → j % 2 = 0 → cs[j]? = some k → k.value ≠ s

/-- No even position holds a key equal to `s`. -/
def NoKey (cs : List Node) (s : String) : Prop :=
  ∀ j k, j % 2 = 0 → cs[j]? = some k → k.value ≠ s

/-- The errors the description of `Get` lists. -/
def Err.listed : Err → Bool
  | .mapIndexType _ => true
  | .unknownKey _ => true
  | .seqIndexType _ => true
  | .indexOutOfRange _ => true
  | .notIndexable => true
  | .aliasUnsupported => true
  | _ => false

/-- Descent from a node along a path is blocked at the first segment that cannot be
followed, with the error of that segment.  A Mapping is descended by the first key
equal to a string segment, a Sequence by an integer segment within `[0, length)`; no
rule descends into or stops at a Document node. -/
inductive Blocked : Node → List Seg → Err → Prop where
  | unknownKey (n : Node) (s : String) (rest : List Seg) :
      n.kind = MappingNode → NoKey n.content s →
      Blocked n (.str s :: rest) (.unknownKey s)
  | mapIndexType (n : Node) (seg : Seg) (rest : List Seg) :
      n.kind = MappingNode → (∀ s, seg ≠ .str s) →
      Blocked n (seg :: rest) (.mapIndexType seg.typeName)
  | indexOutOfRange (n : Node) (i : Int) (rest : List Seg) :
      n.kind = SequenceNode → i < 0 ∨ i ≥ n.content.length →
      Blocked n (.int i :: rest) (.indexOutOfRange i)
  | seqIndexType (n : Node) (seg : Seg) (rest : List Seg) :
      n.kind = SequenceNode → (∀ i, seg ≠ .int i) →
      Blocked n (seg :: rest) (.seqIndexType seg.typeName)
  | notIndexable (n : Node) (seg : Seg) (rest : List Seg) :
      n.kind = ScalarNode → Blocked n (seg :: rest) .notIndexable
  | aliasUnsupported (n : Node) (seg : Seg) (rest : List Seg) :
      n.kind = AliasNode → Blocked n (seg :: rest) .aliasUnsupported
  | unexpectedKind (n : Node) (seg : Seg) (rest : List Seg) :
      n.kind ≠ DocumentNode → n.kind ≠ MappingNode → n.kind ≠ SequenceNode →
      n.kind ≠ ScalarNode → n.kind ≠ AliasNode →
      Blocked n (seg :: rest) (.unexpectedKind n.kind)
  | underKey (n child : Node) (s : String) (i : Nat) (rest : List Seg) (e : Err) :
      n.kind = MappingNode → FirstKeyAt n.content s i →
      n.content[i + 1]? = some child → Blocked child rest e →
      Blocked n (.str s :: rest) e
  | underIndex (n child : Node) (i : Int) (rest : List Seg) (e : Err) :
      n.kind = SequenceNode → 0 ≤ i → i < n.content.length →
      n.content[i.toNat]? = some child → Blocked child rest e →
      Blocked n (.int i :: rest) e

/-- A node whose kind is none of the five kinds `getNode` and `setNode` dispatch on. -/
def Node.kindless (n : Node) : Prop :=
  n.kind ≠ DocumentNode ∧ n.kind ≠ MappingNode ∧ n.kind ≠ SequenceNode ∧
    n.kind ≠ ScalarNode ∧ n.kind ≠ AliasNode

/-- The successful runs of `setNode`, one rule per way through the function. -/
inductive SetOk (v : Value) : Node → List Seg → Node → Prop where
  | encoded (node nv : Node) : encode v = .ok nv → SetOk v node [] nv
  | keyFound (node child child' : Node) (s : String) (i : Nat) (rest : List Seg) :
      node.kind = DocumentNode ∨ node.kind = MappingNode →
      findKey s node.content = some i → node.content[i + 1]? = some child →
      SetOk v child rest child' →
      SetOk v node (.str s :: rest) (node.withContent (node.content.set (i + 1) child'))
  | keyNew (node valueNode : Node) (s : String) (rest : List Seg) :
      node.kind = DocumentNode ∨ node.kind = MappingNode →
      findKey s node.content = none → SetOk v Node.zero rest valueNode →
      SetOk v node (.str s :: rest) (node.withContent (node.content ++ [setString s, valueNode]))
  | indexFound (node child child' : Node) (i : Int) (rest : List Seg) :
      node.kind = SequenceNode → 0 ≤ i → i < node.content.length →
      node.content[i.toNat]? = some child → SetOk v child rest child' →
      SetOk v node (.int i :: rest) (node.withContent (node.content.set i.toNat child'))
  | indexNew (node valueNode : Node) (i : Int) (rest : List Seg) :
      node.kind = SequenceNode → i = node.content.length →
      SetOk v Node.zero rest valueNode →
      SetOk v node (.int i :: rest) (node.withContent (node.content ++ [valueNode]))
  | initMapping (node node' : Node) (s : String) (rest : List Seg) :
      node.kindless → SetOk v emptyMapping (.str s :: rest) node' →
      SetOk v node (.str s :: rest) node'
  | initSequence (node node' : Node) (i : Int) (rest : List Seg) :
      node.kindless → SetOk v emptySequence (.int i :: rest) node' →
      SetOk v node (.int i :: rest) node'

/-- The keys of a Mapping's `Content`: the `Value` of the nodes at even positions. -/
def keysOf : List Node → List String
  | [] => []
  | [k] => [k.value]
  | k :: _ :: rest => k.value :: keysOf rest

mutual
/-- Key uniqueness over a whole tree: the `Content` of every Mapping node is a list
of key/value entries (even length) whose keys are pairwise different. -/
def Node.uniqueKeys : Node → Bool
  | .mk k _ _ cs =>
    (k != MappingNode || (cs.length % 2 == 0 && decide (keysOf cs).Nodup)) && uniqueKeysList cs
/-- Key uniqueness in every tree of a list. -/
def uniqueKeysList : List Node → Bool
  | [] => true
  | n :: ns => n.uniqueKeys && uniqueKeysList ns
end

/-- The Mapping `{c: "1"}`. -/
def sampleInner : Node := Node.mk MappingNode "!!map" "" [setString "c", setString "1"]

/-- The template `{a: {c: "1"}, b: "2"}`. -/
def sampleTree : Node :=
  Node.mk MappingNode "!!map" "" [setString "a", sampleInner, setString "b", setString "2"]

/-- The template `{a: {c: "1", d: "x"}, b: "2"}`. -/
def sampleTreeAfter : Node :=
  Node.mk MappingNode "!!map" ""
    [setString "a",
     Node.mk MappingNode "!!map" "" [setString "c", setString "1", setString "d", setString "x"],
     setString "b", setString "2"]

/-- The section a reference name resolves to: the section that declares it, else the
`Parameters` section for a name in the `AWS::` namespace, else nothing. -/
def resolve (entities : List (String × String)) (name : String) : Option String :=
  match entities.lookup name with
  | some toType => some toType
  | none => if hasPrefix name "AWS::" then some "Parameters" else none

/-- The entry `e` is declared with value `res` under `Resources` or `Outputs` of the
decoded template `m`. -/
def Declared (m : List (String × Value)) (e : Element) (res : Value) : Prop :=
  ∃ entityTree, (e.TypeName, Value.map entityTree) ∈ m ∧
    (e.TypeName = "Resources" ∨ e.TypeName = "Outputs") ∧ (e.Name, res) ∈ entityTree

/-- The element `e` is the resolved target of one of the raw reference names. -/
def IsTarget (entities : List (String × String)) (raws : List String) (e : Element) : Prop :=
  ∃ raw ty, raw ∈ raws ∧ resolve entities (beforeDot raw) = some ty ∧ e = ⟨beforeDot raw, ty⟩

/-- The template of the graph test, with the reference forms of the spec. -/
def testMap : List (String × Value) :=
  [("Parameters", .map [("Name", .map [("Type", .str "String")])]),
   ("Resources", .map [("Bucket", .map [("Type", .str "AWS::S3::Bucket"),
      ("Properties", .map [("BucketName", .map [("Ref", .str "Name")])])])]),
   ("Outputs", .map [("BucketArn", .map [("Value",
      .map [("Fn::GetAtt", .list [.str "Bucket", .str "Arn"])])])])]

/-- Every entry under `Resources` and `Outputs` of the decoded template is a map, so
the type assertion `res.(map[string]interface{})` of `Graph` holds at each of them. -/
def EntriesAreMaps (m : List (String × Value)) : Prop :=
  ∀ (e : Element) (res : Value), Declared m e res → ∃ resource, res = .map resource

/-- The entry `d` of the decoded template holds a reference whose name, cut at the
first dot, is `toName`, and that name does not resolve. -/
def Unresolved (refs : List (String × Value) → List String) (m : List (String × Value))
    (d : Element) (toName : String) : Prop :=
  ∃ resource raw, Declared m d (.map resource) ∧ raw ∈ refs resource ∧
    toName = beforeDot raw ∧ resolve (entitiesOf m) toName = none

/-- A template with an entry that is not a map next to an entry with an undeclared
reference: `{Resources: {A: "x", B: {Ref: "Missing"}}}`. -/
def mixedMap : List (String × Value) :=
  [("Resources", .map [("A", .str "x"), ("B", .map [("Ref", .str "Missing")])])]

/-- The template `{Resources: {A: "x", B: {Ref: "Missing"}}}`, the encoding of
`mixedMap`. -/
def mixedTemplate : Node :=
  Node.mk MappingNode "!!map" ""
    [setString "Resources",
     Node.mk MappingNode "!!map" ""
       [setString "A", setString "x",
        setString "B", Node.mk MappingNode "!!map" "" [setString "Ref", setString "Missing"]]]

/-- A template whose only entry holds a reference inside a list:
`{Resources: {A: [{Ref: "Missing"}]}}`. -/
def listEntryMap : List (String × Value) :=
  [("Resources", .map [("A", .list [.map [("Ref", .str "Missing")]])])]

/-- The template `{Resources: {A: [{Ref: "Missing"}]}}`, the encoding of `listEntryMap`. -/
def listEntryTemplate : Node :=
  Node.mk MappingNode "!!map" ""
    [setString "Resources",
     Node.mk MappingNode "!!map" ""
       [setString "A",
        Node.mk SequenceNode "!!seq" ""
          [Node.mk MappingNode "!!map" "" [setString "Ref", setString "Missing"]]]]

/-- The template `{Resources: {A: {}, B: {Ref: "A"}}}`. -/
def smallTemplate : Node :=
  Node.mk MappingNode "!!map" ""
    [setString "Resources",
     Node.mk MappingNode "!!map" ""
       [setString "A", emptyMapping,
        setString "B", Node.mk MappingNode "!!map" "" [setString "Ref", setString "A"]]]

/-- The decoded template `{Resources: {B: {Ref: "Missing.Arn"}}}`. -/
def danglingMap : List (String × Value) :=
  [("Resources", .map [("B", .map [("Ref", .str "Missing.Arn")])])]

/-- The template `{Resources: {B: {Ref: "Missing.Arn"}}}`. -/
def danglingTemplate : Node :=
  Node.mk MappingNode "!!map" ""
    [setString "Resources",
     Node.mk MappingNode "!!map" ""
       [setString "B", Node.mk MappingNode "!!map" "" [setString "Ref", setString "Missing.Arn"]]]

mutual
/-- Every Mapping and every Document node of the tree holds whole entries: its
`Content` has even length. -/
def Node.paired : Node → Bool
  | .mk k _ _ cs =>
    ((k != MappingNode && k != DocumentNode) || cs.length % 2 == 0) && pairedList cs
/-- Whole entries in every tree of a list. -/
def pairedList : List Node → Bool
  | [] => true
  | n :: ns => n.paired && pairedList ns
end

mutual
/-- Every node of the tree has one of the five kinds of the YAML library. -/
def Node.kinded : Node → Bool
  | .mk k _ _ cs =>
    (k == DocumentNode || k == MappingNode || k == SequenceNode || k == ScalarNode ||
      k == AliasNode) && kindedList cs
/-- Known kinds in every tree of a list. -/
def kindedList : List Node → Bool
  | [] => true
  | n :: ns => n.kinded && kindedList ns
end

/-! ## Package `value`: the Map -/

namespace value

/-- Go's `value.Interface`: what a Map stores under a key.  The Map case is the
`Map` of `map.go`.  Modelled from the spec: the other implementations of the
interface, a scalar and a list, are not among the sources. -/
inductive Interface where
  | scalar (v : Value) (comment : String)
  | list (items : List Interface) (comment : String)
  | map (values : List (String × Interface)) (comment : String)
deriving Repr, Inhabited

/-- Go's `value.Map`: the entries of `values` and the comment.  The list holds the
entries of the Go map; the order in which `range` visits them is not part of it. -/
structure Map where
  values : List (String × Interface)
  comment : String
deriving Repr, Inhabited

/-- A `*Map` seen as an `Interface`. -/
def Map.toInterface (v : Map) : Interface := .map v.values v.comment

/-- Go's `value.Node`: an element of the flattened tree. -/
structure Node where
  Path : List Seg
  Content : Interface
deriving Repr, Inhabited

/-- What `Get` hands back: a value, `nil`, a panic on a path element, or, at the
scalar and the list modelled from the spec, one of the spec's errors. -/
inductive Got where
  | value (n : Interface)
  | nil
  | panic (index : Seg)
  | error (e : Err)
deriving Repr, Inhabited

/-- Byte-wise comparison of two strings, as `sort.Strings` compares them. -/
def leChars : List Char → List Char → Bool
  | [], _ => true
  | _ :: _, [] => false
  | a :: as, b :: bs =>
    if a < b then true
    else if b < a then false
    else leChars as bs

/-- The order of `sort.Strings`. -/
def strLe (a b : String) : Prop := leChars a.data b.data = true

instance : DecidableRel strLe := fun a b => inferInstanceAs (Decidable (leChars a.data b.data = true))

/-- Go's `sort.Strings`. -/
def sortStrings (keys : List String) : List String := List.insertionSort strLe keys

/-- The method `Get` of the interface; at a Map it is `Map.Get`.  Modelled from the
spec at a list and at a scalar: an integer within bounds descends, anything else is
the spec's error. -/
def Interface.Get : Interface → List Seg → Got
  | n, [] => .value n
  | .map values _, index :: rest =>
    match index with
    | .str s =>
      match values.lookup s with
      | some out => Interface.Get out rest
      | none => .nil
    | _ => .panic index
  | .list items _, index :: rest =>
    match index with
    | .int i =>
      if i < 0 ∨ i ≥ items.length then .error (.indexOutOfRange i)
      else
        match items[i.toNat]? with
        | some out => Interface.Get out rest
        | none => .error (.indexOutOfRange i)
    | _ => .error (.seqIndexType index.typeName)
  | .scalar _ _, _ :: _ => .error .notIndexable

/-- Go's `Map.Get`. -/
def Map.Get (v : Map) : List Seg → Got
  | [] => .value v.toInterface
  | index :: rest =>
    match index with
    | .str s =>
      match v.values.lookup s with
      | some out => out.Get rest
      | none => .nil
    | _ => .panic index

/-- Go's `Map.Comment`. -/
def Map.Comment (v : Map) : String := v.comment

/-- Go's `Map.SetComment`. -/
def Map.SetComment (v : Map) (c : String) : Map := { v with comment := c }

/-- Go's `Map.Keys`; `order` is the order in which `range` visits the keys of the Go
map. -/
def Map.Keys (order : List String → List String) (v : Map) : List String :=
  order (v.values.map Prod.fst)

mutual
/-- The method `Value` of the interface; at a Map it is `Map.Value`.  Modelled from
the spec at a list and at a scalar: the host value, without the comment. -/
def Interface.Value : Interface → Value
  | .scalar v _ => v
  | .list items _ => .list (valuesOfItems items)
  | .map values _ => .map (valuesOfEntries values)
/-- Host values of the items of a list. -/
def valuesOfItems : List Interface → List Value
  | [] => []
  | x :: xs => Interface.Value x :: valuesOfItems xs
/-- Host values of the entries of a Map: `out[key] = value.Value()`. -/
def valuesOfEntries : List (String × Interface) → List (String × Value)
  | [] => []
  | (k, x) :: xs => (k, Interface.Value x) :: valuesOfEntries xs
end

/-- Go's `Map.Value`. -/
def Map.Value (v : Map) : Value := .map (valuesOfEntries v.values)

mutual
/-- Go's `New`: at a map it is `newMap`.  Modelled from the spec at a slice and at a
primitive, whose constructors are not among the sources. -/
def New : Value → Interface
  | .map es => .map (newEntries es) ""
  | .list xs => .list (newItems xs) ""
  | v => .scalar v ""
/-- Items of a new list. -/
def newItems : List Value → List Interface
  | [] => []
  | x :: xs => New x :: newItems xs
/-- Entries of `newMap`: `out.values[key] = New(value)`. -/
def newEntries : List (String × Value) → List (String × Interface)
  | [] => []
  | (k, x) :: xs => (k, New x) :: newEntries xs
end

/-- The Go map assignment `values[key] = x`: the binding of `key` is replaced, or
added when there is none. -/
def assign (key : String) (x : Interface) : List (String × Interface) → List (String × Interface)
  | [] => [(key, x)]
  | (k, y) :: rest => if k = key then (k, x) :: rest else (k, y) :: assign key x rest

/-- Go's `Map.Set`. -/
def Map.Set (v : Map) (key : String) (value : Cfn.Value) : Map :=
  { v with values := assign key (New value) v.values }

/-- The step `child.Path = append([]interface{}{key}, child.Path...)` of `Nodes`. -/
def underKey (key : Seg) (child : Node) : Node := ⟨key :: child.Path, child.Content⟩

mutual
/-- The method `Nodes` of the interface; at a Map it is `Map.Nodes`, with the nodes of
every child computed entry by entry and found by key, which is what
`v.Get(key).Nodes()` yields.  Modelled from the spec at a list (the node, then the
items by index) and at a scalar (the node). -/
def Interface.Nodes (order : List String → List String) : Interface → List Node
  | .scalar v c => [⟨[], .scalar v c⟩]
  | .list items c => ⟨[], .list items c⟩ :: nodesOfItems order 0 items
  | .map values c =>
    ⟨[], .map values c⟩ ::
      (sortStrings (order (values.map Prod.fst))).flatMap (fun key =>
        match (nodesOfEntries order values).lookup key with
        | some nodes => nodes.map (underKey (.str key))
        | none => [])
/-- Nodes of the items of a list, each under its index. -/
def nodesOfItems (order : List String → List String) : Nat → List Interface → List Node
  | _, [] => []
  | i, x :: xs =>
    (Interface.Nodes order x).map (underKey (.int i)) ++ nodesOfItems order (i + 1) xs
/-- Nodes of the child of every entry of a Map. -/
def nodesOfEntries (order : List String → List String) :
    List (String × Interface) → List (String × List Node)
  | [] => []
  | (k, x) :: xs => (k, Interface.Nodes order x) :: nodesOfEntries order xs
end

/-- Go's `Map.Nodes`: the Map itself, then, for each key in sorted order, the nodes
of `v.Get(key)` with the key put in front of their paths. -/
def Map.Nodes (order : List String → List String) (v : Map) : List Node :=
  ⟨[], v.toInterface⟩ ::
    (sortStrings (Map.Keys order v)).flatMap (fun key =>
      match v.Get [.str key] with
      | .value child => (child.Nodes order).map (underKey (.str key))
      | _ => [])

end value

namespace value

/-- The Map `{b: "x", a: {z: [1, 2], y: null}}` with comments on both Maps. -/
def sampleMap : Map :=
  ⟨[("b", .scalar (.str "x") ""),
    ("a", .map [("z", .list [.scalar (.int 1) "", .scalar (.int 2) ""] ""),
                ("y", .scalar .null "")] "inner")], "top"⟩

end value

/-- The template `{Resources: {A: "x"}}`, whose only entry is not a map. -/
def nonMapTemplate : Node :=
  Node.mk MappingNode "!!map" ""
    [setString "Resources", Node.mk MappingNode "!!map" "" [setString "A", setString "x"]]

/-- The template `{Resources: {B: {Ref: "AWS::Region"}}}`. -/
def pseudoTemplate : Node :=
  Node.mk MappingNode "!!map" ""
    [setString "Resources",
     Node.mk MappingNode "!!map" ""
       [setString "B", Node.mk MappingNode "!!map" "" [setString "Ref", setString "AWS::Region"]]]

/-- One round of the first loop of `Graph`: what a section adds to the index. -/
def indexStep (entities : List (String × String)) (sec : String × Value) :
    List (String × String) :=
  if sec.1 ≠ "Parameters" ∧ sec.1 ≠ "Resources" then entities
  else
    match sec.2 with
    | .map entityTree =>
      entityTree.foldl (fun acc entry => (entry.1, sec.1) :: acc) entities
    | _ => entities

/-- The section `sec` declares `name` for the index: it is `Parameters` or `Resources`,
its value is a map, and `name` is one of the keys of that map. -/
def DeclaresName (name : String) (sec : String × Value) : Prop :=
  (sec.1 = "Parameters" ∨ sec.1 = "Resources") ∧
    ∃ tree, sec.2 = Value.map tree ∧ name ∈ tree.map Prod.fst

/-- A decoded template that declares `X` as a parameter and as a resource, iterated
with `Parameters` first. -/
def collidingParametersFirst : List (String × Value) :=
  [("Parameters", .map [("X", .map [])]), ("Resources", .map [("X", .map [])]),
   ("Outputs", .map [("O", .map [("Ref", .str "X")])])]

/-- The same map iterated with `Resources` first. -/
def collidingResourcesFirst : List (String × Value) :=
  [("Resources", .map [("X", .map [])]), ("Parameters", .map [("X", .map [])]),
   ("Outputs", .map [("O", .map [("Ref", .str "X")])])]

/-- The template `{Resources: {"AWS::X": {}, B: {Ref: "AWS::X.Arn"}}}`: a declared
name that begins with `AWS::`. -/
def awsNamedTemplate : Node :=
  Node.mk MappingNode "!!map" ""
    [setString "Resources",
     Node.mk MappingNode "!!map" ""
       [setString "AWS::X", emptyMapping,
        setString "B", Node.mk MappingNode "!!map" "" [setString "Ref", setString "AWS::X.Arn"]]]

mutual
/-- The shape in which the YAML library builds a tree: the `Content` of every Mapping
node has even length and every Document node has exactly one child. -/
def Node.wellFormed : Node → Bool
  | .mk k _ _ cs =>
    (k != MappingNode || cs.length % 2 == 0) && (k != DocumentNode || cs.length == 1) &&
      wellFormedList cs
/-- The library's shape in every tree of a list. -/
def wellFormedList : List Node → Bool
  | [] => true
  | n :: ns => n.wellFormed && wellFormedList ns
end

mutual
/-- The tree holds no Document node. -/
def Node.documentFree : Node → Bool
  | .mk k _ _ cs => k != DocumentNode && documentFreeList cs
/-- No Document node in any tree of a list. -/
def documentFreeList : List Node → Bool
  | [] => true
  | n :: ns => n.documentFree && documentFreeList ns
end

/-! ## Theorems -/

/-- Claim C1, at a Document root: `Set` on the Document node of `{}` with path `["a"]`
and value `"b"` returns no error, having appended the key and the value to the
Document itself, and the `Get` of the same path that follows returns the unknown-key
error instead of the encoding of `"b"`. -/
theorem set_get_document_root :
    Template.Set documentOfEmptyMap [.str "a"] (.str "b")
      = some (Node.mk DocumentNode "" "" [emptyMapping, setString "a", setString "b"], .ok) ∧
    Template.Get (Node.mk DocumentNode "" "" [emptyMapping, setString "a", setString "b"])
      [.str "a"] = .error (.unknownKey "a") := by
  constructor <;> rfl

/-- Claim C2, at a root that has no kind yet: `Set` with path `["Foo", 1.5]` fails on the
second segment, and `Set` with path `["Foo"]` fails on a value the encoder rejects;
both calls return an error and both leave the root changed into an empty Mapping. -/
theorem set_failure_mutates_kindless_root :
    Template.Set Node.zero [.str "Foo", .other "float64"] (.str "x")
      = some (emptyMapping, .error (.unexpectedIndex "float64")) ∧
    Template.Set Node.zero [.str "Foo"] (.unsupported "chan int")
      = some (emptyMapping, .error (.encoding "chan int")) ∧
    emptyMapping ≠ Node.zero := by
  refine ⟨rfl, rfl, by decide⟩

/-- Claim C6: a node that has no kind yet becomes an empty Mapping when the next segment
is a string and an empty Sequence when it is an integer, and the same path is then
dispatched on it; any other segment type is an error that leaves the node alone.
On the empty template, `Set(["Foo", 0], "Bar")` then `Set(["Foo", 1, "Baz"], "Quux")`
both succeed, the result decodes to `{"Foo": ["Bar", {"Baz": "Quux"}]}`, and it is the
tree that the four explicit calls of `TestSet` build. -/
theorem setNode_creates_containers :
    (∀ fuel tag val content s rest v,
      setNode (fuel + 1) (Node.mk 0 tag val content) (.str s :: rest) v
        = setNode fuel emptyMapping (.str s :: rest) v) ∧
    (∀ fuel tag val content i rest v,
      setNode (fuel + 1) (Node.mk 0 tag val content) (.int i :: rest) v
        = setNode fuel emptySequence (.int i :: rest) v) ∧
    (∀ fuel tag val content ty rest v,
      setNode (fuel + 1) (Node.mk 0 tag val content) (.other ty :: rest) v
        = some (Node.mk 0 tag val content, .error (.unexpectedIndex ty))) ∧
    (∃ t, NewTemplate [] = some emptyMapping ∧
      setAll emptyMapping
        [([.str "Foo", .int 0], .str "Bar"), ([.str "Foo", .int 1, .str "Baz"], .str "Quux")]
        = some t ∧
      Template.Map t = some [("Foo", .list [.str "Bar", .map [("Baz", .str "Quux")]])] ∧
      setAll emptyMapping
        [([.str "Foo"], .list []), ([.str "Foo", .int 0], .str "Bar"),
         ([.str "Foo", .int 1], .map []), ([.str "Foo", .int 1, .str "Baz"], .str "Quux")]
        = some t) := by
  refine ⟨?_, ?_, ?_, ?_⟩
  · intro fuel tag val content s rest v
    rfl
  · intro fuel tag val content i rest v
    rfl
  · intro fuel tag val content ty rest v
    rfl
  · exact ⟨_, rfl, rfl, rfl, rfl⟩

/-- Claim C5: at a Sequence node of length `n`, an integer segment `i < 0` or `i > n`
makes `setNode` return the index-out-of-range error and leaves the node as it was;
with the final segment `i = n` and a value that encodes, `setNode` succeeds and the
node keeps its first `n` children and gains the encoding of the value as the last. -/
theorem setNode_sequence_index (fuel : Nat) (node : Node) (rest : List Seg) (v : Value) (i : Int)
    (h : node.kind = SequenceNode) :
    ((i < 0 ∨ i > node.content.length) →
      setNode (fuel + 1) node (.int i :: rest) v = some (node, .error (.indexOutOfRange i))) ∧
    (∀ nv, encode v = .ok nv →
      setNode (fuel + 2) node [.int node.content.length] v
        = some (node.withContent (node.content ++ [nv]), .ok)) := by
  constructor
  · intro hi
    simp [setNode, h, SequenceNode, DocumentNode, MappingNode, hi]
  · intro nv hnv
    simp [setNode, h, SequenceNode, DocumentNode, MappingNode, hnv]

/-- In the encoding of a map, the key loop finds the value node of a key the map binds. -/
theorem encodeEntries_lookup (s : String) :
    ∀ (es : List (String × Value)) (cs : List Node) (w : Value),
      encodeEntries es = .ok cs → es.lookup s = some w →
      ∃ i nw, findKey s cs = some i ∧ cs[i + 1]? = some nw ∧ encode w = .ok nw := by
  intro es
  induction es with
  | nil => intro cs w _ h; simp [List.lookup] at h
  | cons e es ih =>
    intro cs w hc hw
    obtain ⟨k, v0⟩ := e
    simp only [encodeEntries] at hc
    cases hv0 : encode v0 with
    | error e => simp [hv0] at hc
    | ok n0 =>
      cases hes : encodeEntries es with
      | error e => simp [hv0, hes] at hc
      | ok ns =>
        simp [hv0, hes] at hc
        subst hc
        by_cases hk : s = k
        · subst hk
          simp [List.lookup] at hw
          subst hw
          exact ⟨0, n0, by simp [findKey, setString, Node.value], by simp, hv0⟩
        · have hk' : (s == k) = false := by simpa using hk
          simp [List.lookup, hk'] at hw
          obtain ⟨i, nw, h1, h2, h3⟩ := ih ns w hes hw
          refine ⟨i + 2, nw, ?_, ?_, h3⟩
          · have : ¬ k = s := fun h => hk h.symm
            simp [findKey, setString, Node.value, this, h1]
          · simpa using h2

/-- In the encoding of a slice, position `j` holds the encoding of element `j`. -/
theorem encodeList_get :
    ∀ (xs : List Value) (cs : List Node) (j : Nat) (w : Value),
      encodeList xs = .ok cs → xs[j]? = some w →
      ∃ nw, cs[j]? = some nw ∧ encode w = .ok nw := by
  intro xs
  induction xs with
  | nil => intro cs j w _ h; simp at h
  | cons x xs ih =>
    intro cs j w hc hw
    simp only [encodeList] at hc
    cases hx : encode x with
    | error e => simp [hx] at hc
    | ok n0 =>
      cases hxs : encodeList xs with
      | error e => simp [hx, hxs] at hc
      | ok ns =>
        simp [hx, hxs] at hc
        subst hc
        cases j with
        | zero =>
          simp at hw
          subst hw
          exact ⟨n0, by simp, hx⟩
        | succ j =>
          simp at hw
          obtain ⟨nw, h1, h2⟩ := ih ns j w hxs hw
          exact ⟨nw, by simpa using h1, h2⟩

/-- The encoding of a slice has one child per element. -/
theorem encodeList_length :
    ∀ (xs : List Value) (cs : List Node), encodeList xs = .ok cs → cs.length = xs.length := by
  intro xs
  induction xs with
  | nil => intro cs h; simp [encodeList] at h; subst h; rfl
  | cons x xs ih =>
    intro cs hc
    simp only [encodeList] at hc
    cases hx : encode x with
    | error e => simp [hx] at hc
    | ok n0 =>
      cases hxs : encodeList xs with
      | error e => simp [hx, hxs] at hc
      | ok ns =>
        simp [hx, hxs] at hc
        subst hc
        simp [ih ns hxs]

/-- `getNode` on the encoding of a value follows a path that addresses a sub-value. -/
theorem getNode_encode :
    ∀ (p : List Seg) (v w : Value) (n : Node),
      encode v = .ok n → Value.sub v p = some w →
      ∃ nw, encode w = .ok nw ∧ getNode n p = .ok nw := by
  intro p
  induction p with
  | nil =>
    intro v w n hn hw
    simp [Value.sub] at hw
    subst hw
    exact ⟨n, hn, rfl⟩
  | cons seg rest ih =>
    intro v w n hn hw
    cases v with
    | map es =>
      cases seg with
      | str s =>
        simp only [Value.sub] at hw
        cases hl : es.lookup s with
        | none => simp [hl] at hw
        | some v' =>
          simp [hl] at hw
          simp only [encode] at hn
          cases hes : encodeEntries es with
          | error e => simp [hes] at hn
          | ok cs =>
            simp [hes] at hn
            subst hn
            obtain ⟨i, nv', h1, h2, h3⟩ := encodeEntries_lookup s es cs v' hes hl
            obtain ⟨nw, h4, h5⟩ := ih v' w nv' h3 hw
            refine ⟨nw, h4, ?_⟩
            simp [getNode, Node.kind, Node.content, MappingNode, DocumentNode, h1, h2, h5]
      | int i => simp [Value.sub] at hw
      | other ty => simp [Value.sub] at hw
    | list xs =>
      cases seg with
      | int i =>
        simp only [Value.sub] at hw
        by_cases hi : 0 ≤ i ∧ i < xs.length
        · simp only [hi, and_self, if_true] at hw
          cases hx : xs[i.toNat]? with
          | none => simp [hx] at hw
          | some v' =>
            simp [hx] at hw
            simp only [encode] at hn
            cases hes : encodeList xs with
            | error e => simp [hes] at hn
            | ok cs =>
              simp [hes] at hn
              subst hn
              obtain ⟨nv', h2, h3⟩ := encodeList_get xs cs i.toNat v' hes hx
              obtain ⟨nw, h4, h5⟩ := ih v' w nv' h3 hw
              refine ⟨nw, h4, ?_⟩
              have hlen := encodeList_length xs cs hes
              have h0 : ¬ i < 0 := by omega
              have h1 : ¬ (cs.length : Int) ≤ i := by omega
              simp [getNode, Node.kind, Node.content, MappingNode, DocumentNode, SequenceNode,
                h0, h1, h2, h5]
        · simp [hi] at hw
      | str s => simp [Value.sub] at hw
      | other ty => simp [Value.sub] at hw
    | null => simp [Value.sub] at hw
    | bool b => simp [Value.sub] at hw
    | int i => simp [Value.sub] at hw
    | str s => simp [Value.sub] at hw
    | generalMap es => simp [Value.sub] at hw
    | unsupported ty => simp [Value.sub] at hw

/-- Claim C3: when a path addresses a sub-value of the host map `m`, `Get` on
`NewTemplate(m)` succeeds with the node that encodes that sub-value; with the empty
path `Get` returns the template node itself. -/
theorem get_newTemplate_subvalue (m : List (String × Value)) (p : List Seg) (w : Value) (t : Node)
    (ht : NewTemplate m = some t) (hw : Value.sub (.map m) p = some w) :
    (∃ nw, encode w = .ok nw ∧ Template.Get t p = .ok nw) ∧ Template.Get t [] = .ok t := by
  refine ⟨?_, rfl⟩
  unfold NewTemplate at ht
  cases hm : encode (.map m) with
  | error e => simp [hm] at ht
  | ok n =>
    simp [hm] at ht
    subst ht
    exact getNode_encode p (.map m) w n hm hw

/-- Induction over a list two elements at a time. -/
theorem pairs_induction {α : Type} {P : List α → Prop} (h0 : P []) (h1 : ∀ a, P [a])
    (h2 : ∀ a b l, P l → P (a :: b :: l)) : ∀ l, P l := by
  have key : ∀ n (l : List α), l.length ≤ n → P l := by
    intro n
    induction n using Nat.strong_induction_on with
    | _ n ih =>
      intro l hl
      match l, hl with
      | [], _ => exact h0
      | [a], _ => exact h1 a
      | a :: b :: l, hl =>
        apply h2
        simp at hl
        exact ih l.length (by omega) l (le_refl _)
  intro l
  exact key l.length l (le_refl _)

/-- The key loop finds nothing exactly when no even position holds the key. -/
theorem findKey_none_iff (s : String) : ∀ cs, findKey s cs = none ↔ NoKey cs s := by
  intro cs
  induction cs using pairs_induction with
  | h0 => simp [findKey, NoKey]
  | h1 a =>
    simp only [findKey, NoKey]
    constructor
    · intro h j k hj hk
      cases j with
      | zero =>
        simp at hk
        subst hk
        intro hv
        simp [hv] at h
      | succ j => simp at hk
    · intro h
      have := h 0 a (by simp) (by simp)
      simp [this]
  | h2 a b l ih =>
    simp only [findKey, NoKey]
    constructor
    · intro h j k hj hk
      by_cases ha : a.value = s
      · simp [ha] at h
      · simp [ha] at h
        match j, hj, hk with
        | 0, _, hk =>
          simp at hk
          subst hk
          exact ha
        | 1, hj, _ => simp at hj
        | j + 2, hj, hk =>
          simp at hk
          exact (ih.mp h) j k (by omega) hk
    · intro h
      have ha : a.value ≠ s := h 0 a (by simp) (by simp)
      simp [ha]
      apply ih.mpr
      intro j k hj hk
      exact h (j + 2) k (by omega) (by simpa using hk)

/-- The key loop returns the first even position that holds the key. -/
theorem findKey_some_iff (s : String) :
    ∀ cs i, findKey s cs = some i ↔ FirstKeyAt cs s i := by
  intro cs
  induction cs using pairs_induction with
  | h0 => intro i; simp [findKey, FirstKeyAt]
  | h1 a =>
    intro i
    simp only [findKey, FirstKeyAt]
    constructor
    · intro h
      by_cases ha : a.value = s
      · simp [ha] at h
        subst h
        exact ⟨rfl, ⟨a, by simp, ha⟩, by intro j k hj; omega⟩
      · simp [ha] at h
    · rintro ⟨_, ⟨k, hk, hv⟩, _⟩
      cases i with
      | zero =>
        simp at hk
        subst hk
        simp [hv]
      | succ i => simp at hk
  | h2 a b l ih =>
    intro i
    simp only [findKey, FirstKeyAt]
    constructor
    · intro h
      by_cases ha : a.value = s
      · simp [ha] at h
        subst h
        exact ⟨rfl, ⟨a, by simp, ha⟩, by intro j k hj; omega⟩
      · simp [ha] at h
        obtain ⟨i', hi', rfl⟩ := h
        obtain ⟨h1, ⟨k, hk, hv⟩, h3⟩ := (ih i').mp hi'
        refine ⟨by omega, ⟨k, by simpa using hk, hv⟩, ?_⟩
        intro j k' hj hj2 hk'
        match j, hj, hj2, hk' with
        | 0, _, _, hk' =>
          simp at hk'
          subst hk'
          exact ha
        | 1, _, hj2, _ => simp at hj2
        | j + 2, hj, hj2, hk' =>
          simp at hk'
          exact h3 j k' (by omega) (by omega) hk'
    · rintro ⟨h1, ⟨k, hk, hv⟩, h3⟩
      by_cases ha : a.value = s
      · simp [ha]
        by_contra hne
        have hpos : 0 < i := Nat.pos_of_ne_zero (fun h => hne h.symm)
        exact h3 0 a hpos (by simp) (by simp) ha
      · simp [ha]
        match i, h1, hk, h3 with
        | 0, _, hk, _ =>
          simp at hk
          subst hk
          exact absurd hv ha
        | 1, h1, _, _ => simp at h1
        | i + 2, h1, hk, h3 =>
          refine ⟨i, ?_, rfl⟩
          apply (ih i).mpr
          refine ⟨by omega, ⟨k, by simpa using hk, hv⟩, ?_⟩
          intro j k' hj hj2 hk'
          exact h3 (j + 2) k' (by omega) (by omega) (by simpa using hk')

/-- Claim C4 fails at a node that has no kind yet: `Get` with path `["a"]` returns an error
that is none of the errors the claim lists (it is `Unexpected node Kind: 0`). -/
theorem get_kindless_error_not_listed :
    ∃ e, Template.Get Node.zero [.str "a"] = .error e ∧ e.listed = false :=
  ⟨.unexpectedKind 0, rfl, rfl⟩

/-- Every successful run of `setNode` is one of the runs `SetOk` describes. -/
theorem setNode_ok (v : Value) :
    ∀ (fuel : Nat) (node : Node) (p : List Seg) (node' : Node),
      setNode fuel node p v = some (node', .ok) → SetOk v node p node' := by
  intro fuel
  induction fuel with
  | zero => intro node p node' h; simp [setNode] at h
  | succ fuel ih =>
    intro node p node' h
    cases p with
    | nil =>
      simp only [setNode] at h
      cases hv : encode v with
      | error e => simp [hv] at h
      | ok nv =>
        simp [hv] at h
        subst h
        exact SetOk.encoded node nv hv
    | cons seg rest =>
      unfold setNode at h
      by_cases hmap : node.kind = DocumentNode ∨ node.kind = MappingNode
      · simp only [hmap, if_true] at h
        cases seg with
        | str s =>
          simp only at h
          cases hf : findKey s node.content with
          | none =>
            simp only [hf] at h
            cases hr : setNode fuel Node.zero rest v with
            | none => simp [hr] at h
            | some r =>
              obtain ⟨vn, st⟩ := r
              cases st with
              | ok =>
                simp [hr] at h
                subst h
                exact SetOk.keyNew node vn s rest hmap hf (ih _ _ _ hr)
              | error e => simp [hr] at h
              | panic => simp [hr] at h
          | some i =>
            simp only [hf] at h
            cases hc : node.content[i + 1]? with
            | none => simp [hc] at h
            | some child =>
              simp only [hc] at h
              cases hr : setNode fuel child rest v with
              | none => simp [hr] at h
              | some r =>
                obtain ⟨child', st⟩ := r
                simp [hr] at h
                obtain ⟨h1, h2⟩ := h
                subst h1 h2
                exact SetOk.keyFound node child child' s i rest hmap hf hc (ih _ _ _ hr)
        | int i => simp at h
        | other ty => simp at h
      · simp only [hmap, if_false] at h
        by_cases hseq : node.kind = SequenceNode
        · simp only [hseq, if_true] at h
          cases seg with
          | int i =>
            simp only at h
            by_cases hi : i < 0 ∨ i > node.content.length
            · simp [hi] at h
            · simp only [hi, if_false] at h
              by_cases hlt : i < node.content.length
              · simp only [hlt, if_true] at h
                cases hc : node.content[i.toNat]? with
                | none => simp [hc] at h
                | some child =>
                  simp only [hc] at h
                  cases hr : setNode fuel child rest v with
                  | none => simp [hr] at h
                  | some r =>
                    obtain ⟨child', st⟩ := r
                    simp [hr] at h
                    obtain ⟨h1, h2⟩ := h
                    subst h1 h2
                    exact SetOk.indexFound node child child' i rest hseq (by omega) hlt hc
                      (ih _ _ _ hr)
              · simp only [hlt, if_false] at h
                cases hr : setNode fuel Node.zero rest v with
                | none => simp [hr] at h
                | some r =>
                  obtain ⟨vn, st⟩ := r
                  cases st with
                  | ok =>
                    simp [hr] at h
                    subst h
                    exact SetOk.indexNew node vn i rest hseq (by omega) (ih _ _ _ hr)
                  | error e => simp [hr] at h
                  | panic => simp [hr] at h
          | str s => simp at h
          | other ty => simp at h
        · simp only [hseq, if_false] at h
          by_cases hsc : node.kind = ScalarNode
          · simp [hsc] at h
          · simp only [hsc, if_false] at h
            by_cases hal : node.kind = AliasNode
            · simp [hal] at h
            · simp only [hal, if_false] at h
              have hkl : node.kindless :=
                ⟨fun hh => hmap (Or.inl hh), fun hh => hmap (Or.inr hh), hseq, hsc, hal⟩
              cases seg with
              | str s =>
                have he : encode (.map []) = .ok emptyMapping := rfl
                simp only [he] at h
                exact SetOk.initMapping node node' s rest hkl (ih _ _ _ h)
              | int i =>
                have he : encode (.list []) = .ok emptySequence := rfl
                simp only [he] at h
                exact SetOk.initSequence node node' i rest hkl (ih _ _ _ h)
              | other ty => simp at h

/-- Witness of `get_newTemplate_subvalue`: in `{"A": ["x"]}` the path `["A", 0]`
addresses `"x"`. -/
theorem get_newTemplate_subvalue_witness :
    NewTemplate [("A", .list [.str "x"])]
        = some (Node.mk MappingNode "!!map" ""
            [setString "A", Node.mk SequenceNode "!!seq" "" [setString "x"]]) ∧
      Value.sub (.map [("A", .list [.str "x"])]) [.str "A", .int 0] = some (.str "x") ∧
      ((∃ nw, encode (.str "x") = .ok nw ∧
          Template.Get (Node.mk MappingNode "!!map" ""
            [setString "A", Node.mk SequenceNode "!!seq" "" [setString "x"]])
            [.str "A", .int 0] = .ok nw) ∧
        Template.Get (Node.mk MappingNode "!!map" ""
            [setString "A", Node.mk SequenceNode "!!seq" "" [setString "x"]]) []
          = .ok (Node.mk MappingNode "!!map" ""
            [setString "A", Node.mk SequenceNode "!!seq" "" [setString "x"]])) :=
  ⟨rfl, rfl,
    get_newTemplate_subvalue [("A", .list [.str "x"])] [.str "A", .int 0] (.str "x")
      (Node.mk MappingNode "!!map" "" [setString "A", Node.mk SequenceNode "!!seq" "" [setString "x"]])
      rfl rfl⟩

/-- Witness of `setNode_sequence_index`: on the Sequence `["a"]`, index 2 is out of
range and index 1 appends. -/
theorem setNode_sequence_index_witness :
    (Node.mk SequenceNode "!!seq" "" [setString "a"]).kind = SequenceNode ∧
      setNode 2 (Node.mk SequenceNode "!!seq" "" [setString "a"]) [.int 2] (.str "b")
        = some (Node.mk SequenceNode "!!seq" "" [setString "a"], .error (.indexOutOfRange 2)) ∧
      setNode 3 (Node.mk SequenceNode "!!seq" "" [setString "a"]) [.int 1] (.str "b")
        = some (Node.mk SequenceNode "!!seq" "" [setString "a", setString "b"], .ok) :=
  ⟨rfl,
    (setNode_sequence_index 1 (Node.mk SequenceNode "!!seq" "" [setString "a"]) [] (.str "b") 2
      rfl).1 (Or.inr (by decide)),
    (setNode_sequence_index 1 (Node.mk SequenceNode "!!seq" "" [setString "a"]) [] (.str "b") 1
      rfl).2 (setString "b") rfl⟩

/-- Key uniqueness of a list passes to each of its members. -/
theorem uniqueKeysList_get :
    ∀ (cs : List Node) (j : Nat) (x : Node),
      uniqueKeysList cs = true → cs[j]? = some x → x.uniqueKeys = true := by
  intro cs
  induction cs with
  | nil => intro j x _ h; simp at h
  | cons a l ih =>
    intro j x h hx
    simp [uniqueKeysList] at h
    cases j with
    | zero => simp at hx; subst hx; exact h.1
    | succ j => simp at hx; exact ih j x h.2 hx

/-- Replacing a member by a tree with unique keys keeps key uniqueness of the list. -/
theorem uniqueKeysList_set :
    ∀ (cs : List Node) (j : Nat) (x : Node),
      uniqueKeysList cs = true → x.uniqueKeys = true → uniqueKeysList (cs.set j x) = true := by
  intro cs
  induction cs with
  | nil => intro j x h _; simpa using h
  | cons a l ih =>
    intro j x h hx
    simp [uniqueKeysList] at h
    cases j with
    | zero => simp [uniqueKeysList, hx, h.2]
    | succ j => simp [uniqueKeysList, h.1, ih j x h.2 hx]

/-- Key uniqueness of an appended list. -/
theorem uniqueKeysList_append :
    ∀ (as bs : List Node),
      uniqueKeysList (as ++ bs) = (uniqueKeysList as && uniqueKeysList bs) := by
  intro as
  induction as with
  | nil => intro bs; simp [uniqueKeysList]
  | cons a l ih => intro bs; simp [uniqueKeysList, ih, Bool.and_assoc]

/-- Writing at an odd position leaves the keys alone. -/
theorem keysOf_set_odd (x : Node) :
    ∀ (cs : List Node) (j : Nat), j % 2 = 1 → keysOf (cs.set j x) = keysOf cs := by
  intro cs
  induction cs using pairs_induction with
  | h0 => intro j _; simp
  | h1 a =>
    intro j hj
    cases j with
    | zero => simp at hj
    | succ j => simp
  | h2 a b l ih =>
    intro j hj
    match j, hj with
    | 0, hj => simp at hj
    | 1, _ => simp [keysOf]
    | j + 2, hj =>
      simp [keysOf]
      exact ih j (by omega)

/-- Appending a key and its value to whole entries appends the key. -/
theorem keysOf_append_pair (k v : Node) :
    ∀ (cs : List Node), cs.length % 2 = 0 → keysOf (cs ++ [k, v]) = keysOf cs ++ [k.value] := by
  intro cs
  induction cs using pairs_induction with
  | h0 => intro _; simp [keysOf]
  | h1 a => intro h; simp at h
  | h2 a b l ih =>
    intro h
    simp at h
    simp [keysOf]
    exact ih (by omega)

/-- A key the loop does not find is not among the keys. -/
theorem not_mem_keysOf_of_findKey_none (s : String) :
    ∀ (cs : List Node), findKey s cs = none → s ∉ keysOf cs := by
  intro cs
  induction cs using pairs_induction with
  | h0 => intro _; simp [keysOf]
  | h1 a =>
    intro h
    by_cases ha : a.value = s
    · simp [findKey, ha] at h
    · simp [keysOf]
      exact fun hh => ha hh.symm
  | h2 a b l ih =>
    intro h
    by_cases ha : a.value = s
    · simp [findKey, ha] at h
    · simp [findKey, ha] at h
      simp [keysOf]
      exact ⟨fun hh => ha hh.symm, ih h⟩

/-- Every successful run of `setNode` keeps key uniqueness. -/
theorem uniqueKeys_of_setOk (v : Value)
    (hv : ∀ nv, encode v = .ok nv → nv.uniqueKeys = true) :
    ∀ (node : Node) (p : List Seg) (node' : Node),
      SetOk v node p node' → node.uniqueKeys = true → node'.uniqueKeys = true := by
  intro node p node' h
  induction h with
  | encoded node nv henc => intro _; exact hv nv henc
  | keyFound node child child' s i rest hk hf hc _ ih =>
    intro hu
    obtain ⟨k, t, val, cs⟩ := node
    simp only [Node.content] at hf hc
    simp only [Node.withContent, Node.content]
    simp only [Node.uniqueKeys, Bool.and_eq_true, Bool.or_eq_true, bne_iff_ne, ne_eq,
      beq_iff_eq, decide_eq_true_eq] at hu ⊢
    have hi : i % 2 = 0 := ((findKey_some_iff s cs i).mp hf).1
    have hchild := ih (uniqueKeysList_get cs (i + 1) child hu.2 hc)
    refine ⟨?_, uniqueKeysList_set cs (i + 1) child' hu.2 hchild⟩
    rcases hu.1 with h1 | h1
    · exact Or.inl h1
    · right
      rw [List.length_set, keysOf_set_odd child' cs (i + 1) (by omega)]
      exact h1
  | keyNew node valueNode s rest hk hf _ ih =>
    intro hu
    obtain ⟨k, t, val, cs⟩ := node
    simp only [Node.content] at hf
    simp only [Node.withContent, Node.content]
    simp only [Node.uniqueKeys, Bool.and_eq_true, Bool.or_eq_true, bne_iff_ne, ne_eq,
      beq_iff_eq, decide_eq_true_eq] at hu ⊢
    have hvn := ih (by rfl)
    refine ⟨?_, ?_⟩
    · rcases hu.1 with h1 | h1
      · exact Or.inl h1
      · right
        rw [keysOf_append_pair (setString s) valueNode cs h1.1]
        refine ⟨by simp; omega, ?_⟩
        have hnot := not_mem_keysOf_of_findKey_none s cs hf
        rw [List.nodup_append]
        refine ⟨h1.2, by simp, ?_⟩
        intro a ha hb
        simp [setString, Node.value] at hb
        subst hb
        exact hnot ha
    · rw [uniqueKeysList_append]
      simp [uniqueKeysList, hu.2, hvn]
      rfl
  | indexFound node child child' i rest hk h0 h1 hc _ ih =>
    intro hu
    obtain ⟨k, t, val, cs⟩ := node
    simp only [Node.content] at hc
    simp only [Node.kind] at hk
    simp only [Node.withContent, Node.content]
    simp only [Node.uniqueKeys, Bool.and_eq_true, Bool.or_eq_true, bne_iff_ne, ne_eq,
      beq_iff_eq, decide_eq_true_eq] at hu ⊢
    have hchild := ih (uniqueKeysList_get cs i.toNat child hu.2 hc)
    refine ⟨Or.inl ?_, uniqueKeysList_set cs i.toNat child' hu.2 hchild⟩
    rw [hk]
    decide
  | indexNew node valueNode i rest hk hi _ ih =>
    intro hu
    obtain ⟨k, t, val, cs⟩ := node
    simp only [Node.kind] at hk
    simp only [Node.withContent, Node.content]
    simp only [Node.uniqueKeys, Bool.and_eq_true, Bool.or_eq_true, bne_iff_ne, ne_eq,
      beq_iff_eq, decide_eq_true_eq] at hu ⊢
    have hvn := ih (by rfl)
    refine ⟨Or.inl ?_, ?_⟩
    · rw [hk]
      decide
    · rw [uniqueKeysList_append]
      simp [uniqueKeysList, hu.2, hvn]
  | initMapping node node' s rest _ _ ih => intro _; exact ih (by rfl)
  | initSequence node node' i rest _ _ ih => intro _; exact ih (by rfl)

/-- Claim C7: when every Mapping of the tree and of the encoding of the value has
pairwise different keys, every Mapping of the tree after a successful `setNode` has
pairwise different keys. -/
theorem setNode_keeps_keys_unique (fuel : Nat) (node : Node) (p : List Seg) (v : Value)
    (node' : Node) (hnode : node.uniqueKeys = true)
    (hv : ∀ nv, encode v = .ok nv → nv.uniqueKeys = true)
    (hset : setNode fuel node p v = some (node', .ok)) :
    node'.uniqueKeys = true :=
  uniqueKeys_of_setOk v hv node p node' (setNode_ok v fuel node p node' hset) hnode

/-- Writing at an odd position does not change what the key loop finds. -/
theorem findKey_set_odd (s : String) (x : Node) :
    ∀ (cs : List Node) (j : Nat), j % 2 = 1 → findKey s (cs.set j x) = findKey s cs := by
  intro cs
  induction cs using pairs_induction with
  | h0 => intro j _; simp
  | h1 a =>
    intro j hj
    cases j with
    | zero => simp at hj
    | succ j => simp
  | h2 a b l ih =>
    intro j hj
    match j, hj with
    | 0, hj => simp at hj
    | 1, _ => simp [findKey]
    | j + 2, hj =>
      simp [findKey]
      rw [ih j (by omega)]

/-- The node a prefix of the path reaches before a successful `setNode` is reached by
the same prefix afterwards, and the rest of the path was set on it. -/
theorem setOk_along_prefix (v : Value) (seg : Seg) (rest : List Seg) :
    ∀ (q : List Seg) (t t' m : Node),
      SetOk v t (q ++ seg :: rest) t' → getNode t q = .ok m →
      ∃ m', SetOk v m (seg :: rest) m' ∧ getNode t' q = .ok m' := by
  intro q
  induction q with
  | nil =>
    intro t t' m h hg
    simp [getNode] at hg
    subst hg
    exact ⟨t', h, rfl⟩
  | cons a q ih =>
    intro t t' m h hg
    simp only [List.cons_append] at h
    cases h with
    | keyFound node child child' s i rest0 hk hf hc hsub =>
      have hi : i % 2 = 0 := ((findKey_some_iff s t.content i).mp hf).1
      have hlt : i + 1 < t.content.length := by
        by_contra hge
        have : t.content[i + 1]? = none := List.getElem?_eq_none (by omega)
        rw [this] at hc
        cases hc
      have hg' : getNode child q = .ok m := by
        simpa [getNode, hk, hf, hc] using hg
      obtain ⟨m', h1, h2⟩ := ih child child' m hsub hg'
      refine ⟨m', h1, ?_⟩
      obtain ⟨k, tg, val, cs⟩ := t
      simp only [Node.content, Node.kind] at hf hc hk hlt
      have hf' : findKey s (cs.set (i + 1) child') = some i := by
        rw [findKey_set_odd s child' cs (i + 1) (by omega)]
        exact hf
      have hc' : (cs.set (i + 1) child')[i + 1]? = some child' := by
        simp [List.getElem?_set, hlt]
      simp [getNode, Node.withContent, Node.content, Node.kind, hk, hf', hc', h2]
    | keyNew node valueNode s rest0 hk hf hsub =>
      simp [getNode, hk, hf] at hg
    | indexFound node child child' i rest0 hk h0 h1 hc hsub =>
      have hk1 : ¬ (t.kind = DocumentNode ∨ t.kind = MappingNode) := by
        rw [hk]; decide
      have h0' : ¬ i < 0 := by omega
      have h1' : ¬ (t.content.length : Int) ≤ i := by omega
      have hg' : getNode child q = .ok m := by
        simpa [getNode, hk1, hk, h0', h1', hc] using hg
      obtain ⟨m', h2, h3⟩ := ih child child' m hsub hg'
      refine ⟨m', h2, ?_⟩
      obtain ⟨k, tg, val, cs⟩ := t
      simp only [Node.content, Node.kind] at hc hk h1 hk1 h1'
      have hlt : i.toNat < cs.length := by omega
      have hc' : (cs.set i.toNat child')[i.toNat]? = some child' := by
        simp [List.getElem?_set, hlt]
      subst hk
      simp [getNode, Node.withContent, Node.content, Node.kind, SequenceNode, DocumentNode,
        MappingNode, h0', h1', hc', h3]
    | indexNew node valueNode i rest0 hk hi hsub =>
      have hk1 : ¬ (t.kind = DocumentNode ∨ t.kind = MappingNode) := by
        rw [hk]; decide
      simp [getNode, hk, hi, SequenceNode, DocumentNode, MappingNode] at hg
    | initMapping node node0 s rest0 hkl hsub =>
      obtain ⟨h1, h2, h3, h4, h5⟩ := hkl
      simp [getNode, h1, h2, h3, h4, h5] at hg
    | initSequence node node0 i rest0 hkl hsub =>
      obtain ⟨h1, h2, h3, h4, h5⟩ := hkl
      simp [getNode, h1, h2, h3, h4, h5] at hg

/-- Claim C8: a Mapping that a prefix of the path reaches before a successful `setNode`
is reached by the same prefix afterwards, the next segment is a string, and its
`Content` is the old one with only the value of the first entry under that key
replaced, or, when no entry had the key, the old one followed by the new key and its
value; every old key and every other old value keeps its position. -/
theorem setNode_preserves_order (fuel : Nat) (t t' m : Node) (q : List Seg) (seg : Seg)
    (rest : List Seg) (v : Value)
    (hset : setNode fuel t (q ++ seg :: rest) v = some (t', .ok))
    (hget : getNode t q = .ok m) (hkind : m.kind = MappingNode) :
    ∃ s, seg = .str s ∧
      ((∃ i child', FirstKeyAt m.content s i ∧ i + 1 < m.content.length ∧
          getNode t' q = .ok (m.withContent (m.content.set (i + 1) child'))) ∨
       (NoKey m.content s ∧ ∃ valueNode,
          getNode t' q = .ok (m.withContent (m.content ++ [setString s, valueNode])))) := by
  obtain ⟨m', h1, h2⟩ :=
    setOk_along_prefix v seg rest q t t' m (setNode_ok v fuel t _ t' hset) hget
  cases h1 with
  | keyFound node child child' s i rest0 hk hf hc hsub =>
    refine ⟨s, rfl, Or.inl ⟨i, child', (findKey_some_iff s _ i).mp hf, ?_, h2⟩⟩
    by_contra hge
    have : m.content[i + 1]? = none := List.getElem?_eq_none (by omega)
    rw [this] at hc
    cases hc
  | keyNew node valueNode s rest0 hk hf hsub =>
    exact ⟨s, rfl, Or.inr ⟨(findKey_none_iff s _).mp hf, valueNode, h2⟩⟩
  | indexFound node child child' i rest0 hk h0 h1 hc hsub =>
    rw [hkind] at hk
    exact absurd hk (by decide)
  | indexNew node valueNode i rest0 hk hi hsub =>
    rw [hkind] at hk
    exact absurd hk (by decide)
  | initMapping node node0 s rest0 hkl hsub => exact absurd hkind hkl.2.1
  | initSequence node node0 i rest0 hkl hsub => exact absurd hkind hkl.2.1

/-- Witness of `setNode_keeps_keys_unique`: adding the key `d` under `a` in
`{a: {c: "1"}, b: "2"}`. -/
theorem setNode_keeps_keys_unique_witness :
    sampleTree.uniqueKeys = true ∧
      (∀ nv, encode (.str "x") = .ok nv → nv.uniqueKeys = true) ∧
      setNode 5 sampleTree [.str "a", .str "d"] (.str "x") = some (sampleTreeAfter, .ok) ∧
      sampleTreeAfter.uniqueKeys = true :=
  ⟨by decide, by intro nv h; cases h; decide, rfl,
    setNode_keeps_keys_unique 5 sampleTree [.str "a", .str "d"] (.str "x") sampleTreeAfter
      (by decide) (by intro nv h; cases h; decide) rfl⟩

/-- Witness of `setNode_preserves_order`: in `{a: {c: "1"}, b: "2"}` the path
`["a", "d"]` passes the Mapping under `a`, which gains the key `d` as its last entry. -/
theorem setNode_preserves_order_witness :
    setNode 5 sampleTree ([.str "a"] ++ .str "d" :: []) (.str "x")
        = some (sampleTreeAfter, .ok) ∧
      getNode sampleTree [.str "a"] = .ok sampleInner ∧
      sampleInner.kind = MappingNode ∧
      ∃ s, Seg.str "d" = .str s ∧
        ((∃ i child', FirstKeyAt sampleInner.content s i ∧ i + 1 < sampleInner.content.length ∧
            getNode sampleTreeAfter [.str "a"]
              = .ok (sampleInner.withContent (sampleInner.content.set (i + 1) child'))) ∨
         (NoKey sampleInner.content s ∧ ∃ valueNode,
            getNode sampleTreeAfter [.str "a"]
              = .ok (sampleInner.withContent
                  (sampleInner.content ++ [setString s, valueNode])))) :=
  ⟨rfl, rfl, rfl,
    setNode_preserves_order 5 sampleTree sampleTreeAfter sampleInner [.str "a"] (.str "d") []
      (.str "x") rfl rfl rfl⟩

/-- Membership after an idempotent insertion. -/
theorem mem_insertOnce {α : Type} [DecidableEq α] (a b : α) (l : List α) :
    b ∈ insertOnce a l ↔ b ∈ l ∨ b = a := by
  unfold insertOnce
  by_cases h : a ∈ l
  · simp only [h, if_true]
    constructor
    · exact Or.inl
    · rintro (h1 | h1)
      · exact h1
      · rw [h1]; exact h
  · simp [h]

/-- Elements after registering an item without links. -/
theorem mem_nodes_add_nil (g : Graph) (item e : Element) :
    e ∈ (g.Add item []).nodes ↔ e ∈ g.nodes ∨ e = item := by
  simp [Graph.Add, mem_insertOnce]

/-- Edges after registering an item without links. -/
theorem edges_add_nil (g : Graph) (item : Element) : (g.Add item []).edges = g.edges := by
  simp [Graph.Add]

/-- Elements after adding one link. -/
theorem mem_nodes_add_one (g : Graph) (item link e : Element) :
    e ∈ (g.Add item [link]).nodes ↔ e ∈ g.nodes ∨ e = item ∨ e = link := by
  simp [Graph.Add, mem_insertOnce, or_assoc]

/-- Edges after adding one link. -/
theorem mem_edges_add_one (g : Graph) (item link : Element) (ab : Element × Element) :
    ab ∈ (g.Add item [link]).edges ↔ ab ∈ g.edges ∨ ab = (item, link) := by
  simp [Graph.Add, mem_insertOnce]

/-- What the loop over the references of one entry adds to the graph. -/
theorem addRefs_ok (entities : List (String × String)) (typeName fromName : String) :
    ∀ (raws : List String) (g g' : Graph),
      addRefs entities typeName fromName raws g = .ok g' → ⟨fromName, typeName⟩ ∈ g.nodes →
      (∀ e, e ∈ g'.nodes ↔ e ∈ g.nodes ∨ IsTarget entities raws e) ∧
      (∀ a b, (a, b) ∈ g'.edges ↔
        (a, b) ∈ g.edges ∨ (a = ⟨fromName, typeName⟩ ∧ IsTarget entities raws b)) := by
  intro raws
  induction raws with
  | nil =>
    intro g g' h _
    simp [addRefs] at h
    subst h
    simp [IsTarget]
  | cons raw rest ih =>
    intro g g' h hfrom
    have step : ∀ ty, resolve entities (beforeDot raw) = some ty →
        addRefs entities typeName fromName rest
          (g.Add ⟨fromName, typeName⟩ [⟨beforeDot raw, ty⟩]) = .ok g' →
        (∀ e, e ∈ g'.nodes ↔ e ∈ g.nodes ∨ IsTarget entities (raw :: rest) e) ∧
        (∀ a b, (a, b) ∈ g'.edges ↔
          (a, b) ∈ g.edges ∨ (a = ⟨fromName, typeName⟩ ∧ IsTarget entities (raw :: rest) b)) := by
      intro ty hty h'
      have hfrom' : (⟨fromName, typeName⟩ : Element) ∈
          (g.Add ⟨fromName, typeName⟩ [⟨beforeDot raw, ty⟩]).nodes := by
        rw [mem_nodes_add_one]; exact Or.inl hfrom
      obtain ⟨hn, he⟩ := ih _ g' h' hfrom'
      have hcons : ∀ x, IsTarget entities (raw :: rest) x ↔
          x = ⟨beforeDot raw, ty⟩ ∨ IsTarget entities rest x := by
        intro x
        constructor
        · rintro ⟨r, t, hr, hres, hx⟩
          rcases List.mem_cons.mp hr with h1 | h1
          · subst h1
            rw [hty] at hres
            cases hres
            exact Or.inl hx
          · exact Or.inr ⟨r, t, h1, hres, hx⟩
        · rintro (h1 | ⟨r, t, hr, hres, hx⟩)
          · exact ⟨raw, ty, List.mem_cons_self _ _, hty, h1⟩
          · exact ⟨r, t, List.mem_cons_of_mem _ hr, hres, hx⟩
      constructor
      · intro e
        rw [hn e, mem_nodes_add_one, hcons]
        constructor
        · rintro ((h1 | h1 | h1) | h1)
          · exact Or.inl h1
          · rw [h1]; exact Or.inl hfrom
          · exact Or.inr (Or.inl h1)
          · exact Or.inr (Or.inr h1)
        · rintro (h1 | h1 | h1)
          · exact Or.inl (Or.inl h1)
          · exact Or.inl (Or.inr (Or.inr h1))
          · exact Or.inr h1
      · intro a b
        rw [he a b, mem_edges_add_one, hcons]
        constructor
        · rintro ((h1 | h1) | ⟨h1, h2⟩)
          · exact Or.inl h1
          · cases h1
            exact Or.inr ⟨rfl, Or.inl rfl⟩
          · exact Or.inr ⟨h1, Or.inr h2⟩
        · rintro (h1 | ⟨h1, h2 | h2⟩)
          · exact Or.inl (Or.inl h1)
          · subst h1 h2
            exact Or.inl (Or.inr rfl)
          · exact Or.inr ⟨h1, h2⟩
    simp only [addRefs] at h
    cases hl : entities.lookup (beforeDot raw) with
    | some toType =>
      simp only [hl] at h
      exact step toType (by simp [resolve, hl]) h
    | none =>
      simp only [hl] at h
      by_cases hp : hasPrefix (beforeDot raw) "AWS::" = true
      · simp only [hp, if_true] at h
        exact step "Parameters" (by simp [resolve, hl, hp]) h
      · simp [hp] at h

/-- What the loop over the entries of one section adds to the graph. -/
theorem addEntries_ok (refs : List (String × Value) → List String)
    (entities : List (String × String)) (typeName : String) :
    ∀ (tree : List (String × Value)) (g g' : Graph),
      addEntries refs entities typeName tree g = .ok g' →
      (∀ e, e ∈ g'.nodes ↔ e ∈ g.nodes ∨ (∃ res, (e.Name, res) ∈ tree ∧ e.TypeName = typeName) ∨
        ∃ fromName resource, (fromName, Value.map resource) ∈ tree ∧
          IsTarget entities (refs resource) e) ∧
      (∀ a b, (a, b) ∈ g'.edges ↔ (a, b) ∈ g.edges ∨
        ∃ resource, (a.Name, Value.map resource) ∈ tree ∧ a.TypeName = typeName ∧
          IsTarget entities (refs resource) b) := by
  intro tree
  induction tree with
  | nil =>
    intro g g' h
    simp [addEntries] at h
    subst h
    simp
  | cons entry rest ih =>
    intro g g' h
    obtain ⟨fromName, res⟩ := entry
    cases res with
    | map resource =>
      simp only [addEntries] at h
      cases hr : addRefs entities typeName fromName (refs resource)
          (g.Add ⟨fromName, typeName⟩ []) with
      | ok g1 =>
        simp only [hr] at h
        obtain ⟨hn1, he1⟩ := addRefs_ok entities typeName fromName (refs resource) _ g1 hr
          (by rw [mem_nodes_add_nil]; exact Or.inr rfl)
        obtain ⟨hn2, he2⟩ := ih g1 g' h
        constructor
        · intro e
          rw [hn2 e, hn1 e, mem_nodes_add_nil]
          constructor
          · rintro (((h1 | h1) | h1) | ⟨r, h1, h2⟩ | ⟨f, rs, h1, h2⟩)
            · exact Or.inl h1
            · subst h1
              exact Or.inr (Or.inl ⟨.map resource, List.mem_cons_self _ _, rfl⟩)
            · exact Or.inr (Or.inr ⟨fromName, resource, List.mem_cons_self _ _, h1⟩)
            · exact Or.inr (Or.inl ⟨r, List.mem_cons_of_mem _ h1, h2⟩)
            · exact Or.inr (Or.inr ⟨f, rs, List.mem_cons_of_mem _ h1, h2⟩)
          · rintro (h1 | ⟨r, h1, h2⟩ | ⟨f, rs, h1, h2⟩)
            · exact Or.inl (Or.inl (Or.inl h1))
            · rcases List.mem_cons.mp h1 with h3 | h3
              · left; left; right
                cases e
                simp only [Prod.mk.injEq] at h3
                simp only at h2
                rw [h3.1, h2]
              · exact Or.inr (Or.inl ⟨r, h3, h2⟩)
            · rcases List.mem_cons.mp h1 with h3 | h3
              · simp only [Prod.mk.injEq, Value.map.injEq] at h3
                obtain ⟨_, h4⟩ := h3
                subst h4
                exact Or.inl (Or.inr h2)
              · exact Or.inr (Or.inr ⟨f, rs, h3, h2⟩)
        · intro a b
          rw [he2 a b, he1 a b, edges_add_nil]
          constructor
          · rintro ((h1 | ⟨h1, h2⟩) | ⟨rs, h1, h2, h3⟩)
            · exact Or.inl h1
            · subst h1
              exact Or.inr ⟨resource, List.mem_cons_self _ _, rfl, h2⟩
            · exact Or.inr ⟨rs, List.mem_cons_of_mem _ h1, h2, h3⟩
          · rintro (h1 | ⟨rs, h1, h2, h3⟩)
            · exact Or.inl (Or.inl h1)
            · rcases List.mem_cons.mp h1 with h4 | h4
              · simp only [Prod.mk.injEq, Value.map.injEq] at h4
                obtain ⟨h5, h6⟩ := h4
                subst h6
                left; right
                refine ⟨?_, h3⟩
                cases a
                simp only at h5 h2
                rw [h5, h2]
              · exact Or.inr ⟨rs, h4, h2, h3⟩
      | unresolved a b c => simp [hr] at h
      | notAMap a b => simp [hr] at h
      | mapFailed => simp [hr] at h
    | null => simp [addEntries] at h
    | bool b => simp [addEntries] at h
    | int i => simp [addEntries] at h
    | str s => simp [addEntries] at h
    | list xs => simp [addEntries] at h
    | generalMap es => simp [addEntries] at h
    | unsupported ty => simp [addEntries] at h

/-- Declarations of a template with one more section in front. -/
theorem declared_cons (sec : String × Value) (rest : List (String × Value)) (e : Element)
    (res : Value) :
    Declared (sec :: rest) e res ↔
      ((e.TypeName = "Resources" ∨ e.TypeName = "Outputs") ∧
        ∃ tree, sec = (e.TypeName, Value.map tree) ∧ (e.Name, res) ∈ tree) ∨
      Declared rest e res := by
  unfold Declared
  constructor
  · rintro ⟨tree, h1, h2, h3⟩
    rcases List.mem_cons.mp h1 with h4 | h4
    · exact Or.inl ⟨h2, tree, h4.symm, h3⟩
    · exact Or.inr ⟨tree, h4, h2, h3⟩
  · rintro (⟨h2, tree, h1, h3⟩ | ⟨tree, h1, h2, h3⟩)
    · exact ⟨tree, by rw [h1]; exact List.mem_cons_self _ _, h2, h3⟩
    · exact ⟨tree, List.mem_cons_of_mem _ h1, h2, h3⟩

/-- What the loop over the sections adds to the graph. -/
theorem addSections_ok (refs : List (String × Value) → List String)
    (entities : List (String × String)) :
    ∀ (secs : List (String × Value)) (g g' : Graph),
      addSections refs entities secs g = .ok g' →
      (∀ e, e ∈ g'.nodes ↔ e ∈ g.nodes ∨ (∃ res, Declared secs e res) ∨
        ∃ d resource, Declared secs d (.map resource) ∧ IsTarget entities (refs resource) e) ∧
      (∀ a b, (a, b) ∈ g'.edges ↔ (a, b) ∈ g.edges ∨
        ∃ resource, Declared secs a (.map resource) ∧ IsTarget entities (refs resource) b) := by
  intro secs
  induction secs with
  | nil =>
    intro g g' h
    simp [addSections] at h
    subst h
    simp [Declared]
  | cons sec rest ih =>
    intro g g' h
    obtain ⟨typeName, entity⟩ := sec
    have skip : addSections refs entities rest g = .ok g' →
        (∀ (e : Element) (res : Value), ¬ ((e.TypeName = "Resources" ∨ e.TypeName = "Outputs") ∧
          ∃ tree, (typeName, entity) = (e.TypeName, Value.map tree) ∧ (e.Name, res) ∈ tree)) →
        (∀ e, e ∈ g'.nodes ↔ e ∈ g.nodes ∨ (∃ res, Declared ((typeName, entity) :: rest) e res) ∨
          ∃ d resource, Declared ((typeName, entity) :: rest) d (.map resource) ∧
            IsTarget entities (refs resource) e) ∧
        (∀ a b, (a, b) ∈ g'.edges ↔ (a, b) ∈ g.edges ∨
          ∃ resource, Declared ((typeName, entity) :: rest) a (.map resource) ∧
            IsTarget entities (refs resource) b) := by
      intro h' hnot
      obtain ⟨hn, he⟩ := ih g g' h'
      have hd : ∀ e res, Declared ((typeName, entity) :: rest) e res ↔ Declared rest e res := by
        intro e res
        rw [declared_cons]
        constructor
        · rintro (h1 | h1)
          · exact absurd h1 (hnot e res)
          · exact h1
        · exact Or.inr
      constructor
      · intro e
        rw [hn e]
        simp only [hd]
      · intro a b
        rw [he a b]
        simp only [hd]
    simp only [addSections] at h
    by_cases hty : typeName ≠ "Resources" ∧ typeName ≠ "Outputs"
    · rw [if_pos hty] at h
      apply skip h
      rintro e res ⟨h1, tree, h2, _⟩
      simp only [Prod.mk.injEq] at h2
      rw [← h2.1] at h1
      rcases h1 with h1 | h1
      · exact hty.1 h1
      · exact hty.2 h1
    · rw [if_neg hty] at h
      have hty' : typeName = "Resources" ∨ typeName = "Outputs" := by
        by_contra hc
        push_neg at hc
        exact hty hc
      cases entity with
      | map tree =>
        simp only at h
        cases hr : addEntries refs entities typeName tree g with
        | ok g1 =>
          simp only [hr] at h
          obtain ⟨hn1, he1⟩ := addEntries_ok refs entities typeName tree g g1 hr
          obtain ⟨hn2, he2⟩ := ih g1 g' h
          have hd : ∀ e res, Declared ((typeName, Value.map tree) :: rest) e res ↔
              ((e.Name, res) ∈ tree ∧ e.TypeName = typeName) ∨ Declared rest e res := by
            intro e res
            rw [declared_cons]
            constructor
            · rintro (⟨_, tree', h2, h3⟩ | h1)
              · simp only [Prod.mk.injEq, Value.map.injEq] at h2
                obtain ⟨h4, h5⟩ := h2
                subst h5
                exact Or.inl ⟨h3, h4.symm⟩
              · exact Or.inr h1
            · rintro (⟨h1, h2⟩ | h1)
              · left
                refine ⟨by rw [h2]; exact hty', tree, by rw [h2], h1⟩
              · exact Or.inr h1
          constructor
          · intro e
            rw [hn2 e, hn1 e]
            simp only [hd]
            constructor
            · rintro ((h1 | ⟨r, h1, h2⟩ | ⟨f, rs, h1, h2⟩) | ⟨r, h1⟩ | ⟨d, rs, h1, h2⟩)
              · exact Or.inl h1
              · exact Or.inr (Or.inl ⟨r, Or.inl ⟨h1, h2⟩⟩)
              · exact Or.inr (Or.inr ⟨⟨f, typeName⟩, rs, Or.inl ⟨h1, rfl⟩, h2⟩)
              · exact Or.inr (Or.inl ⟨r, Or.inr h1⟩)
              · exact Or.inr (Or.inr ⟨d, rs, Or.inr h1, h2⟩)
            · rintro (h1 | ⟨r, ⟨h1, h2⟩ | h1⟩ | ⟨d, rs, ⟨h1, h3⟩ | h1, h2⟩)
              · exact Or.inl (Or.inl h1)
              · exact Or.inl (Or.inr (Or.inl ⟨r, h1, h2⟩))
              · exact Or.inr (Or.inl ⟨r, h1⟩)
              · exact Or.inl (Or.inr (Or.inr ⟨d.Name, rs, h1, h2⟩))
              · exact Or.inr (Or.inr ⟨d, rs, h1, h2⟩)
          · intro a b
            rw [he2 a b, he1 a b]
            simp only [hd]
            constructor
            · rintro ((h1 | ⟨rs, h1, h2, h3⟩) | ⟨rs, h1, h2⟩)
              · exact Or.inl h1
              · exact Or.inr ⟨rs, Or.inl ⟨h1, h2⟩, h3⟩
              · exact Or.inr ⟨rs, Or.inr h1, h2⟩
            · rintro (h1 | ⟨rs, ⟨h1, h2⟩ | h1, h3⟩)
              · exact Or.inl (Or.inl h1)
              · exact Or.inl (Or.inr ⟨rs, h1, h2, h3⟩)
              · exact Or.inr ⟨rs, h1, h3⟩
        | unresolved a b c => simp [hr] at h
        | notAMap a b => simp [hr] at h
        | mapFailed => simp [hr] at h
      | null => exact skip (by simpa using h) (by rintro e res ⟨_, tree, h2, _⟩; cases h2)
      | bool b => exact skip (by simpa using h) (by rintro e res ⟨_, tree, h2, _⟩; cases h2)
      | int i => exact skip (by simpa using h) (by rintro e res ⟨_, tree, h2, _⟩; cases h2)
      | str s => exact skip (by simpa using h) (by rintro e res ⟨_, tree, h2, _⟩; cases h2)
      | list xs => exact skip (by simpa using h) (by rintro e res ⟨_, tree, h2, _⟩; cases h2)
      | generalMap es =>
        exact skip (by simpa using h) (by rintro e res ⟨_, tree, h2, _⟩; cases h2)
      | unsupported ty =>
        exact skip (by simpa using h) (by rintro e res ⟨_, tree, h2, _⟩; cases h2)

/-- Claim C9: on a template where `Graph` succeeds, the elements of the graph are the
entries declared under `Resources` and `Outputs` together with the resolved targets of
the references found in them, and the edges are the pairs of a declaring entry and a
resolved target of one of its references.  On the test template the graph has the
elements Bucket/Resources, Name/Parameters and BucketArn/Outputs and the edges
Bucket -> Name and BucketArn -> Bucket. -/
theorem graph_elements_and_edges (refs : List (String × Value) → List String) (t : Node)
    (g : Graph) (h : Template.Graph refs t = .ok g) :
    (∃ m, Template.Map t = some m ∧
      (∀ e, e ∈ g.nodes ↔ (∃ res, Declared m e res) ∨
        ∃ d resource, Declared m d (.map resource) ∧
          IsTarget (entitiesOf m) (refs resource) e) ∧
      (∀ a b, (a, b) ∈ g.edges ↔
        ∃ resource, Declared m a (.map resource) ∧
          IsTarget (entitiesOf m) (refs resource) b)) ∧
    (∃ t0, NewTemplate testMap = some t0 ∧
      Template.Graph getRefs t0 = .ok
        ⟨[⟨"Bucket", "Resources"⟩, ⟨"Name", "Parameters"⟩, ⟨"BucketArn", "Outputs"⟩],
         [(⟨"Bucket", "Resources"⟩, ⟨"Name", "Parameters"⟩),
          (⟨"BucketArn", "Outputs"⟩, ⟨"Bucket", "Resources"⟩)]⟩) := by
  constructor
  · unfold Template.Graph at h
    cases hm : Template.Map t with
    | none => simp [hm] at h
    | some m =>
      simp only [hm] at h
      refine ⟨m, rfl, ?_⟩
      obtain ⟨hn, he⟩ := addSections_ok refs (entitiesOf m) m Graph.New g h
      constructor
      · intro e
        rw [hn e]
        simp [Graph.New]
      · intro a b
        rw [he a b]
        simp [Graph.New]
  · exact ⟨_, rfl, rfl⟩

/-- The loop over the references of one entry ends well when every name resolves, and
otherwise panics on a name that does not. -/
theorem addRefs_cases (entities : List (String × String)) (typeName fromName : String) :
    ∀ (raws : List String) (g : Graph),
      ((∃ g', addRefs entities typeName fromName raws g = .ok g') ∧
        ∀ raw, raw ∈ raws → resolve entities (beforeDot raw) ≠ none) ∨
      ∃ raw, raw ∈ raws ∧ resolve entities (beforeDot raw) = none ∧
        addRefs entities typeName fromName raws g = .unresolved (beforeDot raw) typeName fromName := by
  intro raws
  induction raws with
  | nil => intro g; left; exact ⟨⟨g, rfl⟩, by simp⟩
  | cons raw rest ih =>
    intro g
    have step : ∀ ty, resolve entities (beforeDot raw) = some ty →
        addRefs entities typeName fromName (raw :: rest) g =
          addRefs entities typeName fromName rest
            (g.Add ⟨fromName, typeName⟩ [⟨beforeDot raw, ty⟩]) →
        ((∃ g', addRefs entities typeName fromName (raw :: rest) g = .ok g') ∧
          ∀ r, r ∈ raw :: rest → resolve entities (beforeDot r) ≠ none) ∨
        ∃ r, r ∈ raw :: rest ∧ resolve entities (beforeDot r) = none ∧
          addRefs entities typeName fromName (raw :: rest) g
            = .unresolved (beforeDot r) typeName fromName := by
      intro ty hty heq
      rw [heq]
      rcases ih (g.Add ⟨fromName, typeName⟩ [⟨beforeDot raw, ty⟩]) with ⟨h1, h2⟩ | ⟨r, h1, h2, h3⟩
      · left
        refine ⟨h1, ?_⟩
        intro r hr
        rcases List.mem_cons.mp hr with h4 | h4
        · rw [h4, hty]; simp
        · exact h2 r h4
      · right
        exact ⟨r, List.mem_cons_of_mem _ h1, h2, h3⟩
    cases hl : entities.lookup (beforeDot raw) with
    | some toType =>
      exact step toType (by simp [resolve, hl]) (by simp [addRefs, hl])
    | none =>
      by_cases hp : hasPrefix (beforeDot raw) "AWS::" = true
      · exact step "Parameters" (by simp [resolve, hl, hp]) (by simp [addRefs, hl, hp])
      · right
        exact ⟨raw, List.mem_cons_self _ _, by simp [resolve, hl, hp], by simp [addRefs, hl, hp]⟩

/-- The loop over the entries of a section whose entries are maps ends well when every
reference resolves, and otherwise panics on an entry and a name that does not. -/
theorem addEntries_cases (refs : List (String × Value) → List String)
    (entities : List (String × String)) (typeName : String) :
    ∀ (tree : List (String × Value)) (g : Graph),
      (∀ fromName res, (fromName, res) ∈ tree → ∃ resource, res = Value.map resource) →
      ((∃ g', addEntries refs entities typeName tree g = .ok g') ∧
        ∀ fromName resource raw, (fromName, Value.map resource) ∈ tree → raw ∈ refs resource →
          resolve entities (beforeDot raw) ≠ none) ∨
      ∃ fromName resource raw, (fromName, Value.map resource) ∈ tree ∧ raw ∈ refs resource ∧
        resolve entities (beforeDot raw) = none ∧
        addEntries refs entities typeName tree g = .unresolved (beforeDot raw) typeName fromName := by
  intro tree
  induction tree with
  | nil => intro g _; left; exact ⟨⟨g, rfl⟩, by simp⟩
  | cons entry rest ih =>
    intro g hmaps
    obtain ⟨fromName, res⟩ := entry
    obtain ⟨resource, hres⟩ := hmaps fromName res (List.mem_cons_self _ _)
    subst hres
    have hrest : ∀ f r, (f, r) ∈ rest → ∃ resource, r = Value.map resource :=
      fun f r h => hmaps f r (List.mem_cons_of_mem _ h)
    rcases addRefs_cases entities typeName fromName (refs resource)
        (g.Add ⟨fromName, typeName⟩ []) with ⟨⟨g1, h1⟩, h2⟩ | ⟨raw, h1, h2, h3⟩
    · have heq : addEntries refs entities typeName ((fromName, Value.map resource) :: rest) g
          = addEntries refs entities typeName rest g1 := by
        simp [addEntries, h1]
      rw [heq]
      rcases ih g1 hrest with ⟨h3, h4⟩ | ⟨f, rs, raw, h3, h4, h5, h6⟩
      · left
        refine ⟨h3, ?_⟩
        intro f rs raw hf hraw
        rcases List.mem_cons.mp hf with h5 | h5
        · simp only [Prod.mk.injEq, Value.map.injEq] at h5
          obtain ⟨_, h6⟩ := h5
          subst h6
          exact h2 raw hraw
        · exact h4 f rs raw h5 hraw
      · right
        exact ⟨f, rs, raw, List.mem_cons_of_mem _ h3, h4, h5, h6⟩
    · right
      refine ⟨fromName, resource, raw, List.mem_cons_self _ _, h1, h2, ?_⟩
      simp [addEntries, h3]

/-- The loop over the sections of a template whose entries are maps ends well when
every reference resolves, and otherwise panics on an entry and a name that does not. -/
theorem addSections_cases (refs : List (String × Value) → List String)
    (entities : List (String × String)) :
    ∀ (secs : List (String × Value)) (g : Graph), EntriesAreMaps secs →
      ((∃ g', addSections refs entities secs g = .ok g') ∧
        ∀ d resource raw, Declared secs d (.map resource) → raw ∈ refs resource →
          resolve entities (beforeDot raw) ≠ none) ∨
      ∃ d resource raw, Declared secs d (.map resource) ∧ raw ∈ refs resource ∧
        resolve entities (beforeDot raw) = none ∧
        addSections refs entities secs g = .unresolved (beforeDot raw) d.TypeName d.Name := by
  intro secs
  induction secs with
  | nil =>
    intro g _
    left
    refine ⟨⟨g, rfl⟩, ?_⟩
    rintro d resource raw ⟨tree, h, _⟩
    simp at h
  | cons sec rest ih =>
    intro g hmaps
    obtain ⟨typeName, entity⟩ := sec
    have hrest : EntriesAreMaps rest := by
      intro e res h
      exact hmaps e res ((declared_cons _ _ _ _).mpr (Or.inr h))
    have skip : addSections refs entities ((typeName, entity) :: rest) g
          = addSections refs entities rest g →
        (∀ (e : Element) (res : Value), Declared ((typeName, entity) :: rest) e res →
          Declared rest e res) →
        ((∃ g', addSections refs entities ((typeName, entity) :: rest) g = .ok g') ∧
          ∀ d resource raw, Declared ((typeName, entity) :: rest) d (.map resource) →
            raw ∈ refs resource → resolve entities (beforeDot raw) ≠ none) ∨
        ∃ d resource raw, Declared ((typeName, entity) :: rest) d (.map resource) ∧
          raw ∈ refs resource ∧ resolve entities (beforeDot raw) = none ∧
          addSections refs entities ((typeName, entity) :: rest) g
            = .unresolved (beforeDot raw) d.TypeName d.Name := by
      intro heq hd
      rw [heq]
      rcases ih g hrest with ⟨h1, h2⟩ | ⟨d, rs, raw, h1, h2, h3, h4⟩
      · left
        exact ⟨h1, fun d rs raw hdec hraw => h2 d rs raw (hd d _ hdec) hraw⟩
      · right
        exact ⟨d, rs, raw, (declared_cons _ _ _ _).mpr (Or.inr h1), h2, h3, h4⟩
    have notHere : (∀ tree, entity ≠ Value.map tree) ∨
        (typeName ≠ "Resources" ∧ typeName ≠ "Outputs") →
        ∀ (e : Element) (res : Value), Declared ((typeName, entity) :: rest) e res →
          Declared rest e res := by
      intro hno e res h
      rcases (declared_cons _ _ _ _).mp h with ⟨h1, tree, h2, _⟩ | h1
      · simp only [Prod.mk.injEq] at h2
        rcases hno with h3 | h3
        · exact absurd h2.2 (h3 tree)
        · rw [← h2.1] at h1
          rcases h1 with h1 | h1
          · exact absurd h1 h3.1
          · exact absurd h1 h3.2
      · exact h1
    by_cases hty : typeName ≠ "Resources" ∧ typeName ≠ "Outputs"
    · exact skip (by simp only [addSections]; rw [if_pos hty]) (notHere (Or.inr hty))
    · have hty' : typeName = "Resources" ∨ typeName = "Outputs" := by
        by_contra hc
        push_neg at hc
        exact hty hc
      cases entity with
      | map tree =>
        have hhere : ∀ f r, (f, r) ∈ tree → Declared ((typeName, Value.map tree) :: rest)
            ⟨f, typeName⟩ r :=
          fun f r h => ⟨tree, List.mem_cons_self _ _, hty', h⟩
        rcases addEntries_cases refs entities typeName tree g
            (fun f r h => hmaps ⟨f, typeName⟩ r (hhere f r h)) with
          ⟨⟨g1, h1⟩, h2⟩ | ⟨f, rs, raw, h1, h2, h3, h4⟩
        · have heq : addSections refs entities ((typeName, Value.map tree) :: rest) g
              = addSections refs entities rest g1 := by
            simp only [addSections]
            rw [if_neg hty]
            simp [h1]
          rw [heq]
          rcases ih g1 hrest with ⟨h3, h4⟩ | ⟨d, rs, raw, h3, h4, h5, h6⟩
          · left
            refine ⟨h3, ?_⟩
            intro d rs raw hdec hraw
            rcases (declared_cons _ _ _ _).mp hdec with ⟨_, tree', h5, h6⟩ | h5
            · simp only [Prod.mk.injEq, Value.map.injEq] at h5
              obtain ⟨_, h7⟩ := h5
              subst h7
              exact h2 d.Name rs raw h6 hraw
            · exact h4 d rs raw h5 hraw
          · right
            exact ⟨d, rs, raw, (declared_cons _ _ _ _).mpr (Or.inr h3), h4, h5, h6⟩
        · right
          refine ⟨⟨f, typeName⟩, rs, raw, hhere f _ h1, h2, h3, ?_⟩
          simp only [addSections]
          rw [if_neg hty]
          simp [h4]
      | null =>
        exact skip (by simp only [addSections]; rw [if_neg hty])
          (notHere (Or.inl (by intro tree h; cases h)))
      | bool b =>
        exact skip (by simp only [addSections]; rw [if_neg hty])
          (notHere (Or.inl (by intro tree h; cases h)))
      | int i =>
        exact skip (by simp only [addSections]; rw [if_neg hty])
          (notHere (Or.inl (by intro tree h; cases h)))
      | str s =>
        exact skip (by simp only [addSections]; rw [if_neg hty])
          (notHere (Or.inl (by intro tree h; cases h)))
      | list xs =>
        exact skip (by simp only [addSections]; rw [if_neg hty])
          (notHere (Or.inl (by intro tree h; cases h)))
      | generalMap es =>
        exact skip (by simp only [addSections]; rw [if_neg hty])
          (notHere (Or.inl (by intro tree h; cases h)))
      | unsupported ty =>
        exact skip (by simp only [addSections]; rw [if_neg hty])
          (notHere (Or.inl (by intro tree h; cases h)))

/-- On a template whose entries under `Resources` and `Outputs` are all maps and in
which some entry holds a reference that does not resolve, `Graph` panics with the
unresolved-dependency message, and the message names an entry (its section and its
name) and a name it refers to that does not resolve. -/
theorem graph_unresolved_dependency (refs : List (String × Value) → List String) (t : Node)
    (m : List (String × Value)) (d : Element) (toName : String)
    (hmap : Template.Map t = some m) (hmaps : EntriesAreMaps m)
    (hun : Unresolved refs m d toName) :
    ∃ toName' typeName fromName,
      Template.Graph refs t = .unresolved toName' typeName fromName ∧
      Unresolved refs m ⟨fromName, typeName⟩ toName' := by
  obtain ⟨resource, raw, hdec, hraw, hname, hres⟩ := hun
  subst hname
  unfold Template.Graph graphOf
  rw [hmap]
  rcases addSections_cases refs (entitiesOf m) m Graph.New hmaps with
    ⟨_, h2⟩ | ⟨d', rs, raw', h1, h2, h3, h4⟩
  · exact absurd hres (h2 d resource raw hdec hraw)
  · exact ⟨beforeDot raw', d'.TypeName, d'.Name, h4, rs, raw', h1, h2, rfl, h3⟩

/-- Claim C10, behind an entry that is not a map: in
`{Resources: {A: "x", B: {Ref: "Missing"}}}` the entry `B` refers to the undeclared
name `Missing`; with `A` visited first, `Graph` panics on the type assertion
`res.(map[string]interface{})` at `A`, whatever `getRefs` is, and with `B` visited
first it panics with the unresolved-dependency message.  In
`{Resources: {A: [{Ref: "Missing"}]}}` the only entry holds the reference in a list,
and `Graph` panics on the type assertion, never with the unresolved-dependency
message. -/
theorem graph_unresolved_behind_non_map :
    (NewTemplate mixedMap = some mixedTemplate ∧
        Template.Map mixedTemplate = some mixedMap ∧
        Unresolved getRefs mixedMap ⟨"B", "Resources"⟩ "Missing" ∧
        (∀ refs, Template.Graph refs mixedTemplate = .notAMap "Resources" "A") ∧
        graphOf getRefs
            [("Resources", .map [("B", .map [("Ref", .str "Missing")]), ("A", .str "x")])]
          = .unresolved "Missing" "Resources" "B") ∧
      (NewTemplate listEntryMap = some listEntryTemplate ∧
        Template.Map listEntryTemplate = some listEntryMap ∧
        refsOf (.list [.map [("Ref", .str "Missing")]]) = ["Missing"] ∧
        resolve (entitiesOf listEntryMap) (beforeDot "Missing") = none ∧
        ∀ refs, Template.Graph refs listEntryTemplate = .notAMap "Resources" "A") := by
  refine ⟨⟨rfl, rfl, ?_, fun _ => rfl, rfl⟩, rfl, rfl, rfl, rfl, fun _ => rfl⟩
  refine ⟨[("Ref", .str "Missing")], "Missing", ?_, ?_, rfl, rfl⟩
  · exact ⟨[("A", .str "x"), ("B", .map [("Ref", .str "Missing")])], by simp [mixedMap],
      Or.inl rfl, by simp⟩
  · simp [getRefs, refsOf, refForm]

/-- Witness of `graph_elements_and_edges`: `{Resources: {A: {}, B: {Ref: "A"}}}` has
the elements `A` and `B` and the edge from `B` to `A`. -/
theorem graph_elements_and_edges_witness :
    Template.Graph getRefs smallTemplate
        = .ok ⟨[⟨"A", "Resources"⟩, ⟨"B", "Resources"⟩],
            [(⟨"B", "Resources"⟩, ⟨"A", "Resources"⟩)]⟩ ∧
      ((∃ m, Template.Map smallTemplate = some m ∧
        (∀ e, e ∈ [(⟨"A", "Resources"⟩ : Element), ⟨"B", "Resources"⟩] ↔
          (∃ res, Declared m e res) ∨
          ∃ d resource, Declared m d (.map resource) ∧
            IsTarget (entitiesOf m) (getRefs resource) e) ∧
        (∀ a b, (a, b) ∈ [((⟨"B", "Resources"⟩ : Element), (⟨"A", "Resources"⟩ : Element))] ↔
          ∃ resource, Declared m a (.map resource) ∧
            IsTarget (entitiesOf m) (getRefs resource) b)) ∧
      (∃ t0, NewTemplate testMap = some t0 ∧
        Template.Graph getRefs t0 = .ok
          ⟨[⟨"Bucket", "Resources"⟩, ⟨"Name", "Parameters"⟩, ⟨"BucketArn", "Outputs"⟩],
           [(⟨"Bucket", "Resources"⟩, ⟨"Name", "Parameters"⟩),
            (⟨"BucketArn", "Outputs"⟩, ⟨"Bucket", "Resources"⟩)]⟩)) :=
  ⟨rfl,
    graph_elements_and_edges getRefs smallTemplate
      ⟨[⟨"A", "Resources"⟩, ⟨"B", "Resources"⟩], [(⟨"B", "Resources"⟩, ⟨"A", "Resources"⟩)]⟩ rfl⟩

/-- Witness of `graph_unresolved_dependency`: in `{Resources: {B: {Ref: "Missing.Arn"}}}`
the name `Missing` does not resolve. -/
theorem graph_unresolved_dependency_witness :
    Template.Map danglingTemplate = some danglingMap ∧
      EntriesAreMaps danglingMap ∧
      Unresolved getRefs danglingMap ⟨"B", "Resources"⟩ "Missing" ∧
      ∃ toName' typeName fromName,
        Template.Graph getRefs danglingTemplate = .unresolved toName' typeName fromName ∧
        Unresolved getRefs danglingMap ⟨fromName, typeName⟩ toName' :=
  have hmaps : EntriesAreMaps danglingMap := by
    rintro e res ⟨tree, h1, _, h3⟩
    simp [danglingMap] at h1
    obtain ⟨_, h2⟩ := h1
    subst h2
    simp at h3
    exact ⟨_, h3.2⟩
  have hun : Unresolved getRefs danglingMap ⟨"B", "Resources"⟩ "Missing" :=
    ⟨[("Ref", .str "Missing.Arn")], "Missing.Arn",
      ⟨[("B", .map [("Ref", .str "Missing.Arn")])], by simp [danglingMap], Or.inl rfl, by simp⟩,
      by simp [getRefs, refsOf, refForm], by decide, rfl⟩
  ⟨rfl, hmaps, hun,
    graph_unresolved_dependency getRefs danglingTemplate danglingMap ⟨"B", "Resources"⟩ "Missing"
      rfl hmaps hun⟩

/-- Whole entries of a list pass to each of its members. -/
theorem pairedList_get :
    ∀ (cs : List Node) (j : Nat) (x : Node),
      pairedList cs = true → cs[j]? = some x → x.paired = true := by
  intro cs
  induction cs with
  | nil => intro j x _ h; simp at h
  | cons a l ih =>
    intro j x h hx
    simp [pairedList] at h
    cases j with
    | zero => simp at hx; subst hx; exact h.1
    | succ j => simp at hx; exact ih j x h.2 hx

/-- After whole entries without the key, the key loop finds an appended key. -/
theorem findKey_append_pair (s : String) (k v : Node) (hk : k.value = s) :
    ∀ (cs : List Node), cs.length % 2 = 0 → findKey s cs = none →
      findKey s (cs ++ [k, v]) = some cs.length := by
  intro cs
  induction cs using pairs_induction with
  | h0 => intro _ _; simp [findKey, hk]
  | h1 a => intro h; simp at h
  | h2 a b l ih =>
    intro hlen hf
    simp at hlen
    by_cases ha : a.value = s
    · simp [findKey, ha] at hf
    · simp [findKey, ha] at hf
      simp [findKey, ha, ih (by omega) hf]

/-- On a tree whose Mappings and Documents hold whole entries, `getNode` after a
successful `setNode` on the same path returns the encoding of the value. -/
theorem getNode_of_setOk (v : Value) :
    ∀ (node : Node) (p : List Seg) (node' : Node),
      SetOk v node p node' → node.paired = true →
      ∃ nv, encode v = .ok nv ∧ getNode node' p = .ok nv := by
  intro node p node' h
  induction h with
  | encoded node nv henc => intro _; exact ⟨nv, henc, rfl⟩
  | keyFound node child child' s i rest hk hf hc _ ih =>
    intro hp
    obtain ⟨k, tg, val, cs⟩ := node
    simp only [Node.content, Node.kind] at hf hc hk
    simp only [Node.paired, Bool.and_eq_true] at hp
    obtain ⟨nv, h1, h2⟩ := ih (pairedList_get cs (i + 1) child hp.2 hc)
    refine ⟨nv, h1, ?_⟩
    have hi : i % 2 = 0 := ((findKey_some_iff s cs i).mp hf).1
    have hlt : i + 1 < cs.length := by
      by_contra hge
      have : cs[i + 1]? = none := List.getElem?_eq_none (by omega)
      rw [this] at hc
      cases hc
    have hf' : findKey s (cs.set (i + 1) child') = some i := by
      rw [findKey_set_odd s child' cs (i + 1) (by omega)]
      exact hf
    have hc' : (cs.set (i + 1) child')[i + 1]? = some child' := by
      simp [List.getElem?_set, hlt]
    simp [getNode, Node.withContent, Node.content, Node.kind, hk, hf', hc', h2]
  | keyNew node valueNode s rest hk hf _ ih =>
    intro hp
    obtain ⟨k, tg, val, cs⟩ := node
    simp only [Node.content, Node.kind] at hf hk
    simp only [Node.paired, Bool.and_eq_true, Bool.or_eq_true, bne_iff_ne, ne_eq,
      beq_iff_eq] at hp
    obtain ⟨nv, h1, h2⟩ := ih (by rfl)
    refine ⟨nv, h1, ?_⟩
    have hlen : cs.length % 2 = 0 := by
      rcases hp.1 with h3 | h3
      · rcases hk with h4 | h4
        · exact absurd h4 h3.2
        · exact absurd h4 h3.1
      · exact h3
    have hf' := findKey_append_pair s (setString s) valueNode rfl cs hlen hf
    have hc' : (cs ++ [setString s, valueNode])[cs.length + 1]? = some valueNode := by
      rw [List.getElem?_append_right (by omega)]
      simp
    simp [getNode, Node.withContent, Node.content, Node.kind, hk, hf', hc', h2]
  | indexFound node child child' i rest hk h0 h1 hc _ ih =>
    intro hp
    obtain ⟨k, tg, val, cs⟩ := node
    simp only [Node.content, Node.kind] at hc hk h1
    simp only [Node.paired, Bool.and_eq_true] at hp
    obtain ⟨nv, h2, h3⟩ := ih (pairedList_get cs i.toNat child hp.2 hc)
    refine ⟨nv, h2, ?_⟩
    have h0' : ¬ i < 0 := by omega
    have h1' : ¬ (cs.length : Int) ≤ i := by omega
    have hlt : i.toNat < cs.length := by omega
    have hc' : (cs.set i.toNat child')[i.toNat]? = some child' := by
      simp [List.getElem?_set, hlt]
    subst hk
    simp [getNode, Node.withContent, Node.content, Node.kind, SequenceNode, DocumentNode,
      MappingNode, h0', h1', hc', h3]
  | indexNew node valueNode i rest hk hi _ ih =>
    intro _
    obtain ⟨k, tg, val, cs⟩ := node
    simp only [Node.content, Node.kind] at hk hi
    obtain ⟨nv, h2, h3⟩ := ih (by rfl)
    refine ⟨nv, h2, ?_⟩
    subst hk hi
    simp [getNode, Node.withContent, Node.content, Node.kind, SequenceNode, DocumentNode,
      MappingNode, h3]
  | initMapping node node' s rest _ _ ih => intro _; exact ih (by rfl)
  | initSequence node node' i rest _ _ ih => intro _; exact ih (by rfl)

/-- On a tree whose Mappings and Documents hold whole entries, `Get` after a `Set`
that returned no error returns the encoding of the value. -/
theorem get_after_set_paired (t t' : Node) (p : List Seg) (v : Value)
    (hp : t.paired = true) (hset : Template.Set t p v = some (t', .ok)) :
    ∃ nv, encode v = .ok nv ∧ Template.Get t' p = .ok nv :=
  getNode_of_setOk v t p t' (setNode_ok v _ t p t' hset) hp

/-- Known kinds of a list pass to each of its members. -/
theorem kindedList_get :
    ∀ (cs : List Node) (j : Nat) (x : Node),
      kindedList cs = true → cs[j]? = some x → x.kinded = true := by
  intro cs
  induction cs with
  | nil => intro j x _ h; simp at h
  | cons a l ih =>
    intro j x h hx
    simp [kindedList] at h
    cases j with
    | zero => simp at hx; subst hx; exact h.1
    | succ j => simp at hx; exact ih j x h.2 hx

/-- Writing back the element a position holds changes nothing. -/
theorem set_same {α : Type} :
    ∀ (cs : List α) (j : Nat) (x : α), cs[j]? = some x → cs.set j x = cs := by
  intro cs
  induction cs with
  | nil => intro j x h; simp at h
  | cons a l ih =>
    intro j x h
    cases j with
    | zero => simp at h; subst h; rfl
    | succ j => simp at h; simp [ih j x h]

/-- Writing back the `Content` a node holds changes nothing. -/
theorem withContent_same (n : Node) : n.withContent n.content = n := by
  cases n
  rfl

/-- On a tree in which every node has a kind, a `setNode` that does not succeed
leaves the tree as it was. -/
theorem setNode_failure_keeps_kinded (v : Value) :
    ∀ (fuel : Nat) (node : Node) (p : List Seg) (node' : Node) (st : Status),
      node.kinded = true → setNode fuel node p v = some (node', st) → st ≠ .ok →
      node' = node := by
  intro fuel
  induction fuel with
  | zero => intro node p node' st _ h; simp [setNode] at h
  | succ fuel ih =>
    intro node p node' st hkd h hst
    have hcs : kindedList node.content = true := by
      cases node
      simp only [Node.kinded, Bool.and_eq_true] at hkd
      exact hkd.2
    cases p with
    | nil =>
      simp only [setNode] at h
      cases hv : encode v with
      | error e =>
        simp [hv] at h
        exact h.1.symm
      | ok nv =>
        simp [hv] at h
        exact absurd h.2.symm hst
    | cons seg rest =>
      unfold setNode at h
      by_cases hmap : node.kind = DocumentNode ∨ node.kind = MappingNode
      · simp only [hmap, if_true] at h
        cases seg with
        | str s =>
          simp only at h
          cases hf : findKey s node.content with
          | none =>
            simp only [hf] at h
            cases hr : setNode fuel Node.zero rest v with
            | none => simp [hr] at h
            | some r =>
              obtain ⟨vn, st'⟩ := r
              cases st' with
              | ok =>
                simp [hr] at h
                exact absurd h.2.symm hst
              | error e => simp [hr] at h; exact h.1.symm
              | panic => simp [hr] at h; exact h.1.symm
          | some i =>
            simp only [hf] at h
            cases hc : node.content[i + 1]? with
            | none => simp [hc] at h; exact h.1.symm
            | some child =>
              simp only [hc] at h
              cases hr : setNode fuel child rest v with
              | none => simp [hr] at h
              | some r =>
                obtain ⟨child', st'⟩ := r
                simp [hr] at h
                obtain ⟨h1, h2⟩ := h
                subst h2
                have := ih child rest child' st' (kindedList_get _ _ _ hcs hc) hr hst
                subst this
                rw [← h1, set_same _ _ _ hc, withContent_same]
        | int i => simp at h; exact h.1.symm
        | other ty => simp at h; exact h.1.symm
      · simp only [hmap, if_false] at h
        by_cases hseq : node.kind = SequenceNode
        · simp only [hseq, if_true] at h
          cases seg with
          | int i =>
            simp only at h
            by_cases hi : i < 0 ∨ i > node.content.length
            · simp [hi] at h; exact h.1.symm
            · simp only [hi, if_false] at h
              by_cases hlt : i < node.content.length
              · simp only [hlt, if_true] at h
                cases hc : node.content[i.toNat]? with
                | none => simp [hc] at h; exact h.1.symm
                | some child =>
                  simp only [hc] at h
                  cases hr : setNode fuel child rest v with
                  | none => simp [hr] at h
                  | some r =>
                    obtain ⟨child', st'⟩ := r
                    simp [hr] at h
                    obtain ⟨h1, h2⟩ := h
                    subst h2
                    have := ih child rest child' st' (kindedList_get _ _ _ hcs hc) hr hst
                    subst this
                    rw [← h1, set_same _ _ _ hc, withContent_same]
              · simp only [hlt, if_false] at h
                cases hr : setNode fuel Node.zero rest v with
                | none => simp [hr] at h
                | some r =>
                  obtain ⟨vn, st'⟩ := r
                  cases st' with
                  | ok =>
                    simp [hr] at h
                    exact absurd h.2.symm hst
                  | error e => simp [hr] at h; exact h.1.symm
                  | panic => simp [hr] at h; exact h.1.symm
          | str s => simp at h; exact h.1.symm
          | other ty => simp at h; exact h.1.symm
        · simp only [hseq, if_false] at h
          by_cases hsc : node.kind = ScalarNode
          · simp [hsc] at h; exact h.1.symm
          · simp only [hsc, if_false] at h
            by_cases hal : node.kind = AliasNode
            · simp [hal] at h; exact h.1.symm
            · exfalso
              cases node
              simp only [Node.kinded, Bool.and_eq_true, Bool.or_eq_true, beq_iff_eq] at hkd
              simp only [Node.kind] at hmap hseq hsc hal
              rcases hkd.1 with (((h1 | h1) | h1) | h1) | h1
              · exact hmap (Or.inl h1)
              · exact hmap (Or.inr h1)
              · exact hseq h1
              · exact hsc h1
              · exact hal h1

namespace value

/-- The comparison of `sort.Strings` is total. -/
theorem leChars_total : ∀ (a b : List Char), leChars a b = true ∨ leChars b a = true := by
  intro a
  induction a with
  | nil => intro b; left; simp [leChars]
  | cons x xs ih =>
    intro b
    cases b with
    | nil => right; simp [leChars]
    | cons y ys =>
      simp only [leChars]
      by_cases h1 : x < y
      · left; simp [h1]
      · by_cases h2 : y < x
        · right; simp [h2]
        · simp only [h1, h2, if_false]
          exact ih ys

/-- The comparison of `sort.Strings` is transitive. -/
theorem leChars_trans :
    ∀ (a b d : List Char), leChars a b = true → leChars b d = true → leChars a d = true := by
  intro a
  induction a with
  | nil => intro b d _ _; simp [leChars]
  | cons x xs ih =>
    intro b d h1 h2
    cases b with
    | nil => simp [leChars] at h1
    | cons y ys =>
      cases d with
      | nil => simp [leChars] at h2
      | cons z zs =>
        simp only [leChars] at h1 h2 ⊢
        by_cases hxy : x < y
        · by_cases hyz : y < z
          · simp [lt_trans hxy hyz]
          · by_cases hzy : z < y
            · simp [hyz, hzy] at h2
            · have : y = z := le_antisymm (not_lt.mp hzy) (not_lt.mp hyz)
              subst this
              simp [hxy]
        · by_cases hyx : y < x
          · simp [hxy, hyx] at h1
          · have hxy' : x = y := le_antisymm (not_lt.mp hyx) (not_lt.mp hxy)
            subst hxy'
            simp only [hxy, if_false] at h1
            by_cases hxz : x < z
            · simp [hxz]
            · by_cases hzx : z < x
              · simp [hxz, hzx] at h2
              · simp only [hxz, hzx, if_false] at h2 ⊢
                exact ih ys zs h1 h2

/-- The comparison of `sort.Strings` is antisymmetric. -/
theorem leChars_antisymm :
    ∀ (a b : List Char), leChars a b = true → leChars b a = true → a = b := by
  intro a
  induction a with
  | nil =>
    intro b _ h2
    cases b with
    | nil => rfl
    | cons y ys => simp [leChars] at h2
  | cons x xs ih =>
    intro b h1 h2
    cases b with
    | nil => simp [leChars] at h1
    | cons y ys =>
      simp only [leChars] at h1 h2
      by_cases hxy : x < y
      · have hyx : ¬ y < x := not_lt.mpr (le_of_lt hxy)
        simp [hxy, hyx] at h2
      · by_cases hyx : y < x
        · simp [hxy, hyx] at h1
        · have : x = y := le_antisymm (not_lt.mp hyx) (not_lt.mp hxy)
          subst this
          simp only [hxy, if_false] at h1 h2
          rw [ih ys h1 h2]

/-- The result of `sort.Strings` is in ascending order. -/
theorem sortStrings_sorted (l : List String) : (sortStrings l).Sorted strLe :=
  haveI : IsTotal String strLe := ⟨fun a b => leChars_total a.data b.data⟩
  haveI : IsTrans String strLe := ⟨fun a b d => leChars_trans a.data b.data d.data⟩
  List.sorted_insertionSort strLe l

/-- Sorting does not depend on the order in which the keys come. -/
theorem sortStrings_perm (l₁ l₂ : List String) (h : l₁.Perm l₂) :
    sortStrings l₁ = sortStrings l₂ :=
  haveI : IsAntisymm String strLe :=
    ⟨fun a b h1 h2 => String.ext (leChars_antisymm a.data b.data h1 h2)⟩
  List.eq_of_perm_of_sorted
    (((List.perm_insertionSort strLe l₁).trans h).trans (List.perm_insertionSort strLe l₂).symm)
    (sortStrings_sorted l₁) (sortStrings_sorted l₂)

/-- The nodes stored for a key are the nodes of the child stored under it. -/
theorem lookup_nodesOfEntries (order : List String → List String) (key : String) :
    ∀ (es : List (String × Interface)),
      (nodesOfEntries order es).lookup key = (es.lookup key).map (Interface.Nodes order) := by
  intro es
  induction es with
  | nil => simp [nodesOfEntries]
  | cons e rest ih =>
    obtain ⟨k, x⟩ := e
    simp only [nodesOfEntries, List.lookup]
    cases hk : key == k
    · simpa using ih
    · simp

/-- The method `Get` at a Map is `Map.Get`. -/
theorem interface_get_map (values : List (String × Interface)) (comment : String)
    (path : List Seg) :
    Interface.Get (.map values comment) path = Map.Get ⟨values, comment⟩ path := by
  cases path with
  | nil => rfl
  | cons index rest =>
    cases index <;> simp [Interface.Get, Map.Get]

/-- The method `Nodes` at a Map is `Map.Nodes`. -/
theorem interface_nodes_map (order : List String → List String)
    (values : List (String × Interface)) (comment : String) :
    Interface.Nodes order (.map values comment) = Map.Nodes order ⟨values, comment⟩ := by
  simp only [Interface.Nodes, Map.Nodes, Map.Keys, Map.toInterface]
  congr 1
  congr 1
  funext key
  rw [lookup_nodesOfEntries]
  cases h : values.lookup key with
  | none => simp [Map.Get, h]
  | some x => simp [Map.Get, h, Interface.Get]

/-- The method `Value` at a Map is `Map.Value`. -/
theorem interface_value_map (values : List (String × Interface)) (comment : String) :
    Interface.Value (.map values comment) = Map.Value ⟨values, comment⟩ := by
  simp [Interface.Value, Map.Value]

end value

namespace value

mutual
/-- The flattening of a tree does not depend on the order in which `range` visits
the keys. -/
theorem nodes_order_free (o₁ o₂ : List String → List String)
    (h₁ : ∀ ks, (o₁ ks).Perm ks) (h₂ : ∀ ks, (o₂ ks).Perm ks) :
    ∀ (t : Interface), Interface.Nodes o₁ t = Interface.Nodes o₂ t
  | .scalar v c => by simp [Interface.Nodes]
  | .list items c => by
    simp only [Interface.Nodes]
    rw [nodesOfItems_order_free o₁ o₂ h₁ h₂ items 0]
  | .map values c => by
    simp only [Interface.Nodes]
    rw [nodesOfEntries_order_free o₁ o₂ h₁ h₂ values,
      sortStrings_perm _ _ ((h₁ _).trans (h₂ _).symm)]
/-- The same for the items of a list. -/
theorem nodesOfItems_order_free (o₁ o₂ : List String → List String)
    (h₁ : ∀ ks, (o₁ ks).Perm ks) (h₂ : ∀ ks, (o₂ ks).Perm ks) :
    ∀ (items : List Interface) (i : Nat), nodesOfItems o₁ i items = nodesOfItems o₂ i items
  | [], i => by simp [nodesOfItems]
  | x :: xs, i => by
    simp only [nodesOfItems]
    rw [nodes_order_free o₁ o₂ h₁ h₂ x, nodesOfItems_order_free o₁ o₂ h₁ h₂ xs (i + 1)]
/-- The same for the entries of a Map. -/
theorem nodesOfEntries_order_free (o₁ o₂ : List String → List String)
    (h₁ : ∀ ks, (o₁ ks).Perm ks) (h₂ : ∀ ks, (o₂ ks).Perm ks) :
    ∀ (es : List (String × Interface)), nodesOfEntries o₁ es = nodesOfEntries o₂ es
  | [] => by simp [nodesOfEntries]
  | (k, x) :: xs => by
    simp only [nodesOfEntries]
    rw [nodes_order_free o₁ o₂ h₁ h₂ x, nodesOfEntries_order_free o₁ o₂ h₁ h₂ xs]
end

end value

namespace value

/-- Claim C15: `Nodes` of a Map is the Map itself with the empty path, followed, for
the keys of the Map in ascending order, by the nodes of the child under each key
with the key put in front of every path; and it is the same list for every order
in which `range` visits the keys. -/
theorem map_nodes_sorted_preorder (order : List String → List String) (m : Map)
    (horder : ∀ ks, (order ks).Perm ks) :
    ∃ keys : List String, keys.Perm (m.values.map Prod.fst) ∧ keys.Sorted strLe ∧
      Map.Nodes order m = ⟨[], m.toInterface⟩ ::
        keys.flatMap (fun key =>
          match m.values.lookup key with
          | some child => (child.Nodes order).map (underKey (.str key))
          | none => []) ∧
      ∀ order', (∀ ks, (order' ks).Perm ks) → Map.Nodes order' m = Map.Nodes order m := by
  refine ⟨sortStrings (Map.Keys order m), ?_, sortStrings_sorted _, ?_, ?_⟩
  · exact (List.perm_insertionSort strLe _).trans (horder _)
  · simp only [Map.Nodes]
    congr 1
    congr 1
    funext key
    cases h : m.values.lookup key with
    | none => simp [Map.Get, h]
    | some x => simp [Map.Get, h, Interface.Get]
  · intro order' horder'
    have := nodes_order_free order' order horder' horder (.map m.values m.comment)
    rw [interface_nodes_map, interface_nodes_map] at this
    exact this

/-- Witness of `map_nodes_sorted_preorder`: the sample Map, with its keys visited in
the stored order. -/
theorem map_nodes_sorted_preorder_witness :
    (∀ ks : List String, (id ks).Perm ks) ∧
      ∃ keys : List String, keys.Perm (sampleMap.values.map Prod.fst) ∧ keys.Sorted strLe ∧
        Map.Nodes id sampleMap = ⟨[], sampleMap.toInterface⟩ ::
          keys.flatMap (fun key =>
            match sampleMap.values.lookup key with
            | some child => (child.Nodes id).map (underKey (.str key))
            | none => []) ∧
        ∀ order', (∀ ks, (order' ks).Perm ks) →
          Map.Nodes order' sampleMap = Map.Nodes id sampleMap :=
  ⟨fun ks => List.Perm.refl ks,
    map_nodes_sorted_preorder id sampleMap (fun ks => List.Perm.refl ks)⟩

/-- Claim C16: after `SetComment(c)` the comment is `c`; `SetComment` changes neither
the entries nor `Value()` nor `Keys()`; two Maps with the same entries have the same
`Value()` whatever their comments; and `Set` leaves the comment as it was. -/
theorem map_comment_is_metadata (order : List String → List String) (m : Map) (c : String)
    (key : String) (value : Cfn.Value) :
    (m.SetComment c).Comment = c ∧
      (m.SetComment c).values = m.values ∧
      (m.SetComment c).Value = m.Value ∧
      Map.Keys order (m.SetComment c) = Map.Keys order m ∧
      (∀ path, path ≠ [] → (m.SetComment c).Get path = m.Get path) ∧
      (∀ c₁ c₂, (Map.mk m.values c₁).Value = (Map.mk m.values c₂).Value) ∧
      (m.Set key value).Comment = m.Comment := by
  refine ⟨rfl, rfl, rfl, rfl, ?_, fun _ _ => rfl, rfl⟩
  intro path hpath
  cases path with
  | nil => exact absurd rfl hpath
  | cons index rest => rfl

/-- Claim C17, amended: `Map.Get` with the empty path returns the Map itself; with a
first segment that is a string key absent from the Map it returns `nil`; with a first
segment that is not a string it panics; otherwise it returns what `Get` of the child
stored under the key returns for the rest of the path. -/
theorem map_get_cases (m : Map) (rest : List Seg) :
    m.Get [] = .value m.toInterface ∧
      (∀ s, m.values.lookup s = none → m.Get (.str s :: rest) = .nil) ∧
      (∀ index, (∀ s, index ≠ .str s) → m.Get (index :: rest) = .panic index) ∧
      (∀ s child, m.values.lookup s = some child → m.Get (.str s :: rest) = child.Get rest) := by
  refine ⟨rfl, ?_, ?_, ?_⟩
  · intro s h
    simp [Map.Get, h]
  · intro index h
    cases index with
    | str s => exact absurd rfl (h s)
    | int i => rfl
    | other ty => rfl
  · intro s child h
    simp [Map.Get, h]

/-- Claim C17 fails at an absent key: `Get("missing")` on the sample Map returns `nil`,
not an unknown-key error, and `Get(0)` panics instead of returning a path-type
error. -/
theorem map_get_absent_key_is_nil :
    sampleMap.values.lookup "missing" = none ∧
      sampleMap.Get [.str "missing"] = .nil ∧
      sampleMap.Get [.int 0] = .panic (.int 0) :=
  ⟨rfl, rfl, rfl⟩

end value

namespace value

/-- A node among the nodes of the items of a list comes from one item, under the
index of that item. -/
theorem mem_nodesOfItems (order : List String → List String) :
    ∀ (items : List Interface) (i : Nat) (n : Node), n ∈ nodesOfItems order i items →
      ∃ j x n', items[j]? = some x ∧ n' ∈ Interface.Nodes order x ∧
        n = underKey (.int ((i + j : Nat) : Int)) n' := by
  intro items
  induction items with
  | nil => intro i n h; simp [nodesOfItems] at h
  | cons x xs ih =>
    intro i n h
    simp only [nodesOfItems, List.mem_append, List.mem_map] at h
    rcases h with ⟨n', h1, h2⟩ | h
    · exact ⟨0, x, n', by simp, h1, by simp [h2]⟩
    · obtain ⟨j, y, n', h1, h2, h3⟩ := ih (i + 1) n h
      refine ⟨j + 1, y, n', by simpa using h1, h2, ?_⟩
      rw [h3]
      congr 2
      omega

/-- A binding found by `lookup` is an entry of the list. -/
theorem mem_of_lookup (key : String) :
    ∀ (es : List (String × Interface)) (x : Interface),
      es.lookup key = some x → (key, x) ∈ es := by
  intro es
  induction es with
  | nil => intro x h; simp at h
  | cons e rest ih =>
    intro x h
    obtain ⟨k, y⟩ := e
    simp only [List.lookup] at h
    cases hk : key == k
    · rw [hk] at h
      exact List.mem_cons_of_mem _ (ih x h)
    · rw [hk] at h
      have hkey : key = k := by simpa using hk
      simp only [Option.some.injEq] at h
      subst hkey h
      exact List.mem_cons_self _ _

mutual
/-- The path of every node of the flattening leads to its content. -/
theorem get_of_mem_nodes (order : List String → List String) :
    ∀ (t : Interface) (n : Node), n ∈ Interface.Nodes order t →
      Interface.Get t n.Path = .value n.Content
  | .scalar v c, n, h => by
    simp only [Interface.Nodes, List.mem_singleton] at h
    subst h
    rfl
  | .list items c, n, h => by
    simp only [Interface.Nodes, List.mem_cons] at h
    rcases h with h | h
    · subst h
      rfl
    · obtain ⟨j, x, n', h1, h2, h3⟩ := mem_nodesOfItems order items 0 n h
      rw [Nat.zero_add] at h3
      subst h3
      have hlt : j < items.length := by
        by_contra hge
        have : items[j]? = none := List.getElem?_eq_none (by omega)
        rw [this] at h1
        cases h1
      have h0 : ¬ (j : Int) < 0 := by omega
      have h4 : ¬ (items.length : Int) ≤ (j : Int) := by omega
      have h5 : (j : Int).toNat = j := by omega
      have := get_of_mem_items order items x (List.getElem?_mem h1) n' h2
      simp only [underKey, Interface.Get, h0, h4, h5, h1, this, or_self, ge_iff_le, if_false]
  | .map values c, n, h => by
    simp only [Interface.Nodes, List.mem_cons, List.mem_flatMap] at h
    rcases h with h | ⟨key, _, h⟩
    · subst h
      rfl
    · rw [lookup_nodesOfEntries] at h
      cases hl : values.lookup key with
      | none => simp [hl] at h
      | some x =>
        simp only [hl, Option.map_some', List.mem_map] at h
        obtain ⟨n', h1, h2⟩ := h
        subst h2
        have := get_of_mem_entries order values (key, x) (mem_of_lookup key values x hl) n' h1
        simp [underKey, Interface.Get, hl, this]
/-- The same for each item of a list. -/
theorem get_of_mem_items (order : List String → List String) :
    ∀ (items : List Interface) (x : Interface), x ∈ items →
      ∀ (n : Node), n ∈ Interface.Nodes order x → Interface.Get x n.Path = .value n.Content
  | [], x, h => by simp at h
  | y :: ys, x, h => by
    intro n hn
    rcases List.mem_cons.mp h with h1 | h1
    · subst h1
      exact get_of_mem_nodes order x n hn
    · exact get_of_mem_items order ys x h1 n hn
/-- The same for the child of each entry of a Map. -/
theorem get_of_mem_entries (order : List String → List String) :
    ∀ (es : List (String × Interface)) (e : String × Interface), e ∈ es →
      ∀ (n : Node), n ∈ Interface.Nodes order e.2 → Interface.Get e.2 n.Path = .value n.Content
  | [], e, h => by simp at h
  | (k, y) :: ys, e, h => by
    intro n hn
    rcases List.mem_cons.mp h with h1 | h1
    · subst h1
      exact get_of_mem_nodes order y n hn
    · exact get_of_mem_entries order ys e h1 n hn
end

/-- Claim C18: for every entry of `m.Nodes()`, `m.Get` of its path returns its
content. -/
theorem map_get_of_nodes_path (order : List String → List String) (m : Map) (n : Node)
    (h : n ∈ Map.Nodes order m) : m.Get n.Path = .value n.Content := by
  rw [← interface_nodes_map order m.values m.comment] at h
  have := get_of_mem_nodes order (.map m.values m.comment) n h
  rw [interface_get_map] at this
  exact this

/-- Witness of `map_get_of_nodes_path`: in the sample Map the path `["a", "z", 1]`
is listed with the scalar `2` and leads to it. -/
theorem map_get_of_nodes_path_witness :
    (⟨[.str "a", .str "z", .int 1], .scalar (.int 2) ""⟩ : Node) ∈ Map.Nodes id sampleMap ∧
      sampleMap.Get [.str "a", .str "z", .int 1] = .value (.scalar (.int 2) "") :=
  have hmem : (⟨[.str "a", .str "z", .int 1], .scalar (.int 2) ""⟩ : Node) ∈
      Map.Nodes id sampleMap := by
    have : Map.Nodes id sampleMap =
        (Map.Nodes id sampleMap).take 5 ++
          (⟨[.str "a", .str "z", .int 1], .scalar (.int 2) ""⟩ : Node) ::
            (Map.Nodes id sampleMap).drop 6 := by rfl
    rw [this]
    exact List.mem_append_right _ (List.mem_cons_self _ _)
  ⟨hmem, map_get_of_nodes_path id sampleMap _ hmem⟩

/-- Witness of `map_get_cases` on the sample Map. -/
theorem map_get_cases_witness :
    sampleMap.values.lookup "a"
        = some (.map [("z", .list [.scalar (.int 1) "", .scalar (.int 2) ""] ""),
            ("y", .scalar .null "")] "inner") ∧
      sampleMap.Get [.str "a", .str "y"] = .value (.scalar .null "") :=
  ⟨rfl,
    ((map_get_cases sampleMap [.str "y"]).2.2.2 "a" _ rfl).trans rfl⟩

end value

/-- On a template whose entries under `Resources` and `Outputs` are all maps and in
which every reference resolves, `Graph` returns a graph. -/
theorem graph_completes_on_maps (refs : List (String × Value) → List String) (t : Node)
    (m : List (String × Value)) (hmap : Template.Map t = some m) (hmaps : EntriesAreMaps m)
    (hres : ∀ d toName, ¬ Unresolved refs m d toName) :
    ∃ g, Template.Graph refs t = .ok g := by
  unfold Template.Graph graphOf
  rw [hmap]
  rcases addSections_cases refs (entitiesOf m) m Graph.New hmaps with
    ⟨h1, _⟩ | ⟨d, rs, raw, h1, h2, h3, _⟩
  · exact h1
  · exact absurd ⟨rs, raw, h1, h2, rfl, h3⟩ (hres d (beforeDot raw))

/-- Claim C11, at an entry that is not a map: in `{Resources: {A: "x"}}` no entry holds
a reference, so every reference resolves, and `Graph` panics on the type assertion
`res.(map[string]interface{})` at `A` instead of returning a graph. -/
theorem graph_panics_on_non_map_entry :
    Template.Map nonMapTemplate = some [("Resources", .map [("A", .str "x")])] ∧
      (∀ d toName, ¬ Unresolved getRefs [("Resources", .map [("A", .str "x")])] d toName) ∧
      Template.Graph getRefs nonMapTemplate = .notAMap "Resources" "A" := by
  refine ⟨rfl, ?_, rfl⟩
  rintro d toName ⟨resource, raw, ⟨tree, h1, _, h3⟩, _⟩
  simp at h1
  obtain ⟨_, h2⟩ := h1
  subst h2
  simp at h3

/-- Claim C14, at a pseudo-parameter: in `{Resources: {B: {Ref: "AWS::Region"}}}` the
name `AWS::Region` is not declared, and `Graph` binds it to the section `Parameters`,
the section of the declared parameters, which is not the constant
`pseudoParameterType`. -/
theorem graph_pseudo_parameter_section :
    Template.Graph getRefs pseudoTemplate
        = .ok ⟨[⟨"B", "Resources"⟩, ⟨"AWS::Region", "Parameters"⟩],
            [(⟨"B", "Resources"⟩, ⟨"AWS::Region", "Parameters"⟩)]⟩ ∧
      pseudoParameterType = "Parameter" ∧
      (⟨"AWS::Region", "Parameters"⟩ : Element) ≠ ⟨"AWS::Region", pseudoParameterType⟩ := by
  refine ⟨rfl, rfl, by decide⟩

/-- The first loop of `Graph` is the fold of `indexStep`. -/
theorem entitiesOf_eq_foldl (m : List (String × Value)) :
    entitiesOf m = m.foldl indexStep [] := rfl

/-- After the entries of a section are written, a name of the section is bound to it
and every other name keeps its binding. -/
theorem lookup_foldl_entries (name ty : String) :
    ∀ (tree : List (String × Value)) (acc : List (String × String)),
      (tree.foldl (fun acc entry => (entry.1, ty) :: acc) acc).lookup name
        = if name ∈ tree.map Prod.fst then some ty else acc.lookup name := by
  intro tree
  induction tree with
  | nil => intro acc; simp
  | cons e rest ih =>
    intro acc
    simp only [List.foldl_cons, List.map_cons, List.mem_cons]
    rw [ih]
    by_cases h1 : name ∈ rest.map Prod.fst
    · simp [h1]
    · by_cases h2 : name = e.1
      · simp [h1, h2, List.lookup]
      · have h3 : (name == e.1) = false := by simpa using h2
        simp [h1, h2, List.lookup, h3]

/-- A section that declares a name binds it. -/
theorem lookup_indexStep_declares (name : String) (sec : String × Value)
    (acc : List (String × String)) (h : DeclaresName name sec) :
    (indexStep acc sec).lookup name = some sec.1 := by
  obtain ⟨h1, tree, h2, h3⟩ := h
  have hcond : ¬ (sec.1 ≠ "Parameters" ∧ sec.1 ≠ "Resources") := by
    rintro ⟨h4, h5⟩
    rcases h1 with h1 | h1
    · exact h4 h1
    · exact h5 h1
  unfold indexStep
  rw [if_neg hcond, h2]
  simp only
  rw [lookup_foldl_entries, if_pos h3]

/-- A section that does not declare a name leaves its binding alone. -/
theorem lookup_indexStep_other (name : String) (sec : String × Value)
    (acc : List (String × String)) (h : ¬ DeclaresName name sec) :
    (indexStep acc sec).lookup name = acc.lookup name := by
  unfold indexStep
  by_cases hcond : sec.1 ≠ "Parameters" ∧ sec.1 ≠ "Resources"
  · rw [if_pos hcond]
  · rw [if_neg hcond]
    have h1 : sec.1 = "Parameters" ∨ sec.1 = "Resources" := by
      by_contra hc
      push_neg at hc
      exact hcond hc
    cases h2 : sec.2 with
    | map tree =>
      simp only
      rw [lookup_foldl_entries]
      have h3 : name ∉ tree.map Prod.fst := fun h3 => h ⟨h1, tree, h2, h3⟩
      rw [if_neg h3]
    | null => rfl
    | bool b => rfl
    | int i => rfl
    | str s => rfl
    | list xs => rfl
    | generalMap es => rfl
    | unsupported ty => rfl

/-- Sections that do not declare a name leave its binding alone. -/
theorem lookup_foldl_indexStep_none (name : String) :
    ∀ (m : List (String × Value)) (acc : List (String × String)),
      (∀ sec, sec ∈ m → ¬ DeclaresName name sec) →
      (m.foldl indexStep acc).lookup name = acc.lookup name := by
  intro m
  induction m with
  | nil => intro acc _; rfl
  | cons sec rest ih =>
    intro acc h
    simp only [List.foldl_cons]
    rw [ih _ (fun s hs => h s (List.mem_cons_of_mem _ hs)),
      lookup_indexStep_other name sec acc (h sec (List.mem_cons_self _ _))]

/-- The index binds a name to the last section, in the order of iteration, that
declares it. -/
theorem lookup_entitiesOf_last (name : String) (pre post : List (String × Value))
    (sec : String × Value) (hdec : DeclaresName name sec)
    (hpost : ∀ s, s ∈ post → ¬ DeclaresName name s) :
    (entitiesOf (pre ++ sec :: post)).lookup name = some sec.1 := by
  rw [entitiesOf_eq_foldl, List.foldl_append, List.foldl_cons,
    lookup_foldl_indexStep_none name post _ hpost, lookup_indexStep_declares name sec _ hdec]

/-- A list with a section that declares a name splits at the last such section. -/
theorem split_at_last_declaring (name : String) :
    ∀ (m : List (String × Value)), (∃ sec, sec ∈ m ∧ DeclaresName name sec) →
      ∃ pre sec post, m = pre ++ sec :: post ∧ DeclaresName name sec ∧
        ∀ s, s ∈ post → ¬ DeclaresName name s := by
  intro m
  induction m with
  | nil => rintro ⟨sec, h, _⟩; simp at h
  | cons x rest ih =>
    intro h
    by_cases hrest : ∃ sec, sec ∈ rest ∧ DeclaresName name sec
    · obtain ⟨pre, sec, post, h1, h2, h3⟩ := ih hrest
      exact ⟨x :: pre, sec, post, by rw [h1]; rfl, h2, h3⟩
    · obtain ⟨sec, h1, h2⟩ := h
      rcases List.mem_cons.mp h1 with h3 | h3
      · subst h3
        exact ⟨[], sec, rest, rfl, h2, fun s hs hd => hrest ⟨s, hs, hd⟩⟩
      · exact absurd ⟨sec, h3, h2⟩ hrest

/-- A binding of the index comes from a section that declares the name. -/
theorem declares_of_lookup_entitiesOf (name ty : String) (m : List (String × Value))
    (h : (entitiesOf m).lookup name = some ty) :
    ∃ sec, sec ∈ m ∧ DeclaresName name sec ∧ sec.1 = ty := by
  by_cases hex : ∃ sec, sec ∈ m ∧ DeclaresName name sec
  · obtain ⟨pre, sec, post, h1, h2, h3⟩ := split_at_last_declaring name m hex
    have := lookup_entitiesOf_last name pre post sec h2 h3
    rw [← h1, h] at this
    simp only [Option.some.injEq] at this
    exact ⟨sec, by rw [h1]; simp, h2, this.symm⟩
  · have hnone := lookup_foldl_indexStep_none name m [] (fun s hs hd => hex ⟨s, hs, hd⟩)
    rw [← entitiesOf_eq_foldl, h] at hnone
    simp at hnone

/-- Claim C12, amended: the index binds a name to the section that is iterated last
among the sections `Parameters` and `Resources` that declare it; for a name that is
not declared under both, the binding is the same for every order of iteration. -/
theorem index_binds_last_declaring (name : String) (pre post : List (String × Value))
    (sec : String × Value) (hdec : DeclaresName name sec)
    (hpost : ∀ s, s ∈ post → ¬ DeclaresName name s) :
    (entitiesOf (pre ++ sec :: post)).lookup name = some sec.1 ∧
      ∀ (m₁ m₂ : List (String × Value)) (n : String), m₁.Perm m₂ →
        (∀ s₁ s₂, s₁ ∈ m₁ → s₂ ∈ m₁ → DeclaresName n s₁ → DeclaresName n s₂ → s₁.1 = s₂.1) →
        (entitiesOf m₁).lookup n = (entitiesOf m₂).lookup n := by
  refine ⟨lookup_entitiesOf_last name pre post sec hdec hpost, ?_⟩
  intro m₁ m₂ n hperm hone
  cases h1 : (entitiesOf m₁).lookup n with
  | none =>
    cases h2 : (entitiesOf m₂).lookup n with
    | none => rfl
    | some t2 =>
      obtain ⟨s, hs, hd, _⟩ := declares_of_lookup_entitiesOf n t2 m₂ h2
      obtain ⟨pre', sec', post', e1, e2, e3⟩ :=
        split_at_last_declaring n m₁ ⟨s, hperm.mem_iff.mpr hs, hd⟩
      have := lookup_entitiesOf_last n pre' post' sec' e2 e3
      rw [← e1, h1] at this
      cases this
  | some t1 =>
    obtain ⟨s, hs, hd, ht⟩ := declares_of_lookup_entitiesOf n t1 m₁ h1
    obtain ⟨pre', sec', post', e1, e2, e3⟩ :=
      split_at_last_declaring n m₂ ⟨s, hperm.mem_iff.mp hs, hd⟩
    have h2 := lookup_entitiesOf_last n pre' post' sec' e2 e3
    rw [← e1] at h2
    rw [h2]
    have hmem : sec' ∈ m₁ := hperm.mem_iff.mpr (by rw [e1]; simp)
    rw [← ht, hone s sec' hs hmem hd e2]

/-- Witness of `index_binds_last_declaring`: with `Parameters` iterated before
`Resources`, the name `X` declared under both is bound to `Resources`. -/
theorem index_binds_last_declaring_witness :
    DeclaresName "X" ("Resources", .map [("X", .map [])]) ∧
      (∀ s, s ∈ [("Outputs", Value.map [("O", .map [("Ref", .str "X")])])] →
        ¬ DeclaresName "X" s) ∧
      (entitiesOf ([("Parameters", .map [("X", .map [])])] ++
          ("Resources", .map [("X", .map [])]) ::
            [("Outputs", Value.map [("O", .map [("Ref", .str "X")])])])).lookup "X"
        = some "Resources" :=
  have hdec : DeclaresName "X" ("Resources", .map [("X", .map [])]) :=
    ⟨Or.inr rfl, [("X", .map [])], rfl, by simp⟩
  have hpost : ∀ s, s ∈ [("Outputs", Value.map [("O", .map [("Ref", .str "X")])])] →
      ¬ DeclaresName "X" s := by
    intro s hs hd
    simp only [List.mem_singleton] at hs
    subst hs
    rcases hd.1 with h | h <;> simp at h
  ⟨hdec, hpost,
    (index_binds_last_declaring "X" [("Parameters", .map [("X", .map [])])]
      [("Outputs", Value.map [("O", .map [("Ref", .str "X")])])]
      ("Resources", .map [("X", .map [])]) hdec hpost).1⟩

/-- Claim C12 fails when a name is declared under both sections: the two orders of
iteration of the same map bind `X` to different sections, and `Graph` returns
different edges. -/
theorem index_depends_on_iteration_order :
    collidingParametersFirst.Perm collidingResourcesFirst ∧
      (entitiesOf collidingParametersFirst).lookup "X" = some "Resources" ∧
      (entitiesOf collidingResourcesFirst).lookup "X" = some "Parameters" ∧
      graphOf getRefs collidingParametersFirst
        = .ok ⟨[⟨"X", "Resources"⟩, ⟨"O", "Outputs"⟩],
            [(⟨"O", "Outputs"⟩, ⟨"X", "Resources"⟩)]⟩ ∧
      graphOf getRefs collidingResourcesFirst
        = .ok ⟨[⟨"X", "Resources"⟩, ⟨"O", "Outputs"⟩, ⟨"X", "Parameters"⟩],
            [(⟨"O", "Outputs"⟩, ⟨"X", "Parameters"⟩)]⟩ :=
  ⟨List.Perm.swap _ _ _, rfl, rfl, rfl, rfl⟩

/-- What `beforeDot` keeps is the part of the name before its first dot. -/
theorem beforeDot_spec (raw : String) :
    ∃ rest, raw.data = (beforeDot raw).data ++ rest ∧ '.' ∉ (beforeDot raw).data ∧
      (rest = [] ∨ ∃ rest', rest = '.' :: rest') := by
  refine ⟨raw.data.dropWhile (fun c => c != '.'), ?_, ?_, ?_⟩
  · simp [beforeDot, List.takeWhile_append_dropWhile]
  · intro h
    have := List.mem_takeWhile_imp h
    simp at this
  · cases hd : raw.data.dropWhile (fun c => c != '.') with
    | nil => exact Or.inl rfl
    | cons x xs =>
      right
      have := List.head_dropWhile_not (fun c => c != '.') raw.data (by rw [hd]; simp)
      simp only [hd, List.head_cons] at this
      have hx : x = '.' := by simpa using this
      exact ⟨xs, by rw [hx]⟩

/-- When the loop over the entries of a section ends well, every entry is a map. -/
theorem addEntries_ok_maps (refs : List (String × Value) → List String)
    (entities : List (String × String)) (typeName : String) :
    ∀ (tree : List (String × Value)) (g g' : Graph),
      addEntries refs entities typeName tree g = .ok g' →
      ∀ fromName res, (fromName, res) ∈ tree → ∃ resource, res = Value.map resource := by
  intro tree
  induction tree with
  | nil => intro g g' _ f r h; simp at h
  | cons entry rest ih =>
    intro g g' h f r hmem
    obtain ⟨fromName, res⟩ := entry
    cases res with
    | map resource =>
      simp only [addEntries] at h
      cases hr : addRefs entities typeName fromName (refs resource)
          (g.Add ⟨fromName, typeName⟩ []) with
      | ok g1 =>
        simp only [hr] at h
        rcases List.mem_cons.mp hmem with h1 | h1
        · simp only [Prod.mk.injEq] at h1
          exact ⟨resource, h1.2⟩
        · exact ih g1 g' h f r h1
      | unresolved a b c => simp [hr] at h
      | notAMap a b => simp [hr] at h
      | mapFailed => simp [hr] at h
    | null => simp [addEntries] at h
    | bool b => simp [addEntries] at h
    | int i => simp [addEntries] at h
    | str s => simp [addEntries] at h
    | list xs => simp [addEntries] at h
    | generalMap es => simp [addEntries] at h
    | unsupported ty => simp [addEntries] at h

/-- When the loop over the sections ends well, every entry under `Resources` and
`Outputs` is a map. -/
theorem addSections_ok_maps (refs : List (String × Value) → List String)
    (entities : List (String × String)) :
    ∀ (secs : List (String × Value)) (g g' : Graph),
      addSections refs entities secs g = .ok g' → EntriesAreMaps secs := by
  intro secs
  induction secs with
  | nil =>
    rintro g g' _ e res ⟨tree, h, _⟩
    simp at h
  | cons sec rest ih =>
    intro g g' h e res hdec
    obtain ⟨typeName, entity⟩ := sec
    simp only [addSections] at h
    rcases (declared_cons _ _ _ _).mp hdec with ⟨h1, tree, h2, h3⟩ | h1
    · simp only [Prod.mk.injEq] at h2
      obtain ⟨h4, h5⟩ := h2
      subst h4 h5
      have hty : ¬ (e.TypeName ≠ "Resources" ∧ e.TypeName ≠ "Outputs") := by
        rintro ⟨h6, h7⟩
        rcases h1 with h1 | h1
        · exact h6 h1
        · exact h7 h1
      rw [if_neg hty] at h
      simp only at h
      cases hr : addEntries refs entities e.TypeName tree g with
      | ok g1 => exact addEntries_ok_maps refs entities e.TypeName tree g g1 hr e.Name res h3
      | unresolved a b c => simp [hr] at h
      | notAMap a b => simp [hr] at h
      | mapFailed => simp [hr] at h
    · by_cases hty : typeName ≠ "Resources" ∧ typeName ≠ "Outputs"
      · rw [if_pos hty] at h
        exact ih g g' h e res h1
      · rw [if_neg hty] at h
        cases entity with
        | map tree =>
          simp only at h
          cases hr : addEntries refs entities typeName tree g with
          | ok g1 =>
            simp only [hr] at h
            exact ih g1 g' h e res h1
          | unresolved a b c => simp [hr] at h
          | notAMap a b => simp [hr] at h
          | mapFailed => simp [hr] at h
        | null => exact ih g g' (by simpa using h) e res h1
        | bool b => exact ih g g' (by simpa using h) e res h1
        | int i => exact ih g g' (by simpa using h) e res h1
        | str s => exact ih g g' (by simpa using h) e res h1
        | list xs => exact ih g g' (by simpa using h) e res h1
        | generalMap es => exact ih g g' (by simpa using h) e res h1
        | unsupported ty => exact ih g g' (by simpa using h) e res h1

/-- Claim C13: on a template where `Graph` succeeds, every reference of an entry gives
an edge from the entry to the element named by what stands before the first dot of
the reference; when that name is in the index, the section of the target is the
section the index binds it to, a section that declares it, whether or not the name
begins with `AWS::`; and every edge of the graph arises so. -/
theorem graph_targets_by_stripped_name (refs : List (String × Value) → List String)
    (t : Node) (g : Graph) (h : Template.Graph refs t = .ok g) :
    (∃ m, Template.Map t = some m ∧
      (∀ a resource raw, Declared m a (.map resource) → raw ∈ refs resource →
        ∃ ty, (a, (⟨beforeDot raw, ty⟩ : Element)) ∈ g.edges ∧
          ∀ ty', (entitiesOf m).lookup (beforeDot raw) = some ty' →
            ty = ty' ∧ ∃ sec, sec ∈ m ∧ DeclaresName (beforeDot raw) sec ∧ sec.1 = ty') ∧
      (∀ a b, (a, b) ∈ g.edges →
        ∃ resource raw, Declared m a (.map resource) ∧ raw ∈ refs resource ∧
          b.Name = beforeDot raw)) ∧
    (∀ raw : String, ∃ rest, raw.data = (beforeDot raw).data ++ rest ∧
      '.' ∉ (beforeDot raw).data ∧ (rest = [] ∨ ∃ rest', rest = '.' :: rest')) ∧
    Template.Graph getRefs awsNamedTemplate
      = .ok ⟨[⟨"AWS::X", "Resources"⟩, ⟨"B", "Resources"⟩],
          [(⟨"B", "Resources"⟩, ⟨"AWS::X", "Resources"⟩)]⟩ := by
  refine ⟨?_, beforeDot_spec, rfl⟩
  unfold Template.Graph graphOf at h
  cases hm : Template.Map t with
  | none => simp [hm] at h
  | some m =>
    simp only [hm] at h
    obtain ⟨_, he⟩ := addSections_ok refs (entitiesOf m) m Graph.New g h
    have hedges : ∀ a b, (a, b) ∈ g.edges ↔
        ∃ resource, Declared m a (.map resource) ∧
          IsTarget (entitiesOf m) (refs resource) b := by
      intro a b
      rw [he a b]
      simp [Graph.New]
    refine ⟨m, rfl, ?_, ?_⟩
    · intro a resource raw hdec hraw
      have hmaps := addSections_ok_maps refs (entitiesOf m) m Graph.New g h
      rcases addSections_cases refs (entitiesOf m) m Graph.New hmaps with
        ⟨_, h2⟩ | ⟨d, rs, raw', _, _, _, h4⟩
      · have hne := h2 a resource raw hdec hraw
        cases hres : resolve (entitiesOf m) (beforeDot raw) with
        | none => exact absurd hres hne
        | some ty =>
          refine ⟨ty, (hedges a _).mpr ⟨resource, hdec, raw, ty, hraw, hres, rfl⟩, ?_⟩
          intro ty' hl
          have : ty = ty' := by
            simp only [resolve, hl, Option.some.injEq] at hres
            exact hres.symm
          exact ⟨this, declares_of_lookup_entitiesOf (beforeDot raw) ty' m hl⟩
      · rw [h] at h4
        cases h4
    · intro a b hab
      obtain ⟨resource, hdec, raw, ty, hraw, _, hb⟩ := (hedges a b).mp hab
      exact ⟨resource, raw, hdec, hraw, by rw [hb]⟩

/-- Witness of `graph_targets_by_stripped_name`: in
`{Resources: {"AWS::X": {}, B: {Ref: "AWS::X.Arn"}}}` the reference of `B` gives the
edge to `AWS::X` in the section `Resources`. -/
theorem graph_targets_by_stripped_name_witness :
    Template.Graph getRefs awsNamedTemplate
        = .ok ⟨[⟨"AWS::X", "Resources"⟩, ⟨"B", "Resources"⟩],
            [(⟨"B", "Resources"⟩, ⟨"AWS::X", "Resources"⟩)]⟩ ∧
      ∃ m, Template.Map awsNamedTemplate = some m ∧
        (∀ a resource raw, Declared m a (.map resource) → raw ∈ getRefs resource →
          ∃ ty, (a, (⟨beforeDot raw, ty⟩ : Element)) ∈
              [((⟨"B", "Resources"⟩ : Element), (⟨"AWS::X", "Resources"⟩ : Element))] ∧
            ∀ ty', (entitiesOf m).lookup (beforeDot raw) = some ty' →
              ty = ty' ∧ ∃ sec, sec ∈ m ∧ DeclaresName (beforeDot raw) sec ∧ sec.1 = ty') ∧
        (∀ a b, (a, b) ∈ [((⟨"B", "Resources"⟩ : Element), (⟨"AWS::X", "Resources"⟩ : Element))] →
          ∃ resource raw, Declared m a (.map resource) ∧ raw ∈ getRefs resource ∧
            b.Name = beforeDot raw) :=
  ⟨rfl,
    (graph_targets_by_stripped_name getRefs awsNamedTemplate
      ⟨[⟨"AWS::X", "Resources"⟩, ⟨"B", "Resources"⟩],
        [(⟨"B", "Resources"⟩, ⟨"AWS::X", "Resources"⟩)]⟩ rfl).1⟩

/-- Claim C19, at a Document root: on the Document node of `{}`, `Get([""])` panics
before `Set(["c"], "d")` and succeeds after it, returning the new key node, although
neither path is a prefix of the other. -/
theorem set_changes_get_elsewhere_on_document :
    ¬ ([Seg.str "c"] <+: [Seg.str ""]) ∧ ¬ ([Seg.str ""] <+: [Seg.str "c"]) ∧
      Template.Get documentOfEmptyMap [.str ""] = .panic ∧
      Template.Set documentOfEmptyMap [.str "c"] (.str "d")
        = some (Node.mk DocumentNode "" "" [emptyMapping, setString "c", setString "d"], .ok) ∧
      Template.Get (Node.mk DocumentNode "" "" [emptyMapping, setString "c", setString "d"])
        [.str ""] = .ok (setString "c") := by
  refine ⟨by decide, by decide, rfl, rfl, rfl⟩

/-- Claim C20, at a Document root: the Document node of `{}` has the shape in which
the library builds it, and with the path `[""]` both `getNode` and `setNode` match
the `Value` of its only child at position 0 and read `Content[1]`, past the end. -/
theorem document_child_read_past_end :
    documentOfEmptyMap.wellFormed = true ∧
      getNode documentOfEmptyMap [.str ""] = .panic ∧
      setNode 3 documentOfEmptyMap [.str ""] (.str "x") = some (documentOfEmptyMap, .panic) := by
  refine ⟨rfl, rfl, rfl⟩

/-- After whole entries, appending another key and its value does not change what
the key loop finds for a different key. -/
theorem findKey_append_pair_ne (s : String) (k v : Node) (hk : k.value ≠ s) :
    ∀ (cs : List Node), cs.length % 2 = 0 → findKey s (cs ++ [k, v]) = findKey s cs := by
  intro cs
  induction cs using pairs_induction with
  | h0 => intro _; simp [findKey, hk]
  | h1 a => intro h; simp at h
  | h2 a b l ih =>
    intro hlen
    simp at hlen
    by_cases ha : a.value = s
    · simp [findKey, ha]
    · simp [findKey, ha, ih (by omega)]

/-- In whole entries the key the loop finds has its value right after it. -/
theorem findKey_value_in_bounds (s : String) (cs : List Node) (j : Nat)
    (h : findKey s cs = some j) (hlen : cs.length % 2 = 0) : j + 1 < cs.length := by
  obtain ⟨h1, ⟨k, h2, _⟩, _⟩ := (findKey_some_iff s cs j).mp h
  have hj : j < cs.length := by
    by_contra hge
    have : cs[j]? = none := List.getElem?_eq_none (by omega)
    rw [this] at h2
    cases h2
  omega

/-- Two different keys are found at two different positions. -/
theorem findKey_ne_of_ne (s s2 : String) (cs : List Node) (i j : Nat)
    (hi : findKey s cs = some i) (hj : findKey s2 cs = some j) (hne : s ≠ s2) : i ≠ j := by
  obtain ⟨_, ⟨k, h1, h2⟩, _⟩ := (findKey_some_iff s cs i).mp hi
  obtain ⟨_, ⟨k', h3, h4⟩, _⟩ := (findKey_some_iff s2 cs j).mp hj
  intro heq
  subst heq
  rw [h1] at h3
  cases h3
  exact hne (h2.symm.trans h4)

/-- No path with a segment can be followed from a node that has no kind, from an empty
Mapping or from an empty Sequence. -/
theorem getNode_fresh_not_ok (n : Node) (seg : Seg) (rest : List Seg) (x : Node)
    (h : n.kindless ∨ n = emptyMapping ∨ n = emptySequence) :
    getNode n (seg :: rest) ≠ .ok x := by
  rcases h with ⟨h1, h2, h3, h4, h5⟩ | h | h
  · simp [getNode, h1, h2, h3, h4, h5]
  · subst h
    cases seg <;> simp [getNode, emptyMapping, Node.kind, Node.content, findKey, MappingNode,
      DocumentNode]
  · subst h
    cases seg with
    | int i =>
      have hi : i < 0 ∨ 0 ≤ i := by omega
      simp [getNode, emptySequence, Node.kind, Node.content, MappingNode, DocumentNode,
        SequenceNode, hi]
    | str s =>
      simp [getNode, emptySequence, Node.kind, Node.content, MappingNode, DocumentNode,
        SequenceNode]
    | other ty =>
      simp [getNode, emptySequence, Node.kind, Node.content, MappingNode, DocumentNode,
        SequenceNode]

/-- On a tree whose Mappings and Documents hold whole entries, a successful `setNode`
on a path does not change whether `getNode` succeeds, nor what it returns, on a path
that neither extends it nor is extended by it. -/
theorem getNode_frame_of_setOk (v : Value) :
    ∀ (t : Node) (p : List Seg) (t' : Node), SetOk v t p t' → t.paired = true →
      ∀ (q : List Seg) (x : Node), ¬ p <+: q → ¬ q <+: p →
        (getNode t' q = .ok x ↔ getNode t q = .ok x) := by
  intro t p t' h
  induction h with
  | encoded node nv henc =>
    intro _ q x hpq _
    exact absurd List.nil_prefix hpq
  | keyFound node child child' s i rest hk hf hc _ ih =>
    intro hp q x hpq hqp
    obtain ⟨k, tg, val, cs⟩ := node
    simp only [Node.content, Node.kind] at hf hc hk
    simp only [Node.paired, Bool.and_eq_true] at hp
    cases q with
    | nil => exact absurd List.nil_prefix hqp
    | cons b q' =>
      have hi : i % 2 = 0 := ((findKey_some_iff s cs i).mp hf).1
      have hlt : i + 1 < cs.length := by
        by_contra hge
        have : cs[i + 1]? = none := List.getElem?_eq_none (by omega)
        rw [this] at hc
        cases hc
      cases b with
      | str s2 =>
        have hf' : findKey s2 (cs.set (i + 1) child') = findKey s2 cs :=
          findKey_set_odd s2 child' cs (i + 1) (by omega)
        by_cases hs : s2 = s
        · subst hs
          have hpq' : ¬ rest <+: q' := fun hh => hpq (List.cons_prefix_cons.mpr ⟨rfl, hh⟩)
          have hqp' : ¬ q' <+: rest := fun hh => hqp (List.cons_prefix_cons.mpr ⟨rfl, hh⟩)
          have hc' : (cs.set (i + 1) child')[i + 1]? = some child' := by
            simp [List.getElem?_set, hlt]
          have := ih (pairedList_get cs (i + 1) child hp.2 hc) q' x hpq' hqp'
          simpa [getNode, Node.withContent, Node.content, Node.kind, hk, hf', hf, hc', hc]
            using this
        · cases hj : findKey s2 cs with
          | none =>
            simp [getNode, Node.withContent, Node.content, Node.kind, hk, hf', hj]
          | some j =>
            have hij : i ≠ j := findKey_ne_of_ne s s2 cs i j hf hj (fun hh => hs hh.symm)
            have hget : (cs.set (i + 1) child')[j + 1]? = cs[j + 1]? := by
              rw [List.getElem?_set_ne (by omega)]
            simp [getNode, Node.withContent, Node.content, Node.kind, hk, hf', hj, hget]
      | int i2 =>
        rcases hk with hk | hk <;>
          simp [getNode, Node.withContent, Node.content, Node.kind, hk, MappingNode,
            DocumentNode]
      | other ty =>
        rcases hk with hk | hk <;>
          simp [getNode, Node.withContent, Node.content, Node.kind, hk, MappingNode,
            DocumentNode]
  | keyNew node valueNode s rest hk hf _ ih =>
    intro hp q x hpq hqp
    obtain ⟨k, tg, val, cs⟩ := node
    simp only [Node.content, Node.kind] at hf hk
    simp only [Node.paired, Bool.and_eq_true, Bool.or_eq_true, bne_iff_ne, ne_eq,
      beq_iff_eq] at hp
    have hlen : cs.length % 2 = 0 := by
      rcases hp.1 with h3 | h3
      · rcases hk with h4 | h4
        · exact absurd h4 h3.2
        · exact absurd h4 h3.1
      · exact h3
    cases q with
    | nil => exact absurd List.nil_prefix hqp
    | cons b q' =>
      cases b with
      | str s2 =>
        by_cases hs : s2 = s
        · subst hs
          have hpq' : ¬ rest <+: q' := fun hh => hpq (List.cons_prefix_cons.mpr ⟨rfl, hh⟩)
          have hqp' : ¬ q' <+: rest := fun hh => hqp (List.cons_prefix_cons.mpr ⟨rfl, hh⟩)
          have hf' := findKey_append_pair s2 (setString s2) valueNode rfl cs hlen hf
          have hc' : (cs ++ [setString s2, valueNode])[cs.length + 1]? = some valueNode := by
            rw [List.getElem?_append_right (by omega)]
            simp
          have hsub := ih (by rfl) q' x hpq' hqp'
          have hzero : getNode Node.zero q' ≠ .ok x := by
            cases q' with
            | nil => exact absurd List.nil_prefix hqp'
            | cons b2 q2 =>
              exact getNode_fresh_not_ok Node.zero b2 q2 x (Or.inl (by
                refine ⟨?_, ?_, ?_, ?_, ?_⟩ <;> decide))
          have hafter : getNode valueNode q' ≠ .ok x := fun hh => hzero (hsub.mp hh)
          simp [getNode, Node.withContent, Node.content, Node.kind, hk, hf', hf, hc', hafter]
        · have hne : (setString s).value ≠ s2 := fun hh => hs hh.symm
          have hf' := findKey_append_pair_ne s2 (setString s) valueNode hne cs hlen
          cases hj : findKey s2 cs with
          | none =>
            simp [getNode, Node.withContent, Node.content, Node.kind, hk, hf', hj]
          | some j =>
            have hjlt := findKey_value_in_bounds s2 cs j hj hlen
            have hget : (cs ++ [setString s, valueNode])[j + 1]? = cs[j + 1]? := by
              rw [List.getElem?_append_left hjlt]
            simp [getNode, Node.withContent, Node.content, Node.kind, hk, hf', hj, hget]
      | int i2 =>
        rcases hk with hk | hk <;>
          simp [getNode, Node.withContent, Node.content, Node.kind, hk, MappingNode,
            DocumentNode]
      | other ty =>
        rcases hk with hk | hk <;>
          simp [getNode, Node.withContent, Node.content, Node.kind, hk, MappingNode,
            DocumentNode]
  | indexFound node child child' i rest hk h0 h1 hc _ ih =>
    intro hp q x hpq hqp
    obtain ⟨k, tg, val, cs⟩ := node
    simp only [Node.content, Node.kind] at hc hk h1
    simp only [Node.paired, Bool.and_eq_true] at hp
    subst hk
    cases q with
    | nil => exact absurd List.nil_prefix hqp
    | cons b q' =>
      cases b with
      | int i2 =>
        by_cases hi : i2 = i
        · subst hi
          have hpq' : ¬ rest <+: q' := fun hh => hpq (List.cons_prefix_cons.mpr ⟨rfl, hh⟩)
          have hqp' : ¬ q' <+: rest := fun hh => hqp (List.cons_prefix_cons.mpr ⟨rfl, hh⟩)
          have h0' : ¬ i2 < 0 := by omega
          have h1' : ¬ (cs.length : Int) ≤ i2 := by omega
          have hlt : i2.toNat < cs.length := by omega
          have hc' : (cs.set i2.toNat child')[i2.toNat]? = some child' := by
            simp [List.getElem?_set, hlt]
          have := ih (pairedList_get cs i2.toNat child hp.2 hc) q' x hpq' hqp'
          simpa [getNode, Node.withContent, Node.content, Node.kind, SequenceNode, DocumentNode,
            MappingNode, h0', h1', hc', hc] using this
        · by_cases hr : i2 < 0 ∨ (cs.length : Int) ≤ i2
          · simp [getNode, Node.withContent, Node.content, Node.kind, SequenceNode, DocumentNode,
              MappingNode, hr]
          · have hget : (cs.set i.toNat child')[i2.toNat]? = cs[i2.toNat]? := by
              rw [List.getElem?_set_ne (by omega)]
            simp [getNode, Node.withContent, Node.content, Node.kind, SequenceNode, DocumentNode,
              MappingNode, hr, hget]
      | str s2 =>
        simp [getNode, Node.withContent, Node.content, Node.kind, SequenceNode, DocumentNode,
          MappingNode]
      | other ty =>
        simp [getNode, Node.withContent, Node.content, Node.kind, SequenceNode, DocumentNode,
          MappingNode]
  | indexNew node valueNode i rest hk hi _ ih =>
    intro hp q x hpq hqp
    obtain ⟨k, tg, val, cs⟩ := node
    simp only [Node.content, Node.kind] at hk hi
    subst hk
    cases q with
    | nil => exact absurd List.nil_prefix hqp
    | cons b q' =>
      cases b with
      | int i2 =>
        by_cases hi2 : i2 = i
        · subst hi2
          have hpq' : ¬ rest <+: q' := fun hh => hpq (List.cons_prefix_cons.mpr ⟨rfl, hh⟩)
          have hqp' : ¬ q' <+: rest := fun hh => hqp (List.cons_prefix_cons.mpr ⟨rfl, hh⟩)
          have hsub := ih (by rfl) q' x hpq' hqp'
          have hzero : getNode Node.zero q' ≠ .ok x := by
            cases q' with
            | nil => exact absurd List.nil_prefix hqp'
            | cons b2 q2 =>
              exact getNode_fresh_not_ok Node.zero b2 q2 x (Or.inl (by
                refine ⟨?_, ?_, ?_, ?_, ?_⟩ <;> decide))
          have hafter : getNode valueNode q' ≠ .ok x := fun hh => hzero (hsub.mp hh)
          subst hi
          have hneg : ¬ ((cs.length : Int) < 0) := by omega
          simp [getNode, Node.withContent, Node.content, Node.kind, SequenceNode, DocumentNode,
            MappingNode, hafter, hneg]
        · by_cases hr : i2 < 0 ∨ (cs.length : Int) ≤ i2
          · have hr' : i2 < 0 ∨ (cs.length : Int) + 1 ≤ i2 := by omega
            simp [getNode, Node.withContent, Node.content, Node.kind, SequenceNode, DocumentNode,
              MappingNode, hr, hr']
          · have hr' : ¬ (i2 < 0 ∨ (cs.length : Int) + 1 ≤ i2) := by omega
            have hget : (cs ++ [valueNode])[i2.toNat]? = cs[i2.toNat]? := by
              rw [List.getElem?_append_left (by omega)]
            simp [getNode, Node.withContent, Node.content, Node.kind, SequenceNode, DocumentNode,
              MappingNode, hr, hr', hget]
      | str s2 =>
        simp [getNode, Node.withContent, Node.content, Node.kind, SequenceNode, DocumentNode,
          MappingNode]
      | other ty =>
        simp [getNode, Node.withContent, Node.content, Node.kind, SequenceNode, DocumentNode,
          MappingNode]
  | initMapping node node' s rest hkl _ ih =>
    intro _ q x hpq hqp
    cases q with
    | nil => exact absurd List.nil_prefix hqp
    | cons b q' =>
      have h1 := ih (by rfl) (b :: q') x hpq hqp
      have h2 := getNode_fresh_not_ok emptyMapping b q' x (Or.inr (Or.inl rfl))
      have h3 := getNode_fresh_not_ok node b q' x (Or.inl hkl)
      constructor
      · intro hh; exact absurd (h1.mp hh) h2
      · intro hh; exact absurd hh h3
  | initSequence node node' i rest hkl _ ih =>
    intro _ q x hpq hqp
    cases q with
    | nil => exact absurd List.nil_prefix hqp
    | cons b q' =>
      have h1 := ih (by rfl) (b :: q') x hpq hqp
      have h2 := getNode_fresh_not_ok emptySequence b q' x (Or.inr (Or.inr rfl))
      have h3 := getNode_fresh_not_ok node b q' x (Or.inl hkl)
      constructor
      · intro hh; exact absurd (h1.mp hh) h2
      · intro hh; exact absurd hh h3

/-- On a tree whose Mappings and Documents hold whole entries, a `Set` that returned
no error changes nothing that `Get` reaches on a path that neither extends the path
of the `Set` nor is extended by it. -/
theorem get_frame_paired (t t' : Node) (p q : List Seg) (v : Value) (x : Node)
    (hp : t.paired = true) (hset : Template.Set t p v = some (t', .ok))
    (hpq : ¬ p <+: q) (hqp : ¬ q <+: p) :
    Template.Get t' q = .ok x ↔ Template.Get t q = .ok x :=
  getNode_frame_of_setOk v t p t' (setNode_ok v _ t p t' hset) hp q x hpq hqp

mutual
/-- The encoder builds Mappings of whole entries. -/
theorem encode_paired : ∀ (v : Value) (n : Node), encode v = .ok n → n.paired = true
  | .null, n, h => by simp [encode] at h; subst h; rfl
  | .bool b, n, h => by simp [encode] at h; subst h; rfl
  | .int i, n, h => by simp [encode] at h; subst h; rfl
  | .str s, n, h => by simp [encode] at h; subst h; rfl
  | .unsupported ty, n, h => by simp [encode] at h
  | .list xs, n, h => by
    simp only [encode] at h
    cases hx : encodeList xs with
    | error e => simp [hx] at h
    | ok cs =>
      simp [hx] at h
      subst h
      have := encodeList_paired xs cs hx
      simp [Node.paired, this, SequenceNode, MappingNode, DocumentNode]
  | .map es, n, h => by
    simp only [encode] at h
    cases hx : encodeEntries es with
    | error e => simp [hx] at h
    | ok cs =>
      simp [hx] at h
      subst h
      have := encodeEntries_paired es cs hx
      simp [Node.paired, this.1, this.2]
  | .generalMap es, n, h => by
    simp only [encode] at h
    cases hx : encodePairs es with
    | error e => simp [hx] at h
    | ok cs =>
      simp [hx] at h
      subst h
      have := encodePairs_paired es cs hx
      simp [Node.paired, this.1, this.2]
/-- The same for the children of an encoded slice. -/
theorem encodeList_paired :
    ∀ (xs : List Value) (cs : List Node), encodeList xs = .ok cs → pairedList cs = true
  | [], cs, h => by simp [encodeList] at h; subst h; rfl
  | x :: xs, cs, h => by
    simp only [encodeList] at h
    cases hx : encode x with
    | error e => simp [hx] at h
    | ok n =>
      cases hxs : encodeList xs with
      | error e => simp [hx, hxs] at h
      | ok ns =>
        simp [hx, hxs] at h
        subst h
        simp [pairedList, encode_paired x n hx, encodeList_paired xs ns hxs]
/-- The same for the children of an encoded map, which come in pairs. -/
theorem encodeEntries_paired :
    ∀ (es : List (String × Value)) (cs : List Node), encodeEntries es = .ok cs →
      pairedList cs = true ∧ cs.length % 2 = 0
  | [], cs, h => by simp [encodeEntries] at h; subst h; exact ⟨rfl, rfl⟩
  | (k, x) :: es, cs, h => by
    simp only [encodeEntries] at h
    cases hx : encode x with
    | error e => simp [hx] at h
    | ok n =>
      cases hxs : encodeEntries es with
      | error e => simp [hx, hxs] at h
      | ok ns =>
        simp [hx, hxs] at h
        subst h
        have h1 := encode_paired x n hx
        have h2 := encodeEntries_paired es ns hxs
        refine ⟨?_, by simp; omega⟩
        simp only [pairedList, Bool.and_eq_true]
        exact ⟨rfl, h1, h2.1⟩
/-- The same for the children of an encoded `map[interface{}]interface{}`. -/
theorem encodePairs_paired :
    ∀ (es : List (Value × Value)) (cs : List Node), encodePairs es = .ok cs →
      pairedList cs = true ∧ cs.length % 2 = 0
  | [], cs, h => by simp [encodePairs] at h; subst h; exact ⟨rfl, rfl⟩
  | (k, x) :: es, cs, h => by
    simp only [encodePairs] at h
    cases hk : encode k with
    | error e => simp [hk] at h
    | ok nk =>
      cases hx : encode x with
      | error e => simp [hk, hx] at h
      | ok n =>
        cases hxs : encodePairs es with
        | error e => simp [hk, hx, hxs] at h
        | ok ns =>
          simp [hk, hx, hxs] at h
          subst h
          have h0 := encode_paired k nk hk
          have h1 := encode_paired x n hx
          have h2 := encodePairs_paired es ns hxs
          refine ⟨?_, by simp; omega⟩
          simp only [pairedList, Bool.and_eq_true]
          exact ⟨h0, h1, h2.1⟩
end

/-- Replacing a member by a tree of whole entries keeps whole entries in the list. -/
theorem pairedList_set :
    ∀ (cs : List Node) (j : Nat) (x : Node),
      pairedList cs = true → x.paired = true → pairedList (cs.set j x) = true := by
  intro cs
  induction cs with
  | nil => intro j x h _; simpa using h
  | cons a l ih =>
    intro j x h hx
    simp [pairedList] at h
    cases j with
    | zero => simp [pairedList, hx, h.2]
    | succ j => simp [pairedList, h.1, ih j x h.2 hx]

/-- Whole entries of an appended list. -/
theorem pairedList_append :
    ∀ (as bs : List Node), pairedList (as ++ bs) = (pairedList as && pairedList bs) := by
  intro as
  induction as with
  | nil => intro bs; simp [pairedList]
  | cons a l ih => intro bs; simp [pairedList, ih, Bool.and_assoc]

/-- On a tree whose Mappings and Documents hold whole entries, `getNode` reads no
position past the end of a `Content`. -/
theorem getNode_no_panic_paired :
    ∀ (p : List Seg) (n : Node), n.paired = true → getNode n p ≠ .panic := by
  intro p
  induction p with
  | nil => intro n _; simp [getNode]
  | cons seg rest ih =>
    intro n hp
    obtain ⟨k, tg, val, cs⟩ := n
    simp only [Node.paired, Bool.and_eq_true, Bool.or_eq_true, bne_iff_ne, ne_eq,
      beq_iff_eq] at hp
    unfold getNode
    simp only [Node.kind, Node.content]
    by_cases hmap : k = DocumentNode ∨ k = MappingNode
    · have hlen : cs.length % 2 = 0 := by
        rcases hp.1 with h3 | h3
        · rcases hmap with h4 | h4
          · exact absurd h4 h3.2
          · exact absurd h4 h3.1
        · exact h3
      simp only [hmap, if_true]
      cases seg with
      | str s =>
        simp only
        cases hf : findKey s cs with
        | none => simp
        | some i =>
          have hlt := findKey_value_in_bounds s cs i hf hlen
          simp only
          cases hc : cs[i + 1]? with
          | none =>
            have : cs[i + 1]? ≠ none := by
              rw [List.getElem?_eq_getElem hlt]
              simp
            exact absurd hc this
          | some child => exact ih child (pairedList_get cs (i + 1) child hp.2 hc)
      | int i => simp
      | other ty => simp
    · simp only [hmap, if_false]
      by_cases hseq : k = SequenceNode
      · simp only [hseq, if_true]
        cases seg with
        | int i =>
          simp only
          by_cases hr : i < 0 ∨ i ≥ (cs.length : Int)
          · simp [hr]
          · simp only [hr, if_false]
            cases hc : cs[i.toNat]? with
            | none =>
              have : cs[i.toNat]? ≠ none := by
                rw [List.getElem?_eq_getElem (by omega)]
                simp
              exact absurd hc this
            | some child => exact ih child (pairedList_get cs i.toNat child hp.2 hc)
        | str s => simp
        | other ty => simp
      · simp only [hseq, if_false]
        by_cases hsc : k = ScalarNode
        · simp [hsc]
        · by_cases hal : k = AliasNode
          · subst hal
            simp [AliasNode, ScalarNode]
          · simp [hsc, hal]

/-- On a tree whose Mappings and Documents hold whole entries, `setNode` reads no
position past the end of a `Content`, and the tree it leaves has whole entries
again. -/
theorem setNode_no_panic_paired (v : Value) :
    ∀ (fuel : Nat) (node : Node) (p : List Seg) (node' : Node) (st : Status),
      node.paired = true → setNode fuel node p v = some (node', st) →
      st ≠ .panic ∧ node'.paired = true := by
  intro fuel
  induction fuel with
  | zero => intro node p node' st _ h; simp [setNode] at h
  | succ fuel ih =>
    intro node p node' st hpd h
    cases p with
    | nil =>
      simp only [setNode] at h
      cases hv : encode v with
      | error e =>
        simp [hv] at h
        obtain ⟨h1, h2⟩ := h
        subst h1 h2
        exact ⟨by simp, hpd⟩
      | ok nv =>
        simp [hv] at h
        obtain ⟨h1, h2⟩ := h
        subst h1 h2
        exact ⟨by simp, encode_paired v nv hv⟩
    | cons seg rest =>
      obtain ⟨k, tg, val, cs⟩ := node
      have hp := hpd
      simp only [Node.paired, Bool.and_eq_true, Bool.or_eq_true, bne_iff_ne, ne_eq,
        beq_iff_eq] at hp
      unfold setNode at h
      simp only [Node.kind, Node.content, Node.withContent] at h
      by_cases hmap : k = DocumentNode ∨ k = MappingNode
      · have hlen : cs.length % 2 = 0 := by
          rcases hp.1 with h3 | h3
          · rcases hmap with h4 | h4
            · exact absurd h4 h3.2
            · exact absurd h4 h3.1
          · exact h3
        simp only [hmap, if_true] at h
        cases seg with
        | str s =>
          simp only at h
          cases hf : findKey s cs with
          | none =>
            simp only [hf] at h
            cases hr : setNode fuel Node.zero rest v with
            | none => simp [hr] at h
            | some r =>
              obtain ⟨vn, st'⟩ := r
              obtain ⟨h1, h2⟩ := ih Node.zero rest vn st' (by rfl) hr
              cases st' with
              | ok =>
                simp [hr] at h
                obtain ⟨h3, h4⟩ := h
                subst h3 h4
                refine ⟨by simp, ?_⟩
                simp only [Node.paired, Bool.and_eq_true, Bool.or_eq_true, bne_iff_ne, ne_eq,
                  beq_iff_eq]
                refine ⟨Or.inr (by simp; omega), ?_⟩
                rw [pairedList_append]
                simp only [pairedList, Bool.and_eq_true]
                exact ⟨hp.2, rfl, h2, trivial⟩
              | error e =>
                simp [hr] at h
                obtain ⟨h3, h4⟩ := h
                subst h3 h4
                exact ⟨by simp, hpd⟩
              | panic => exact absurd rfl h1
          | some i =>
            have hlt := findKey_value_in_bounds s cs i hf hlen
            simp only [hf] at h
            cases hc : cs[i + 1]? with
            | none =>
              have : cs[i + 1]? ≠ none := by
                rw [List.getElem?_eq_getElem hlt]
                simp
              exact absurd hc this
            | some child =>
              simp only [hc] at h
              cases hr : setNode fuel child rest v with
              | none => simp [hr] at h
              | some r =>
                obtain ⟨child', st'⟩ := r
                obtain ⟨h1, h2⟩ :=
                  ih child rest child' st' (pairedList_get cs (i + 1) child hp.2 hc) hr
                simp [hr] at h
                obtain ⟨h3, h4⟩ := h
                subst h3 h4
                refine ⟨h1, ?_⟩
                simp only [Node.paired, Bool.and_eq_true, Bool.or_eq_true, bne_iff_ne, ne_eq,
                  beq_iff_eq]
                exact ⟨Or.inr (by rw [List.length_set]; exact hlen),
                  pairedList_set cs (i + 1) child' hp.2 h2⟩
        | int i =>
          simp at h
          obtain ⟨h3, h4⟩ := h
          subst h3 h4
          exact ⟨by simp, hpd⟩
        | other ty =>
          simp at h
          obtain ⟨h3, h4⟩ := h
          subst h3 h4
          exact ⟨by simp, hpd⟩
      · simp only [hmap, if_false] at h
        have hnot : ¬ k = MappingNode ∧ ¬ k = DocumentNode :=
          ⟨fun hh => hmap (Or.inr hh), fun hh => hmap (Or.inl hh)⟩
        by_cases hseq : k = SequenceNode
        · subst hseq
          simp only [if_true] at h
          cases seg with
          | int i =>
            simp only at h
            by_cases hi : i < 0 ∨ i > (cs.length : Int)
            · simp [hi] at h
              obtain ⟨h3, h4⟩ := h
              subst h3 h4
              exact ⟨by simp, hpd⟩
            · simp only [hi, if_false] at h
              by_cases hlt : i < (cs.length : Int)
              · simp only [hlt, if_true] at h
                cases hc : cs[i.toNat]? with
                | none =>
                  have : cs[i.toNat]? ≠ none := by
                    rw [List.getElem?_eq_getElem (by omega)]
                    simp
                  exact absurd hc this
                | some child =>
                  simp only [hc] at h
                  cases hr : setNode fuel child rest v with
                  | none => simp [hr] at h
                  | some r =>
                    obtain ⟨child', st'⟩ := r
                    obtain ⟨h1, h2⟩ :=
                      ih child rest child' st' (pairedList_get cs i.toNat child hp.2 hc) hr
                    simp [hr] at h
                    obtain ⟨h3, h4⟩ := h
                    subst h3 h4
                    refine ⟨h1, ?_⟩
                    simp only [Node.paired, Bool.and_eq_true, Bool.or_eq_true, bne_iff_ne,
                      ne_eq, beq_iff_eq]
                    exact ⟨Or.inl (by decide),
                      pairedList_set cs i.toNat child' hp.2 h2⟩
              · simp only [hlt, if_false] at h
                cases hr : setNode fuel Node.zero rest v with
                | none => simp [hr] at h
                | some r =>
                  obtain ⟨vn, st'⟩ := r
                  obtain ⟨h1, h2⟩ := ih Node.zero rest vn st' (by rfl) hr
                  cases st' with
                  | ok =>
                    simp [hr] at h
                    obtain ⟨h3, h4⟩ := h
                    subst h3 h4
                    refine ⟨by simp, ?_⟩
                    simp only [Node.paired, Bool.and_eq_true, Bool.or_eq_true, bne_iff_ne,
                      ne_eq, beq_iff_eq]
                    refine ⟨Or.inl (by decide), ?_⟩
                    rw [pairedList_append]
                    simp only [pairedList, Bool.and_eq_true]
                    exact ⟨hp.2, h2, trivial⟩
                  | error e =>
                    simp [hr] at h
                    obtain ⟨h3, h4⟩ := h
                    subst h3 h4
                    exact ⟨by simp, hpd⟩
                  | panic => exact absurd rfl h1
          | str s =>
            simp at h
            obtain ⟨h3, h4⟩ := h
            subst h3 h4
            exact ⟨by simp, hpd⟩
          | other ty =>
            simp at h
            obtain ⟨h3, h4⟩ := h
            subst h3 h4
            exact ⟨by simp, hpd⟩
        · simp only [hseq, if_false] at h
          by_cases hsc : k = ScalarNode
          · subst hsc
            simp at h
            obtain ⟨h3, h4⟩ := h
            subst h3 h4
            exact ⟨by simp, hpd⟩
          · simp only [hsc, if_false] at h
            by_cases hal : k = AliasNode
            · subst hal
              simp at h
              obtain ⟨h3, h4⟩ := h
              subst h3 h4
              exact ⟨by simp, hpd⟩
            · simp only [hal, if_false] at h
              cases seg with
              | str s =>
                have he : encode (.map []) = .ok emptyMapping := rfl
                simp only [he] at h
                exact ih emptyMapping _ node' st (by rfl) h
              | int i =>
                have he : encode (.list []) = .ok emptySequence := rfl
                simp only [he] at h
                exact ih emptySequence _ node' st (by rfl) h
              | other ty =>
                simp at h
                obtain ⟨h3, h4⟩ := h
                subst h3 h4
                exact ⟨by simp, hpd⟩

/-- At a node that has no kind and a string segment, `setNode` turns the node into an
empty Mapping and dispatches the same path on it. -/
theorem setNode_kindless_str (fuel : Nat) (node : Node) (s : String) (rest : List Seg)
    (v : Value) (h : node.kindless) :
    setNode (fuel + 1) node (.str s :: rest) v = setNode fuel emptyMapping (.str s :: rest) v := by
  obtain ⟨h1, h2, h3, h4, h5⟩ := h
  have he : encode (.map []) = .ok emptyMapping := rfl
  rw [setNode]
  simp only [h1, h2, h3, h4, h5, or_self, if_false, he]

/-- At a node that has no kind and an integer segment, `setNode` turns the node into
an empty Sequence and dispatches the same path on it. -/
theorem setNode_kindless_int (fuel : Nat) (node : Node) (i : Int) (rest : List Seg)
    (v : Value) (h : node.kindless) :
    setNode (fuel + 1) node (.int i :: rest) v = setNode fuel emptySequence (.int i :: rest) v := by
  obtain ⟨h1, h2, h3, h4, h5⟩ := h
  have he : encode (.list []) = .ok emptySequence := rfl
  rw [setNode]
  simp only [h1, h2, h3, h4, h5, or_self, if_false, he]

/-- At a node that has no kind, a segment that is neither a string nor an integer
ends `setNode` at once. -/
theorem setNode_kindless_other (fuel : Nat) (node : Node) (ty : String) (rest : List Seg)
    (v : Value) (h : node.kindless) :
    setNode (fuel + 1) node (.other ty :: rest) v = some (node, .error (.unexpectedIndex ty)) := by
  obtain ⟨h1, h2, h3, h4, h5⟩ := h
  rw [setNode]
  simp only [h1, h2, h3, h4, h5, or_self, if_false]

/-- A node that has a kind dispatches its segment once: when `setNode` returns on the
rest of the path with `2 * length + 1` calls, it returns here with one call more. -/
theorem setNode_returns_kinded (v : Value) (rest : List Seg)
    (hrest : ∀ fuel node, 2 * rest.length + 1 ≤ fuel → ∃ r, setNode fuel node rest v = some r) :
    ∀ (fuel : Nat) (node : Node) (seg : Seg), ¬ node.kindless →
      2 * (rest.length + 1) ≤ fuel → ∃ r, setNode fuel node (seg :: rest) v = some r := by
  intro fuel node seg hkl hfuel
  obtain ⟨fuel', rfl⟩ : ∃ fuel', fuel = fuel' + 1 := ⟨fuel - 1, by omega⟩
  have hf : 2 * rest.length + 1 ≤ fuel' := by omega
  unfold setNode
  by_cases hmap : node.kind = DocumentNode ∨ node.kind = MappingNode
  · simp only [hmap, if_true]
    cases seg with
    | str s =>
      simp only
      cases hk : findKey s node.content with
      | none =>
        simp only
        obtain ⟨⟨vn, st⟩, hr⟩ := hrest fuel' Node.zero hf
        rw [hr]
        cases st <;> simp
      | some i =>
        simp only
        cases hc : node.content[i + 1]? with
        | none => simp
        | some child =>
          simp only
          obtain ⟨⟨child', st⟩, hr⟩ := hrest fuel' child hf
          rw [hr]
          simp
    | int i => simp
    | other ty => simp
  · simp only [hmap, if_false]
    by_cases hseq : node.kind = SequenceNode
    · simp only [hseq, if_true]
      cases seg with
      | int i =>
        simp only
        by_cases hi : i < 0 ∨ i > node.content.length
        · simp [hi]
        · simp only [hi, if_false]
          by_cases hlt : i < node.content.length
          · simp only [hlt, if_true]
            cases hc : node.content[i.toNat]? with
            | none => simp
            | some child =>
              simp only
              obtain ⟨⟨child', st⟩, hr⟩ := hrest fuel' child hf
              rw [hr]
              simp
          · simp only [hlt, if_false]
            obtain ⟨⟨vn, st⟩, hr⟩ := hrest fuel' Node.zero hf
            rw [hr]
            cases st <;> simp
      | str s => simp
      | other ty => simp
    · simp only [hseq, if_false]
      by_cases hsc : node.kind = ScalarNode
      · simp [hsc]
      · simp only [hsc, if_false]
        by_cases hal : node.kind = AliasNode
        · simp [hal]
        · exact absurd ⟨fun hh => hmap (Or.inl hh), fun hh => hmap (Or.inr hh), hseq, hsc, hal⟩
            hkl

/-- With `2 * length + 1` calls `setNode` returns, whatever the node, the path and the
value. -/
theorem setNode_returns (v : Value) :
    ∀ (path : List Seg) (fuel : Nat) (node : Node), 2 * path.length + 1 ≤ fuel →
      ∃ r, setNode fuel node path v = some r := by
  intro path
  induction path with
  | nil =>
    intro fuel node hfuel
    obtain ⟨fuel', rfl⟩ : ∃ fuel', fuel = fuel' + 1 := ⟨fuel - 1, by omega⟩
    simp only [setNode]
    cases encode v <;> simp
  | cons seg rest ih =>
    intro fuel node hfuel
    simp only [List.length_cons] at hfuel
    by_cases hkl : node.kindless
    · obtain ⟨fuel', rfl⟩ : ∃ fuel', fuel = fuel' + 1 := ⟨fuel - 1, by omega⟩
      have hf : 2 * (rest.length + 1) ≤ fuel' := by omega
      cases seg with
      | str s =>
        rw [setNode_kindless_str fuel' node s rest v hkl]
        exact setNode_returns_kinded v rest ih fuel' emptyMapping (.str s)
          (fun hh => hh.2.1 rfl) hf
      | int i =>
        rw [setNode_kindless_int fuel' node i rest v hkl]
        exact setNode_returns_kinded v rest ih fuel' emptySequence (.int i)
          (fun hh => hh.2.2.1 rfl) hf
      | other ty =>
        rw [setNode_kindless_other fuel' node ty rest v hkl]
        exact ⟨_, rfl⟩
    · exact setNode_returns_kinded v rest ih fuel node seg hkl (by omega)

/-- More calls than `setNode` needs change nothing of what it returns. -/
theorem setNode_fuel_succ (v : Value) :
    ∀ (fuel : Nat) (node : Node) (p : List Seg) (r : Node × Status),
      setNode fuel node p v = some r → setNode (fuel + 1) node p v = some r := by
  intro fuel
  induction fuel with
  | zero => intro node p r h; simp [setNode] at h
  | succ fuel ih =>
    intro node p r h
    cases p with
    | nil =>
      simp only [setNode] at h ⊢
      exact h
    | cons seg rest =>
      unfold setNode at h
      unfold setNode
      by_cases hmap : node.kind = DocumentNode ∨ node.kind = MappingNode
      · simp only [hmap, if_true] at h ⊢
        cases seg with
        | str s =>
          simp only at h ⊢
          cases hk : findKey s node.content with
          | none =>
            simp only [hk] at h ⊢
            cases hr : setNode fuel Node.zero rest v with
            | none => simp [hr] at h
            | some x =>
              rw [hr] at h
              rw [ih Node.zero rest x hr]
              exact h
          | some i =>
            simp only [hk] at h ⊢
            cases hc : node.content[i + 1]? with
            | none =>
              simp only [hc] at h ⊢
              exact h
            | some child =>
              simp only [hc] at h ⊢
              cases hr : setNode fuel child rest v with
              | none => simp [hr] at h
              | some x =>
                rw [hr] at h
                rw [ih child rest x hr]
                exact h
        | int i => exact h
        | other ty => exact h
      · simp only [hmap, if_false] at h ⊢
        by_cases hseq : node.kind = SequenceNode
        · simp only [hseq, if_true] at h ⊢
          cases seg with
          | int i =>
            simp only at h ⊢
            by_cases hi : i < 0 ∨ i > node.content.length
            · simp only [hi, if_true] at h ⊢
              exact h
            · simp only [hi, if_false] at h ⊢
              by_cases hlt : i < node.content.length
              · simp only [hlt, if_true] at h ⊢
                cases hc : node.content[i.toNat]? with
                | none =>
                  simp only [hc] at h ⊢
                  exact h
                | some child =>
                  simp only [hc] at h ⊢
                  cases hr : setNode fuel child rest v with
                  | none => simp [hr] at h
                  | some x =>
                    rw [hr] at h
                    rw [ih child rest x hr]
                    exact h
              · simp only [hlt, if_false] at h ⊢
                cases hr : setNode fuel Node.zero rest v with
                | none => simp [hr] at h
                | some x =>
                  rw [hr] at h
                  rw [ih Node.zero rest x hr]
                  exact h
          | str s => exact h
          | other ty => exact h
        · simp only [hseq, if_false] at h ⊢
          by_cases hsc : node.kind = ScalarNode
          · simp only [hsc, if_true] at h ⊢
            exact h
          · simp only [hsc, if_false] at h ⊢
            by_cases hal : node.kind = AliasNode
            · simp only [hal, if_true] at h ⊢
              exact h
            · simp only [hal, if_false] at h ⊢
              have hm : encode (.map []) = .ok emptyMapping := rfl
              have hl : encode (.list []) = .ok emptySequence := rfl
              cases seg with
              | str s =>
                simp only [hm] at h ⊢
                exact ih emptyMapping _ r h
              | int i =>
                simp only [hl] at h ⊢
                exact ih emptySequence _ r h
              | other ty => exact h

/-- What `setNode` returns with some number of calls, it returns with any larger
number. -/
theorem setNode_fuel_le (v : Value) (node : Node) (p : List Seg) (r : Node × Status) :
    ∀ (fuel fuel' : Nat), fuel ≤ fuel' → setNode fuel node p v = some r →
      setNode fuel' node p v = some r := by
  intro fuel fuel' hle h
  induction hle with
  | refl => exact h
  | step _ ih => exact setNode_fuel_succ v _ node p r ih

/-- Claim C21: `setNode` returns for every node, path and value.  With
`2 * length + 1` calls, one per dispatch and one to encode the value, it returns, and
more calls give the same result.  A node without a kind is turned into an empty
Mapping or an empty Sequence and the same path is dispatched on it, a node that has
a kind; a node that has a kind passes the rest of the path on, so it needs at most
`2 * length` calls: each segment is dispatched at most twice.  From a root without
a kind the path `["a"]` takes the three calls. -/
theorem setNode_terminates (node : Node) (path : List Seg) (value : Value) :
    (∃ r, Template.Set node path value = some r ∧
      ∀ fuel, 2 * path.length + 1 ≤ fuel → setNode fuel node path value = some r) ∧
    (∀ fuel s rest, node.kindless →
      setNode (fuel + 1) node (.str s :: rest) value
        = setNode fuel emptyMapping (.str s :: rest) value) ∧
    (∀ fuel i rest, node.kindless →
      setNode (fuel + 1) node (.int i :: rest) value
        = setNode fuel emptySequence (.int i :: rest) value) ∧
    (emptyMapping.kind = MappingNode ∧ ¬ emptyMapping.kindless) ∧
    (emptySequence.kind = SequenceNode ∧ ¬ emptySequence.kindless) ∧
    (¬ node.kindless → path ≠ [] →
      ∀ fuel, 2 * path.length ≤ fuel → ∃ r, setNode fuel node path value = some r) ∧
    (setNode 2 Node.zero [.str "a"] (.str "x") = none ∧
      setNode 3 Node.zero [.str "a"] (.str "x")
        = some (Node.mk MappingNode "!!map" "" [setString "a", setString "x"], .ok)) := by
  refine ⟨?_, ?_, ?_, ⟨rfl, fun hh => hh.2.1 rfl⟩, ⟨rfl, fun hh => hh.2.2.1 rfl⟩, ?_, ⟨rfl, rfl⟩⟩
  · obtain ⟨r, hr⟩ := setNode_returns value path (2 * path.length + 1) node (le_refl _)
    exact ⟨r, hr, fun fuel hle => setNode_fuel_le value node path r _ fuel hle hr⟩
  · intro fuel s rest hkl
    exact setNode_kindless_str fuel node s rest value hkl
  · intro fuel i rest hkl
    exact setNode_kindless_int fuel node i rest value hkl
  · intro hkl hpath fuel hfuel
    cases path with
    | nil => exact absurd rfl hpath
    | cons seg rest =>
      exact setNode_returns_kinded value rest (setNode_returns value rest) fuel node seg hkl
        (by simpa using hfuel)

/-- A tree without Document nodes has none among the children of its root. -/
theorem documentFreeList_get :
    ∀ (cs : List Node) (j : Nat) (x : Node),
      documentFreeList cs = true → cs[j]? = some x → x.documentFree = true := by
  intro cs
  induction cs with
  | nil => intro j x _ h; simp at h
  | cons a l ih =>
    intro j x h hx
    simp [documentFreeList] at h
    cases j with
    | zero => simp at hx; subst hx; exact h.1
    | succ j => simp at hx; exact ih j x h.2 hx

/-- The root of a tree without Document nodes is no Document, and its children form
trees without Document nodes. -/
theorem documentFree_root (n : Node) (h : n.documentFree = true) :
    n.kind ≠ DocumentNode ∧ documentFreeList n.content = true := by
  cases n with
  | mk k t v cs =>
    simp [Node.documentFree] at h
    exact ⟨h.1, h.2⟩

mutual
/-- In a tree without Document nodes the shape of the library is whole entries in
every Mapping. -/
theorem paired_of_wellFormed :
    ∀ (n : Node), n.documentFree = true → n.wellFormed = true → n.paired = true
  | .mk k t v cs, hd, hw => by
    simp [Node.documentFree] at hd
    simp [Node.wellFormed] at hw
    simp only [Node.paired, Bool.and_eq_true, Bool.or_eq_true, bne_iff_ne, ne_eq,
      beq_iff_eq]
    refine ⟨?_, pairedList_of_wellFormed cs hd.2 hw.2⟩
    by_cases hk : k = MappingNode
    · right
      rcases hw.1.1 with h | h
      · exact absurd hk h
      · exact h
    · left
      exact ⟨hk, hd.1⟩
/-- The same for every tree of a list. -/
theorem pairedList_of_wellFormed :
    ∀ (cs : List Node), documentFreeList cs = true → wellFormedList cs = true →
      pairedList cs = true
  | [], _, _ => rfl
  | n :: ns, hd, hw => by
    simp [documentFreeList] at hd
    simp [wellFormedList] at hw
    simp [pairedList, paired_of_wellFormed n hd.1 hw.1, pairedList_of_wellFormed ns hd.2 hw.2]
end

/-- A blocked descent makes `getNode` return the error of the blocking segment. -/
theorem getNode_error_of_blocked (n : Node) (p : List Seg) (e : Err) (h : Blocked n p e) :
    getNode n p = .error e := by
  induction h with
  | unknownKey n s rest hk hno =>
    have := (findKey_none_iff s n.content).mpr hno
    simp [getNode, hk, this]
  | mapIndexType n seg rest hk hseg =>
    cases seg with
    | str s => exact absurd rfl (hseg s)
    | int i => simp [getNode, hk]
    | other ty => simp [getNode, hk]
  | indexOutOfRange n i rest hk hi =>
    simp [getNode, hk, MappingNode, DocumentNode, SequenceNode, hi]
  | seqIndexType n seg rest hk hseg =>
    cases seg with
    | int i => exact absurd rfl (hseg i)
    | str s => simp [getNode, hk, MappingNode, DocumentNode, SequenceNode]
    | other ty => simp [getNode, hk, MappingNode, DocumentNode, SequenceNode]
  | notIndexable n seg rest hk =>
    simp [getNode, hk, MappingNode, DocumentNode, SequenceNode, ScalarNode]
  | aliasUnsupported n seg rest hk =>
    simp [getNode, hk, MappingNode, DocumentNode, SequenceNode, ScalarNode, AliasNode]
  | unexpectedKind n seg rest h1 h2 h3 h4 h5 =>
    simp [getNode, h1, h2, h3, h4, h5]
  | underKey n child s i rest e hk hfirst hchild _ ih =>
    have := (findKey_some_iff s n.content i).mpr hfirst
    simp [getNode, hk, this, hchild, ih]
  | underIndex n child i rest e hk h0 h1 hchild _ ih =>
    have h0' : ¬ i < 0 := by omega
    have h1' : ¬ (n.content.length : Int) ≤ i := by omega
    simp [getNode, hk, MappingNode, DocumentNode, SequenceNode, h0', h1', hchild, ih]

/-- In a tree without Document nodes, an error of `getNode` comes from a blocked
descent. -/
theorem blocked_of_getNode_error :
    ∀ (p : List Seg) (n : Node) (e : Err), n.documentFree = true →
      getNode n p = .error e → Blocked n p e := by
  intro p
  induction p with
  | nil => intro n e _ h; simp [getNode] at h
  | cons seg rest ih =>
    intro n e hfree h
    obtain ⟨hd, hcs⟩ := documentFree_root n hfree
    unfold getNode at h
    by_cases hm : n.kind = MappingNode
    · have hmap : n.kind = DocumentNode ∨ n.kind = MappingNode := Or.inr hm
      simp only [hmap, if_true] at h
      cases seg with
      | str s =>
        simp only at h
        cases hf : findKey s n.content with
        | none =>
          simp [hf] at h
          subst h
          exact Blocked.unknownKey n s rest hm ((findKey_none_iff s _).mp hf)
        | some i =>
          simp only [hf] at h
          cases hc : n.content[i + 1]? with
          | none => simp [hc] at h
          | some child =>
            simp only [hc] at h
            exact Blocked.underKey n child s i rest e hm ((findKey_some_iff s _ i).mp hf) hc
              (ih child e (documentFreeList_get _ _ _ hcs hc) h)
      | int i =>
        simp at h
        subst h
        exact Blocked.mapIndexType n (.int i) rest hm (by intro s; simp)
      | other ty =>
        simp at h
        subst h
        exact Blocked.mapIndexType n (.other ty) rest hm (by intro s; simp)
    · have hmap : ¬ (n.kind = DocumentNode ∨ n.kind = MappingNode) := by
        rintro (hh | hh)
        · exact hd hh
        · exact hm hh
      simp only [hmap, if_false] at h
      by_cases hseq : n.kind = SequenceNode
      · simp only [hseq, if_true] at h
        cases seg with
        | int i =>
          simp only at h
          by_cases hi : i < 0 ∨ i ≥ n.content.length
          · simp only [hi, if_true] at h
            simp at h
            subst h
            exact Blocked.indexOutOfRange n i rest hseq hi
          · simp only [hi, if_false] at h
            cases hc : n.content[i.toNat]? with
            | none => simp [hc] at h
            | some child =>
              simp only [hc] at h
              exact Blocked.underIndex n child i rest e hseq (by omega) (by omega) hc
                (ih child e (documentFreeList_get _ _ _ hcs hc) h)
        | str s =>
          simp at h
          subst h
          exact Blocked.seqIndexType n (.str s) rest hseq (by intro s; simp)
        | other ty =>
          simp at h
          subst h
          exact Blocked.seqIndexType n (.other ty) rest hseq (by intro s; simp)
      · simp only [hseq, if_false] at h
        by_cases hsc : n.kind = ScalarNode
        · simp [hsc] at h
          subst h
          exact Blocked.notIndexable n seg rest hsc
        · simp only [hsc, if_false] at h
          by_cases hal : n.kind = AliasNode
          · simp [hal] at h
            subst h
            exact Blocked.aliasUnsupported n seg rest hal
          · simp [hal] at h
            subst h
            exact Blocked.unexpectedKind n seg rest hd hm hseq hsc hal

/-- Descent can only be blocked when there is a segment to follow. -/
theorem blocked_path_ne_nil (n : Node) (p : List Seg) (e : Err) (h : Blocked n p e) :
    p ≠ [] := by
  cases h <;> simp

/-- Claim C4, amended: on a tree that holds no Document node, `getNode` returns an error
exactly when descent is blocked at some segment, and the error is the one of the first
segment that cannot be followed: besides the listed cases, a segment at a node of none
of the five kinds gives the unexpected-kind error.  When every Mapping of the tree
holds whole entries, `getNode` fails in no other way: it returns no node exactly when
descent is blocked. -/
theorem getNode_error_iff_blocked (n : Node) (p : List Seg) (hfree : n.documentFree = true) :
    (∀ e, getNode n p = .error e ↔ Blocked n p e) ∧
      (n.wellFormed = true → ((∀ x, getNode n p ≠ .ok x) ↔ ∃ e, Blocked n p e)) ∧
      ((∃ e, Blocked n p e) → p ≠ []) := by
  have herr : ∀ e, getNode n p = .error e ↔ Blocked n p e :=
    fun e => ⟨blocked_of_getNode_error p n e hfree, getNode_error_of_blocked n p e⟩
  refine ⟨herr, ?_, ?_⟩
  · intro hw
    have hnp := getNode_no_panic_paired p n (paired_of_wellFormed n hfree hw)
    constructor
    · intro hno
      cases hg : getNode n p with
      | ok x => exact absurd hg (hno x)
      | error e => exact ⟨e, (herr e).mp hg⟩
      | panic => exact absurd hg hnp
    · rintro ⟨e, he⟩ x hx
      rw [(herr e).mpr he] at hx
      cases hx
  · rintro ⟨e, he⟩
    exact blocked_path_ne_nil n p e he

/-- Witness of `getNode_error_iff_blocked`: in `{a: {c: "1"}, b: "2"}` the path
`["a", "x"]` is blocked at its second segment, which matches no key of the Mapping
under `a`. -/
theorem getNode_error_iff_blocked_witness :
    sampleTree.documentFree = true ∧ sampleTree.wellFormed = true ∧
      getNode sampleTree [.str "a", .str "x"] = .error (.unknownKey "x") ∧
      ((∀ e, getNode sampleTree [.str "a", .str "x"] = .error e ↔
          Blocked sampleTree [.str "a", .str "x"] e) ∧
        (sampleTree.wellFormed = true →
          ((∀ x, getNode sampleTree [.str "a", .str "x"] ≠ .ok x) ↔
            ∃ e, Blocked sampleTree [.str "a", .str "x"] e)) ∧
        ((∃ e, Blocked sampleTree [.str "a", .str "x"] e) →
          [Seg.str "a", Seg.str "x"] ≠ [])) :=
  ⟨rfl, rfl, rfl, getNode_error_iff_blocked sampleTree [.str "a", .str "x"] rfl⟩

/-- The decoder on four trees: a node that has no kind yet decodes to the nil map; an
entry with the integer key `1` decodes to a `map[interface{}]interface{}`, on which
the type assertion of `Graph` fails; the integer `0x10` is 16; a Mapping that holds
the key `a` twice is a decoding error. -/
theorem template_map_examples :
    Template.Map Node.zero = some [] ∧
      Template.Map (Node.mk MappingNode "!!map" ""
          [setString "Resources",
           Node.mk MappingNode "!!map" ""
             [setString "B",
              Node.mk MappingNode "!!map" ""
                [Node.mk ScalarNode "!!int" "1" [], setString "x",
                 setString "P",
                 Node.mk MappingNode "!!map" "" [setString "Ref", setString "Missing"]]]])
        = some [("Resources", .map [("B", .generalMap
            [(.int 1, .str "x"), (.str "P", .map [("Ref", .str "Missing")])])])] ∧
      (∀ refs, Template.Graph refs (Node.mk MappingNode "!!map" ""
          [setString "Resources",
           Node.mk MappingNode "!!map" ""
             [setString "B",
              Node.mk MappingNode "!!map" ""
                [Node.mk ScalarNode "!!int" "1" [], setString "x",
                 setString "P",
                 Node.mk MappingNode "!!map" "" [setString "Ref", setString "Missing"]]]])
        = .notAMap "Resources" "B") ∧
      Template.Map (Node.mk MappingNode "!!map" ""
          [setString "n", Node.mk ScalarNode "!!int" "0x10" []]) = some [("n", .int 16)] ∧
      Template.Map (Node.mk MappingNode "!!map" ""
          [setString "a", setString "x", setString "a", setString "y"]) = none :=
  ⟨rfl, rfl, fun _ => rfl, rfl, rfl⟩

end Cfn
